import Mathlib

/-!
# insuranceGuards: distance from every room to the nearest guard

A shallow embedding of `insuranceGuards.go`.  Go's `int` is modelled by `Int`: the
values `Score` writes are at most `MaxInt32 + 1` and the coordinates it forms are
within one step of the grid, far from the 64-bit range.  The matrix `dist [][]int`
is a `List (List Int)`, the `visited` map the list of its keys, and the linked list
`toVisit` the part of the list from the cursor on.  Calls that stop the program
(`log.Fatal`, a runtime panic) return `Except.error`; `make` panics as the 64-bit runtime
does, on a negative length and on a length of more than `maxAlloc` bytes (memory that runs
out below that limit depends on the machine and is outside the embedding).  The queue loop of
`calcDistances` appends to the list it walks, so the embedding counts its turns:
`Score fuel g` fails with `outOfFuel` when a loop needs more than `fuel` turns, and
`ScoresTo g g1` says that `Score` returns `g1` for every allowance from
`scoreFuel g` on.
-/

namespace insuranceGuards

/-! ## Data model -/

/-- Ways in which a call stops without returning. -/
inductive Err where
  /-- the `log.Fatal` of `validRoom`: the room is not in the grid -/
  | notValidRoom (r c : Int)
  /-- the `log.Fatal` of `placeGuard` and `lockRoom` on a fixed grid -/
  | locationsFixed
  /-- the runtime panic of `make` (`makeslice: len out of range`): the length is negative or
  its bytes exceed the limit of one allocation -/
  | makeLen
  /-- the runtime panic of an index expression out of range -/
  | indexRange
  /-- the queue loop has not ended within the steps granted to the model -/
  | outOfFuel
  deriving DecidableEq, Repr

/-- The marker of a guard room. -/
def GUARD : Int := -2
/-- The marker of a locked room. -/
def LOCKED : Int := -1
/-- The value of a room no guard has reached. -/
def UNREACHABLE : Int := 0
/-- Go's `math.MaxInt32`. -/
def MaxInt32 : Int := 2147483647

/-- The struct `room`. -/
structure room where
  r : Int
  c : Int
  deriving DecidableEq, Repr

/-- The struct `grid`; `dist` is indexed `[row][column]`. -/
structure grid where
  dist : List (List Int)
  cMax : Int
  rMax : Int
  fixed : Bool
  deriving DecidableEq, Repr

/-! ## Memory access -/

/-- The limit `maxAlloc` of the Go runtime on the bytes of one allocation: `1 << 48` on the
64-bit platforms with 48 bits of heap address (linux/amd64). -/
def maxAlloc : Int := 281474976710656
/-- The bytes of an `int`, the element of `[]int`. -/
def intSize : Int := 8
/-- The bytes of a slice header, the element of `[][]int`. -/
def sliceSize : Int := 24

/-- The Go expression `make([]int, n)`.  The runtime (`makeslice`) panics when the length is
negative or when its bytes exceed `maxAlloc`. -/
def makeInts (n : Int) : Except Err (List Int) :=
  if n < 0 ∨ maxAlloc < intSize * n then .error .makeLen else .ok (List.replicate n.toNat 0)

/-- The Go expression `g.dist[i]`. -/
def readRow (g : grid) (i : Int) : Except Err (List Int) :=
  if i < 0 then .error .indexRange
  else match g.dist[i.toNat]? with
    | some row => .ok row
    | none => .error .indexRange

/-- The Go expression `g.dist[r.r][r.c]`. -/
def readDist (g : grid) (r : room) : Except Err Int :=
  match readRow g r.r with
  | .error e => .error e
  | .ok row =>
    if r.c < 0 then .error .indexRange
    else match row[r.c.toNat]? with
      | some v => .ok v
      | none => .error .indexRange

/-- The Go statement `g.dist[r.r][r.c] = v`. -/
def writeDist (g : grid) (r : room) (v : Int) : Except Err grid :=
  match readRow g r.r with
  | .error e => .error e
  | .ok row =>
    if r.c < 0 then .error .indexRange
    else if row.length ≤ r.c.toNat then .error .indexRange
    else .ok { g with dist := g.dist.set r.r.toNat (row.set r.c.toNat v) }

/-! ## Construction and configuration -/

/-- The loop of `NewGrid`: one `make([]int, cMax)` for each of the `n` rows. -/
def newRows : Nat → Int → Except Err (List (List Int))
  | 0, _ => .ok []
  | n + 1, cMax =>
    match makeInts cMax with
    | .error e => .error e
    | .ok row =>
      match newRows n cMax with
      | .error e => .error e
      | .ok rows => .ok (row :: rows)

/-- Go `NewGrid`: `make([][]int, rMax)`, which panics like `make([]int, n)` with slice headers
for elements, then the rows, then the two bounds. -/
def NewGrid (rMax cMax : Int) : Except Err grid :=
  if rMax < 0 ∨ maxAlloc < sliceSize * rMax then .error .makeLen
  else match newRows rMax.toNat cMax with
    | .error e => .error e
    | .ok rows => .ok { dist := rows, cMax := cMax, rMax := rMax, fixed := false }

/-- Go `Fix`. -/
def Fix (g : grid) : grid := { g with fixed := true }

/-- Go `contains`. -/
def contains (g : grid) (r : room) : Bool :=
  if r.r ≥ 0 ∧ r.r < g.rMax ∧ r.c ≥ 0 ∧ r.c < g.cMax then true else false

/-- Go `validRoom`. -/
def validRoom (g : grid) (r : room) : Except Err Unit :=
  if !contains g r then .error (.notValidRoom r.r r.c) else .ok ()

/-- Go `placeGuard`. -/
def placeGuard (g : grid) (r : room) : Except Err grid :=
  if g.fixed then .error .locationsFixed
  else match validRoom g r with
    | .error e => .error e
    | .ok _ => writeDist g r GUARD

/-- Go `guarded`. -/
def guarded (g : grid) (r : room) : Except Err Bool :=
  match validRoom g r with
  | .error e => .error e
  | .ok _ =>
    match readDist g r with
    | .error e => .error e
    | .ok v => if v = GUARD then .ok true else .ok false

/-- Go `lockRoom`. -/
def lockRoom (g : grid) (r : room) : Except Err grid :=
  if g.fixed then .error .locationsFixed
  else match validRoom g r with
    | .error e => .error e
    | .ok _ => writeDist g r LOCKED

/-- Go `locked`. -/
def locked (g : grid) (r : room) : Except Err Bool :=
  match validRoom g r with
  | .error e => .error e
  | .ok _ =>
    match readDist g r with
    | .error e => .error e
    | .ok v => if v = LOCKED then .ok true else .ok false

/-- Go `PlaceGuards`: `placeGuard` on each room in turn. -/
def PlaceGuards (g : grid) : List room → Except Err grid
  | [] => .ok g
  | r :: rooms =>
    match placeGuard g r with
    | .error e => .error e
    | .ok g1 => PlaceGuards g1 rooms

/-- Go `LockRooms`: `lockRoom` on each room in turn. -/
def LockRooms (g : grid) : List room → Except Err grid
  | [] => .ok g
  | r :: rooms =>
    match lockRoom g r with
    | .error e => .error e
    | .ok g1 => LockRooms g1 rooms

/-! ## Scoring -/

/-- A loop `for x in xs { if keep(x) { out = append(out, x) } }` whose test can stop the
program: the rooms kept, in the order visited. -/
def keepRooms (keep : room → Except Err Bool) : List room → Except Err (List room)
  | [] => .ok []
  | x :: xs =>
    match keep x with
    | .error e => .error e
    | .ok b =>
      match keepRooms keep xs with
      | .error e => .error e
      | .ok out => .ok (if b then x :: out else out)

/-- The rooms `room{r, c}` for `r < rMax`, `c < cMax`, in the order of the two nested loops. -/
def allRooms (g : grid) : List room :=
  (List.range g.rMax.toNat).flatMap fun (r : Nat) =>
    (List.range g.cMax.toNat).map fun (c : Nat) => room.mk (r : Int) (c : Int)

/-- Go `findGuards`. -/
def findGuards (g : grid) : Except Err (List room) :=
  keepRooms (guarded g) (allRooms g)

/-- Go `proposeNeighbors`. -/
def proposeNeighbors (r : room) : List room :=
  [⟨r.r - 1, r.c⟩, ⟨r.r, r.c - 1⟩, ⟨r.r + 1, r.c⟩, ⟨r.r, r.c + 1⟩]

/-- The test `g.contains(cr) && !g.guarded(cr) && !g.locked(cr)` of `neighbors`. -/
def neighborTest (g : grid) (cr : room) : Except Err Bool :=
  if contains g cr then
    match guarded g cr with
    | .error e => .error e
    | .ok gd =>
      if !gd then
        match locked g cr with
        | .error e => .error e
        | .ok lk => .ok (!lk)
      else .ok false
  else .ok false

/-- Go `neighbors`. -/
def neighbors (g : grid) (r : room) : Except Err (List room) :=
  keepRooms (neighborTest g) (proposeNeighbors r)

/-- Go `abs`. -/
def abs (n : Int) : Int := if n < 0 then n * -1 else n

/-- The loop of `calcDistance` over the neighbours: the lowest value that is `> 0` and
below the running `low`. -/
def lowest (g : grid) : List room → Int → Except Err Int
  | [], low => .ok low
  | n :: ns, low =>
    match readDist g n with
    | .error e => .error e
    | .ok v => lowest g ns (if v > 0 ∧ v < low then v else low)

/-- Go `calcDistance`; returns the grid and the `visited` map it has updated. -/
def calcDistance (g : grid) (guard r : room) (visited : List room) :
    Except Err (grid × List room) :=
  if abs (guard.r - r.r) + abs (guard.c - r.c) = 1 then
    match writeDist g r 1 with
    | .error e => .error e
    | .ok g1 => .ok (g1, r :: visited)
  else
    match neighbors g r with
    | .error e => .error e
    | .ok ns =>
      match lowest g ns MaxInt32 with
      | .error e => .error e
      | .ok low =>
        match readDist g r with
        | .error e => .error e
        | .ok cur =>
          if cur = 0 then
            match writeDist g r (low + 1) with
            | .error e => .error e
            | .ok g1 => .ok (g1, r :: visited)
          else if low < cur then
            match writeDist g r (low + 1) with
            | .error e => .error e
            | .ok g1 => .ok (g1, r :: visited)
          else .ok (g, r :: visited)

/-- Go `calcDistances`.  `toVisit` is the list from the cursor `e` on; `fuel` bounds the
number of turns of the loop. -/
def calcDistances : Nat → grid → room → List room → List room → Except Err grid
  | _, g, _, [], _ => .ok g
  | 0, _, _, _ :: _, _ => .error .outOfFuel
  | fuel + 1, g, guard, r :: rest, visited =>
    if r ∈ visited then calcDistances fuel g guard rest visited
    else
      match calcDistance g guard r visited with
      | .error e => .error e
      | .ok (g1, visited1) =>
        match neighbors g1 r with
        | .error e => .error e
        | .ok ns =>
          calcDistances fuel g1 guard (rest ++ ns.filter (fun n => n ∉ visited1)) visited1

/-- Go `visitRoomsViaGuards`. -/
def visitRoomsViaGuards (fuel : Nat) (g : grid) : List room → Except Err grid
  | [] => .ok g
  | guard :: guards =>
    match neighbors g guard with
    | .error e => .error e
    | .ok ns =>
      match calcDistances fuel g guard ns [] with
      | .error e => .error e
      | .ok g1 => visitRoomsViaGuards fuel g1 guards

/-- Go `Score` (the `log.Print` on a grid that is not fixed has no effect on the grid). -/
def Score (fuel : Nat) (g : grid) : Except Err grid :=
  match findGuards g with
  | .error e => .error e
  | .ok guards => visitRoomsViaGuards fuel g guards

/-- The steps every test of the repository takes: `NewGrid`, `PlaceGuards`, `LockRooms`, `Fix`,
`Score`. -/
def runTest (rMax cMax : Int) (guards locks : List room) (fuel : Nat) : Except Err grid :=
  match NewGrid rMax cMax with
  | .error e => .error e
  | .ok g =>
    match PlaceGuards g guards with
    | .error e => .error e
    | .ok g1 =>
      match LockRooms g1 locks with
      | .error e => .error e
      | .ok g2 => Score fuel (Fix g2)

/-- The grid of `TestSmall` before `Score`: 3 x 3, one guard in the middle, fixed. -/
def smallGrid : grid := ⟨[[0, 0, 0], [0, GUARD, 0], [0, 0, 0]], 3, 3, true⟩

/-! ## Vocabulary of the specification -/

/-- The value held by room `r` (0 where the index expression would panic). -/
def cell (g : grid) (r : room) : Int :=
  match readDist g r with
  | .ok v => v
  | .error _ => 0

/-- The grid after `g.dist[r.r][r.c] = v` (the grid itself where the statement would panic). -/
def setCell (g : grid) (r : room) (v : Int) : grid :=
  match writeDist g r v with
  | .ok g1 => g1
  | .error _ => g

/-- The representation invariant of a grid: `dist` has `rMax` rows of `cMax` cells each. -/
def WF (g : grid) : Prop :=
  0 ≤ g.rMax ∧ g.dist.length = g.rMax.toNat ∧ ∀ row ∈ g.dist, (row.length : Int) = g.cMax

instance (g : grid) : Decidable (WF g) := by
  unfold WF
  infer_instance

/-- The grid of `TestSmall` after `Score`. -/
def smallScored : grid := ⟨[[2, 1, 2], [1, GUARD, 1], [2, 1, 2]], 3, 3, true⟩

/-- A 2 x 2 grid without guards or locked rooms, not fixed: `NewGrid(2, 2)`. -/
def emptyGrid2 : grid := ⟨[[0, 0], [0, 0]], 2, 2, false⟩

/-- One row of three rooms, a guard, a locked room, an open room behind it:
`NewGrid(1, 3)`, `placeGuard(room{0, 0})`, `lockRoom(room{0, 1})`. -/
def wallGrid : grid := ⟨[[GUARD, LOCKED, 0]], 3, 1, false⟩

/-- One row of three rooms with a guard in the first: `NewGrid(1, 3)`,
`placeGuard(room{0, 0})`. -/
def corridor3 : grid := ⟨[[GUARD, 0, 0]], 3, 1, false⟩

/-- A corridor of one row and 2^31 + 2 columns with a guard in the first column:
`NewGrid(1, 2147483650)` followed by `placeGuard(room{0, 0})`. -/
def longGrid : grid := ⟨[GUARD :: List.replicate 2147483649 0], 2147483650, 1, false⟩

/-- Room `r` is a guard room of the grid. -/
def isGuard (g : grid) (r : room) : Bool :=
  contains g r && decide (cell g r = GUARD)

/-- Room `r` is a locked room of the grid. -/
def isLocked (g : grid) (r : room) : Bool :=
  contains g r && decide (cell g r = LOCKED)

/-- Room `r` is an open room of the grid: inside it, neither guard nor locked. -/
def isOpen (g : grid) (r : room) : Bool :=
  contains g r && (decide (cell g r ≠ GUARD) && decide (cell g r ≠ LOCKED))

/-- `Walk g src n c`: there is a path of `n` up/down/left/right steps from `src` to `c` whose
rooms after `src` are all open. -/
inductive Walk (g : grid) (src : room) : Nat → room → Prop
  | start : Walk g src 0 src
  | step {n : Nat} {a b : room} :
      Walk g src n a → b ∈ proposeNeighbors a → isOpen g b = true → Walk g src (n + 1) b

/-- Some guard reaches room `c` by a path of `n` steps through open rooms. -/
def GuardWalk (g : grid) (n : Nat) (c : room) : Prop :=
  ∃ gd, isGuard g gd = true ∧ Walk g gd n c

/-- `d` is the length of the shortest path through open rooms from any guard to room `c`. -/
def IsDist (g : grid) (c : room) (d : Nat) : Prop :=
  GuardWalk g d c ∧ ∀ n, GuardWalk g n c → d ≤ n

/-- Guard `gd` reaches room `c` by a path of at least one step through open rooms. -/
def Reach (g : grid) (gd c : room) : Prop := ∃ n, Walk g gd (n + 1) c

/-- `lv` gives, for every room the guard `gd` reaches, the length of a shortest path to it. -/
def IsLevel (g : grid) (gd : room) (lv : room → Nat) : Prop :=
  ∀ c n, Walk g gd n c → Walk g gd (lv c) c ∧ lv c ≤ n

/-- Every positive value of an open room is backed by a path from some guard that is no longer
than the value, unless the value reached the cap `MaxInt32 + 1`; rooms no guard reaches hold 0. -/
def Sound (g0 g : grid) : Prop :=
  ∀ c, isOpen g0 c = true →
    cell g c = 0 ∨ ∃ n, GuardWalk g0 n c ∧ min (n : Int) (MaxInt32 + 1) ≤ cell g c

/-- The grids a caller can configure: `NewGrid`, then any number of successful `placeGuard` /
`lockRoom` calls, with `Fix` anywhere among them. -/
inductive Built : grid → Prop
  | new (R C : Int) (g : grid) : NewGrid R C = .ok g → Built g
  | guard (g : grid) (r : room) (g1 : grid) : Built g → placeGuard g r = .ok g1 → Built g1
  | lock (g : grid) (r : room) (g1 : grid) : Built g → lockRoom g r = .ok g1 → Built g1
  | fix (g : grid) : Built g → Built (Fix g)

/-- Grid `g1` is grid `g` with exactly room `r` set to `v`: same shape, bounds and `fixed` flag,
every other room as before. -/
def Places (g : grid) (r : room) (v : Int) (g1 : grid) : Prop :=
  WF g1 ∧ g1.rMax = g.rMax ∧ g1.cMax = g.cMax ∧ g1.fixed = g.fixed ∧ cell g1 r = v ∧
    ∀ x, contains g x = true → x ≠ r → cell g1 x = cell g x

/-- The open rooms one step from `r`: what `neighbors` returns on a well-formed grid. -/
def openNbrs (g : grid) (r : room) : List room :=
  (proposeNeighbors r).filter (isOpen g)

/-- What `calcDistance` leaves in room `r` on behalf of guard `gd`: `v` is 1 when the room is
one step from the guard; otherwise, with `low` the lowest positive value below `MaxInt32` among
the open neighbours (`MaxInt32` when there is none), `v` is `low + 1` when the room held 0 or
more than `low`, and the value the room held when not. -/
def StepValue (g : grid) (gd r : room) (v : Int) : Prop :=
  (abs (gd.r - r.r) + abs (gd.c - r.c) = 1 ∧ v = 1) ∨
  (abs (gd.r - r.r) + abs (gd.c - r.c) ≠ 1 ∧
    ∃ low, 0 < low ∧ low ≤ MaxInt32 ∧
      (∀ n ∈ openNbrs g r, 0 < cell g n → low ≤ cell g n) ∧
      (low = MaxInt32 ∨ ∃ n ∈ openNbrs g r, cell g n = low) ∧
      (((cell g r = 0 ∨ low < cell g r) ∧ v = low + 1) ∨
        (cell g r ≠ 0 ∧ cell g r ≤ low ∧ v = cell g r)))

/-- What `Score` never touches: grid `g` has the shape, bounds and `fixed` flag of `g0`, the same
open rooms, and every room of `g0` that is not open (guard or locked) holds what it held. -/
def Frame (g0 g : grid) : Prop :=
  WF g ∧ g.rMax = g0.rMax ∧ g.cMax = g0.cMax ∧ g.fixed = g0.fixed ∧
    (∀ x, isOpen g x = isOpen g0 x) ∧
    ∀ x, contains g0 x = true → isOpen g0 x = false → cell g x = cell g0 x

/-- The state of the queue loop of `calcDistances` for guard `gd`: `g0` is the grid `Score`
started on, `gs` the grid at the start of this guard, `g` the grid now, `q` the list from the
cursor on, `V` the visited rooms, `lv` the length of the shortest path from `gd`. -/
structure PassInv (g0 : grid) (gd : room) (lv : room → Nat) (gs g : grid)
    (q V : List room) : Prop where
  /-- every queued room is reached by the guard -/
  queue : ∀ r ∈ q, Reach g0 gd r
  /-- every visited room holds a positive value not above its level (capped) -/
  seen : ∀ r ∈ V, Reach g0 gd r ∧ 0 < cell g r ∧ cell g r ≤ min (lv r : Int) (MaxInt32 + 1)
  /-- the queue is ordered by level -/
  sorted : q.Pairwise (fun x y => lv x ≤ lv y)
  /-- no visited room is further than a queued one -/
  behind : ∀ r ∈ q, ∀ v ∈ V, lv v ≤ lv r
  /-- the queue spans at most two levels -/
  span : ∀ r ∈ q, ∀ r1 ∈ q, lv r1 ≤ lv r + 1
  /-- the open neighbours of the guard are visited or queued -/
  first : ∀ c, c ∈ openNbrs g0 gd → c ∈ V ∨ c ∈ q
  /-- the open neighbours of a visited room are visited or queued -/
  closed : ∀ v ∈ V, ∀ n ∈ openNbrs g0 v, n ∈ V ∨ n ∈ q
  /-- positive values are backed by paths -/
  sound : Sound g0 g
  /-- positive values have not grown since the start of this guard -/
  mono : ∀ c, isOpen g0 c = true → 0 < cell gs c → 0 < cell g c ∧ cell g c ≤ cell gs c

/-- Every room that guard `gd` reaches holds a positive value not above the length of any path
from `gd` to it, capped at `MaxInt32 + 1`. -/
def Upper (g0 g : grid) (gd : room) : Prop :=
  ∀ c n, Walk g0 gd (n + 1) c →
    0 < cell g c ∧ cell g c ≤ min (((n + 1 : Nat) : Int)) (MaxInt32 + 1)

/-- A number of loop turns that is enough for every queue loop of `Score` on `g`. -/
def scoreFuel (g : grid) : Nat := 4 * (g.rMax.toNat * g.cMax.toNat) + 4

/-- `Score` on `g` returns `g1`: it does so with every allowance of at least `scoreFuel g`. -/
def ScoresTo (g g1 : grid) : Prop :=
  ∀ fuel, scoreFuel g ≤ fuel → Score fuel g = .ok g1

/-- The states the queue loop of `calcDistances` goes through for guard `gd` when started on
grid `gs` with the list `q0` and no visited room: the grid, the list from the cursor on and
the visited rooms at the head of each turn. -/
inductive LoopState (gd : room) (gs : grid) (q0 : List room) :
    grid → List room → List room → Prop
  | start : LoopState gd gs q0 gs q0 []
  | skip {g : grid} {r : room} {rest V : List room} :
      LoopState gd gs q0 g (r :: rest) V → r ∈ V → LoopState gd gs q0 g rest V
  | visit {g g1 : grid} {r : room} {rest V V1 ns : List room} :
      LoopState gd gs q0 g (r :: rest) V → r ∉ V →
      calcDistance g gd r V = .ok (g1, V1) → neighbors g1 r = .ok ns →
      LoopState gd gs q0 g1 (rest ++ ns.filter (fun n => n ∉ V1)) V1

/-- The states the loop of `visitRoomsViaGuards` goes through when `Score` runs on `g0`: the
grid before a guard's pass and the guards still to come. -/
inductive GuardState (g0 : grid) : grid → List room → Prop
  | start {guards : List room} : findGuards g0 = .ok guards → GuardState g0 g0 guards
  | next {g g1 : grid} {gd : room} {rest ns : List room} {fuel : Nat} :
      GuardState g0 g (gd :: rest) → neighbors g gd = .ok ns →
      calcDistances fuel g gd ns [] = .ok g1 → GuardState g0 g1 rest

/-- While `Score` runs on `g0`, `calcDistance` is applied to room `r` for guard `gd` on grid
`g`: `r` heads the list in a turn of the pass of `gd` and is not yet visited. -/
def Applies (g0 : grid) (gd r : room) (g : grid) : Prop :=
  ∃ gs rest ns q V, GuardState g0 gs (gd :: rest) ∧ neighbors gs gd = .ok ns ∧
    LoopState gd gs ns g (r :: q) V ∧ r ∉ V

/-- A call on a grid that is being configured: `placeGuard(r)`, `lockRoom(r)` or `Score()`. -/
inductive Op where
  | guard (r : room)
  | lock (r : room)
  | score
  deriving DecidableEq, Repr

/-- The calls of `ops` made in turn on `g`; `fuel` is the allowance of every `Score`. -/
def runOps (fuel : Nat) : grid → List Op → Except Err grid
  | g, [] => .ok g
  | g, .guard r :: ops =>
    match placeGuard g r with
    | .error e => .error e
    | .ok g1 => runOps fuel g1 ops
  | g, .lock r :: ops =>
    match lockRoom g r with
    | .error e => .error e
    | .ok g1 => runOps fuel g1 ops
  | g, .score :: ops =>
    match Score fuel g with
    | .error e => .error e
    | .ok g1 => runOps fuel g1 ops

/-- The call is a `Score`. -/
def Op.isScore : Op → Bool
  | .score => true
  | _ => false

/-- The call is a `lockRoom`. -/
def Op.isLock : Op → Bool
  | .lock _ => true
  | _ => false

/-- The room of a placement call is inside the grid. -/
def Op.inGrid (g : grid) : Op → Bool
  | .guard r => contains g r
  | .lock r => contains g r
  | .score => true

/-- The placement calls of `ops`, in order, without the `Score` calls. -/
def placements (ops : List Op) : List Op := ops.filter (fun o => !o.isScore)

/-- No `lockRoom` call comes after a `Score` call. -/
def noLockAfterScore : List Op → Bool
  | [] => true
  | .score :: ops => ops.all (fun o => !o.isLock)
  | _ :: ops => noLockAfterScore ops

/-- The grid `ga` of a run with `Score` calls between the placements, against the grid `gb` of
the same placements alone: same layout, `gb` configured and not fixed, and the values of `ga`
backed by paths of that layout. -/
def SameLayout (ga gb : grid) : Prop :=
  Frame gb ga ∧ Built gb ∧ gb.fixed = false ∧ Sound gb ga

/-- The grid of `R` rows and `C` columns whose room `x` holds what room `t x` of `g` holds. -/
def remap (g : grid) (R C : Int) (t : room → room) : grid :=
  { dist := (List.range R.toNat).map fun (r : Nat) =>
      (List.range C.toNat).map fun (c : Nat) => cell g (t ⟨(r : Int), (c : Int)⟩)
    cMax := C
    rMax := R
    fixed := g.fixed }

/-- The grid mirrored left-right: column `c` becomes column `cMax - 1 - c`. -/
def mirrorLR (g : grid) : grid :=
  remap g g.rMax g.cMax fun x => ⟨x.r, g.cMax - 1 - x.c⟩

/-- The grid mirrored top-bottom: row `r` becomes row `rMax - 1 - r`. -/
def mirrorTB (g : grid) : grid :=
  remap g g.rMax g.cMax fun x => ⟨g.rMax - 1 - x.r, x.c⟩

/-- The grid transposed: rows become columns. -/
def transpose (g : grid) : grid :=
  remap g g.cMax g.rMax fun x => ⟨x.c, x.r⟩

/-- The grid turned by a quarter (clockwise): transposed, then mirrored left-right. -/
def rotate (g : grid) : grid := mirrorLR (transpose g)

/-- Grid `h` is the image of grid `g` under a symmetry of the plane: `t` takes the rooms of `h`
to the rooms of `g` that hold the same, `s` is its inverse, and `t` keeps rooms one step apart
one step apart. -/
def IsImage (t s : room → room) (g h : grid) : Prop :=
  WF h ∧ h.fixed = g.fixed ∧ (∀ x, contains h x = contains g (t x)) ∧
    (∀ x, contains h x = true → cell h x = cell g (t x)) ∧
    (∀ x, t (s x) = x) ∧ (∀ x, s (t x) = x) ∧
    ∀ a b, b ∈ proposeNeighbors a ↔ t b ∈ proposeNeighbors (t a)

/-! ## Reading and writing the matrix -/

theorem contains_iff (g : grid) (r : room) :
    contains g r = true ↔ 0 ≤ r.r ∧ r.r < g.rMax ∧ 0 ≤ r.c ∧ r.c < g.cMax := by
  unfold contains
  simp

theorem readRow_of_contains {g : grid} {r : room} (hw : WF g) (hc : contains g r = true) :
    ∃ row, g.dist[r.r.toNat]? = some row ∧ readRow g r.r = .ok row ∧
      (row.length : Int) = g.cMax := by
  obtain ⟨h0, hlen, hrow⟩ := hw
  rw [contains_iff] at hc
  have hi : r.r.toNat < g.dist.length := by omega
  refine ⟨g.dist[r.r.toNat], List.getElem?_eq_getElem hi, ?_, hrow _ (List.getElem_mem hi)⟩
  unfold readRow
  rw [if_neg (by omega), List.getElem?_eq_getElem hi]

theorem readDist_of_contains {g : grid} {r : room} (hw : WF g) (hc : contains g r = true) :
    readDist g r = .ok (cell g r) := by
  obtain ⟨row, -, hr, hl⟩ := readRow_of_contains hw hc
  rw [contains_iff] at hc
  have hj : r.c.toNat < row.length := by omega
  have : readDist g r = .ok row[r.c.toNat] := by
    unfold readDist
    rw [hr]
    simp only
    rw [if_neg (by omega), List.getElem?_eq_getElem hj]
  unfold cell
  rw [this]

theorem writeDist_of_contains {g : grid} {r : room} (hw : WF g) (hc : contains g r = true)
    (v : Int) : writeDist g r v = .ok (setCell g r v) := by
  obtain ⟨row, -, hr, hl⟩ := readRow_of_contains hw hc
  rw [contains_iff] at hc
  have : writeDist g r v =
      .ok { g with dist := g.dist.set r.r.toNat (row.set r.c.toNat v) } := by
    unfold writeDist
    rw [hr]
    simp only
    rw [if_neg (by omega), if_neg (by omega)]
  unfold setCell
  rw [this]

theorem writeDist_fields {g : grid} {r : room} {v : Int} {g1 : grid}
    (h : writeDist g r v = .ok g1) :
    g1.rMax = g.rMax ∧ g1.cMax = g.cMax ∧ g1.fixed = g.fixed := by
  unfold writeDist at h
  split at h
  · cases h
  · split at h
    · cases h
    · split at h
      · cases h
      · cases h
        exact ⟨rfl, rfl, rfl⟩

theorem setCell_fields (g : grid) (r : room) (v : Int) :
    (setCell g r v).rMax = g.rMax ∧ (setCell g r v).cMax = g.cMax ∧
      (setCell g r v).fixed = g.fixed := by
  unfold setCell
  split
  · next g1 h => exact writeDist_fields h
  · exact ⟨rfl, rfl, rfl⟩

theorem setCell_rMax (g : grid) (r : room) (v : Int) : (setCell g r v).rMax = g.rMax :=
  (setCell_fields g r v).1

theorem setCell_cMax (g : grid) (r : room) (v : Int) : (setCell g r v).cMax = g.cMax :=
  (setCell_fields g r v).2.1

theorem setCell_fixed (g : grid) (r : room) (v : Int) : (setCell g r v).fixed = g.fixed :=
  (setCell_fields g r v).2.2

theorem contains_setCell (g : grid) (r : room) (v : Int) (x : room) :
    contains (setCell g r v) x = contains g x := by
  unfold contains
  rw [setCell_rMax, setCell_cMax]

theorem setCell_dist {g : grid} {r : room} (hw : WF g) (hc : contains g r = true) (v : Int) :
    ∃ row, g.dist[r.r.toNat]? = some row ∧
      (setCell g r v).dist = g.dist.set r.r.toNat (row.set r.c.toNat v) := by
  obtain ⟨row, hrow, hr, hl⟩ := readRow_of_contains hw hc
  refine ⟨row, hrow, ?_⟩
  rw [contains_iff] at hc
  unfold setCell writeDist
  rw [hr]
  simp only
  rw [if_neg (by omega), if_neg (by omega)]

theorem WF_setCell {g : grid} {r : room} (hw : WF g) (hc : contains g r = true) (v : Int) :
    WF (setCell g r v) := by
  obtain ⟨row, hrow, hd⟩ := setCell_dist hw hc v
  obtain ⟨h0, hlen, hrows⟩ := hw
  refine ⟨by rw [setCell_rMax]; exact h0, by rw [hd, setCell_rMax, List.length_set]; exact hlen, ?_⟩
  intro x hx
  rw [setCell_cMax]
  rw [hd] at hx
  rcases List.mem_or_eq_of_mem_set hx with h | h
  · exact hrows x h
  · rw [h, List.length_set]
    exact hrows row (List.mem_iff_getElem?.mpr ⟨_, hrow⟩)

theorem cell_spec {g : grid} {x : room} (hw : WF g) (hx : contains g x = true) :
    ∃ row, g.dist[x.r.toNat]? = some row ∧ row[x.c.toNat]? = some (cell g x) := by
  obtain ⟨row, hrow, hr, hl⟩ := readRow_of_contains hw hx
  refine ⟨row, hrow, ?_⟩
  have h := readDist_of_contains hw hx
  rw [contains_iff] at hx
  unfold readDist at h
  rw [hr] at h
  simp only at h
  rw [if_neg (by omega)] at h
  split at h
  · next v hv => cases h; exact hv
  · cases h

theorem cell_of_getElem? {g : grid} {x : room} (row : List Int) {v : Int}
    (h0 : 0 ≤ x.r) (h1 : 0 ≤ x.c) (hrow : g.dist[x.r.toNat]? = some row)
    (hv : row[x.c.toNat]? = some v) : cell g x = v := by
  unfold cell readDist readRow
  rw [if_neg (by omega), hrow]
  simp only
  rw [if_neg (by omega), hv]

theorem room_ext {a b : room} (hr : a.r = b.r) (hc : a.c = b.c) : a = b := by
  cases a; cases b; simp_all

theorem cell_setCell {g : grid} {r : room} (hw : WF g) (hc : contains g r = true) (v : Int)
    {x : room} (hx : contains g x = true) :
    cell (setCell g r v) x = if x = r then v else cell g x := by
  obtain ⟨row, hrow, hd⟩ := setCell_dist hw hc v
  obtain ⟨rowx, hrowx, hvx⟩ := cell_spec hw hx
  have hc1 := (contains_iff g r).1 hc
  have hx1 := (contains_iff g x).1 hx
  have hlen : r.r.toNat < g.dist.length := by
    rcases List.getElem?_eq_some.1 hrow with ⟨h, -⟩
    exact h
  have hlenr : r.c.toNat < row.length := by
    have := hw.2.2 row (List.mem_iff_getElem?.mpr ⟨_, hrow⟩)
    omega
  by_cases hr : x.r = r.r
  · have hrows : rowx = row := by
      rw [hr, hrow] at hrowx
      exact (Option.some.inj hrowx).symm
    subst hrows
    by_cases hcc : x.c = r.c
    · rw [if_pos (room_ext hr hcc)]
      refine cell_of_getElem? (rowx.set r.c.toNat v) hx1.1 hx1.2.2.1 ?_ ?_
      · rw [hd, hr, List.getElem?_set, if_pos rfl, if_pos hlen]
      · rw [hcc, List.getElem?_set, if_pos rfl, if_pos hlenr]
    · rw [if_neg (fun h => hcc (by rw [h]))]
      refine cell_of_getElem? (rowx.set r.c.toNat v) hx1.1 hx1.2.2.1 ?_ ?_
      · rw [hd, hr, List.getElem?_set, if_pos rfl, if_pos hlen]
      · rw [List.getElem?_set_ne (by omega)]
        exact hvx
  · rw [if_neg (fun h => hr (by rw [h]))]
    refine cell_of_getElem? rowx hx1.1 hx1.2.2.1 ?_ hvx
    rw [hd, List.getElem?_set_ne (by omega)]
    exact hrowx

theorem cell_setCell_self {g : grid} {r : room} (hw : WF g) (hc : contains g r = true)
    (v : Int) : cell (setCell g r v) r = v := by
  rw [cell_setCell hw hc v hc, if_pos rfl]

theorem cell_setCell_ne {g : grid} {r : room} (hw : WF g) (hc : contains g r = true) (v : Int)
    {x : room} (hx : contains g x = true) (hne : x ≠ r) :
    cell (setCell g r v) x = cell g x := by
  rw [cell_setCell hw hc v hx, if_neg hne]

/-! ## The queries and the neighbour scan -/

theorem validRoom_of_contains {g : grid} {r : room} (hc : contains g r = true) :
    validRoom g r = .ok () := by
  unfold validRoom
  rw [hc]
  rfl

theorem validRoom_of_not_contains {g : grid} {r : room} (hc : contains g r = false) :
    validRoom g r = .error (.notValidRoom r.r r.c) := by
  unfold validRoom
  rw [hc]
  rfl

theorem guarded_of_contains {g : grid} {r : room} (hw : WF g) (hc : contains g r = true) :
    guarded g r = .ok (decide (cell g r = GUARD)) := by
  unfold guarded
  rw [validRoom_of_contains hc, readDist_of_contains hw hc]
  simp only
  split <;> simp_all

theorem locked_of_contains {g : grid} {r : room} (hw : WF g) (hc : contains g r = true) :
    locked g r = .ok (decide (cell g r = LOCKED)) := by
  unfold locked
  rw [validRoom_of_contains hc, readDist_of_contains hw hc]
  simp only
  split <;> simp_all

theorem guarded_of_not_contains {g : grid} {r : room} (hc : contains g r = false) :
    guarded g r = .error (.notValidRoom r.r r.c) := by
  unfold guarded
  rw [validRoom_of_not_contains hc]

theorem locked_of_not_contains {g : grid} {r : room} (hc : contains g r = false) :
    locked g r = .error (.notValidRoom r.r r.c) := by
  unfold locked
  rw [validRoom_of_not_contains hc]

theorem neighborTest_eq {g : grid} (hw : WF g) (cr : room) :
    neighborTest g cr = .ok (isOpen g cr) := by
  unfold neighborTest isOpen
  by_cases hc : contains g cr = true
  · rw [if_pos hc, guarded_of_contains hw hc, locked_of_contains hw hc, hc]
    by_cases h1 : cell g cr = GUARD
    · simp [h1]
    · simp [h1]
  · rw [if_neg hc]
    simp only [Bool.not_eq_true] at hc
    rw [hc]
    rfl

theorem keepRooms_eq {keep : room → Except Err Bool} {p : room → Bool} :
    ∀ xs : List room, (∀ x ∈ xs, keep x = .ok (p x)) → keepRooms keep xs = .ok (xs.filter p)
  | [], _ => rfl
  | x :: xs, h => by
    unfold keepRooms
    rw [h x (List.mem_cons_self x xs),
      keepRooms_eq xs (fun y hy => h y (List.mem_cons_of_mem x hy))]
    simp only
    cases hp : p x <;> simp [List.filter, hp]

theorem neighbors_eq {g : grid} (hw : WF g) (r : room) :
    neighbors g r = .ok (openNbrs g r) :=
  keepRooms_eq _ (fun x _ => neighborTest_eq hw x)

theorem mem_openNbrs {g : grid} {r n : room} :
    n ∈ openNbrs g r ↔ n ∈ proposeNeighbors r ∧ isOpen g n = true := by
  unfold openNbrs
  rw [List.mem_filter]

theorem mem_allRooms {g : grid} {x : room} : x ∈ allRooms g ↔ contains g x = true := by
  rw [contains_iff]
  unfold allRooms
  constructor
  · intro h
    obtain ⟨i, hi, hx⟩ := List.mem_flatMap.1 h
    obtain ⟨j, hj, rfl⟩ := List.mem_map.1 hx
    rw [List.mem_range] at hi hj
    simp only
    omega
  · rintro ⟨h1, h2, h3, h4⟩
    refine List.mem_flatMap.2 ⟨x.r.toNat, List.mem_range.2 (by omega),
      List.mem_map.2 ⟨x.c.toNat, List.mem_range.2 (by omega), ?_⟩⟩
    apply room_ext
    · simp only
      omega
    · simp only
      omega

theorem findGuards_eq {g : grid} (hw : WF g) :
    findGuards g = .ok ((allRooms g).filter (isGuard g)) := by
  apply keepRooms_eq
  intro x hx
  have hc := mem_allRooms.1 hx
  rw [guarded_of_contains hw hc]
  unfold isGuard
  rw [hc]
  rfl

theorem mem_findGuards {g : grid} {x : room} :
    x ∈ (allRooms g).filter (isGuard g) ↔ isGuard g x = true := by
  rw [List.mem_filter, mem_allRooms]
  unfold isGuard
  simp only [Bool.and_eq_true, decide_eq_true_eq]
  tauto

theorem isOpen_iff {g : grid} {r : room} :
    isOpen g r = true ↔ contains g r = true ∧ cell g r ≠ GUARD ∧ cell g r ≠ LOCKED := by
  unfold isOpen
  simp

theorem isGuard_iff {g : grid} {r : room} :
    isGuard g r = true ↔ contains g r = true ∧ cell g r = GUARD := by
  unfold isGuard
  simp

/-! ## Placement -/

theorem grid_ext {a b : grid} (h1 : a.dist = b.dist) (h2 : a.cMax = b.cMax)
    (h3 : a.rMax = b.rMax) (h4 : a.fixed = b.fixed) : a = b := by
  cases a; cases b; simp_all

theorem Places_setCell {g : grid} {r : room} (hw : WF g) (hc : contains g r = true) (v : Int) :
    Places g r v (setCell g r v) :=
  ⟨WF_setCell hw hc v, setCell_rMax g r v, setCell_cMax g r v, setCell_fixed g r v,
    cell_setCell_self hw hc v, fun _ hx hne => cell_setCell_ne hw hc v hx hne⟩

theorem placeGuard_eq {g : grid} {r : room} (hw : WF g) (hf : g.fixed = false)
    (hc : contains g r = true) : placeGuard g r = .ok (setCell g r GUARD) := by
  unfold placeGuard
  rw [hf, validRoom_of_contains hc]
  exact writeDist_of_contains hw hc GUARD

theorem lockRoom_eq {g : grid} {r : room} (hw : WF g) (hf : g.fixed = false)
    (hc : contains g r = true) : lockRoom g r = .ok (setCell g r LOCKED) := by
  unfold lockRoom
  rw [hf, validRoom_of_contains hc]
  exact writeDist_of_contains hw hc LOCKED

theorem placeGuard_out {g : grid} {r : room} (hf : g.fixed = false)
    (hc : contains g r = false) : placeGuard g r = .error (.notValidRoom r.r r.c) := by
  unfold placeGuard
  rw [hf, validRoom_of_not_contains hc]
  rfl

theorem lockRoom_out {g : grid} {r : room} (hf : g.fixed = false)
    (hc : contains g r = false) : lockRoom g r = .error (.notValidRoom r.r r.c) := by
  unfold lockRoom
  rw [hf, validRoom_of_not_contains hc]
  rfl

theorem setCell_setCell {g : grid} {r : room} (hw : WF g) (hc : contains g r = true)
    (a b : Int) : setCell (setCell g r a) r b = setCell g r b := by
  have hw1 := WF_setCell hw hc a
  have hc1 : contains (setCell g r a) r = true := by rw [contains_setCell]; exact hc
  obtain ⟨row, hrow, hd⟩ := setCell_dist hw hc a
  obtain ⟨rowb, hrowb, hdb⟩ := setCell_dist hw hc b
  obtain ⟨row1, hrow1, hd1⟩ := setCell_dist hw1 hc1 b
  have hlen : r.r.toNat < g.dist.length := by
    rcases List.getElem?_eq_some.1 hrow with ⟨h, -⟩
    exact h
  have e1 : rowb = row := by
    rw [hrow] at hrowb
    exact (Option.some.inj hrowb).symm
  have e2 : row1 = row.set r.c.toNat a := by
    rw [hd, List.getElem?_set, if_pos rfl, if_pos hlen] at hrow1
    exact (Option.some.inj hrow1).symm
  apply grid_ext
  · rw [hd1, hdb, hd, e1, e2, List.set_set, List.set_set]
  · rw [setCell_cMax, setCell_cMax, setCell_cMax]
  · rw [setCell_rMax, setCell_rMax, setCell_rMax]
  · rw [setCell_fixed, setCell_fixed, setCell_fixed]

theorem newRows_eq (n : Nat) {C : Int} (hC : 0 ≤ C) (hCa : intSize * C ≤ maxAlloc) :
    newRows n C = .ok (List.replicate n (List.replicate C.toNat 0)) := by
  induction n with
  | zero => rfl
  | succ k ih =>
    unfold newRows makeInts
    rw [if_neg (by omega), ih]
    rfl

theorem newRows_fails (n : Nat) {C : Int} (hC : C < 0 ∨ maxAlloc < intSize * C) :
    newRows (n + 1) C = .error .makeLen := by
  unfold newRows makeInts
  rw [if_pos hC]

theorem NewGrid_eq {R C : Int} (hR : 0 ≤ R) (hRa : sliceSize * R ≤ maxAlloc) (hC : 0 ≤ C)
    (hCa : intSize * C ≤ maxAlloc) :
    NewGrid R C = .ok ⟨List.replicate R.toNat (List.replicate C.toNat 0), C, R, false⟩ := by
  unfold NewGrid
  rw [if_neg (by omega), newRows_eq _ hC hCa]

theorem NewGrid_zero (C : Int) : NewGrid 0 C = .ok ⟨[], C, 0, false⟩ := by
  unfold NewGrid
  rw [if_neg (by decide)]
  rfl

theorem NewGrid_fails {R C : Int}
    (h : (R < 0 ∨ maxAlloc < sliceSize * R) ∨ (0 < R ∧ (C < 0 ∨ maxAlloc < intSize * C))) :
    NewGrid R C = .error .makeLen := by
  unfold NewGrid
  by_cases hR : R < 0 ∨ maxAlloc < sliceSize * R
  · rw [if_pos hR]
  · rcases h with h | ⟨h0, hC⟩
    · exact absurd h hR
    · obtain ⟨k, hk⟩ : ∃ k, R.toNat = k + 1 := ⟨R.toNat - 1, by omega⟩
      rw [if_neg hR, hk, newRows_fails k hC]

/-! ## One turn of the queue loop -/

theorem adj_iff (a b : room) :
    b ∈ proposeNeighbors a ↔ abs (a.r - b.r) + abs (a.c - b.c) = 1 := by
  obtain ⟨ar, ac⟩ := a
  obtain ⟨br, bc⟩ := b
  unfold proposeNeighbors abs
  simp only [List.mem_cons, List.mem_singleton, room.mk.injEq, List.not_mem_nil, or_false]
  constructor
  · rintro (⟨h1, h2⟩ | ⟨h1, h2⟩ | ⟨h1, h2⟩ | ⟨h1, h2⟩) <;> split_ifs <;> omega
  · intro h
    split_ifs at h <;> omega

theorem adj_symm {a b : room} (h : b ∈ proposeNeighbors a) : a ∈ proposeNeighbors b := by
  rw [adj_iff] at h ⊢
  unfold abs at h ⊢
  split_ifs at h ⊢ <;> omega

theorem lowest_spec {g : grid} (hw : WF g) :
    ∀ (ns : List room) (low : Int), (∀ n ∈ ns, contains g n = true) →
      ∃ low1, lowest g ns low = .ok low1 ∧ low1 ≤ low ∧ (0 < low → 0 < low1) ∧
        (∀ n ∈ ns, 0 < cell g n → low1 ≤ cell g n) ∧
        (low1 = low ∨ ∃ n ∈ ns, cell g n = low1)
  | [], low, _ => ⟨low, rfl, le_refl _, id, fun _ hn => absurd hn (List.not_mem_nil _),
      Or.inl rfl⟩
  | n :: ns, low, h => by
    have hn := h n (List.mem_cons_self n ns)
    obtain ⟨low1, h1, h2, h3, h4, h5⟩ :=
      lowest_spec hw ns (if cell g n > 0 ∧ cell g n < low then cell g n else low)
        (fun m hm => h m (List.mem_cons_of_mem n hm))
    refine ⟨low1, ?_, ?_, ?_, ?_, ?_⟩
    · unfold lowest
      rw [readDist_of_contains hw hn]
      exact h1
    · split_ifs at h2 <;> omega
    · intro hlow
      apply h3
      split_ifs <;> omega
    · intro m hm hpos
      rcases List.mem_cons.1 hm with rfl | hm
      · split_ifs at h2 <;> omega
      · exact h4 m hm hpos
    · rcases h5 with h5 | ⟨m, hm, h5⟩
      · split_ifs at h5 with hc
        · exact Or.inr ⟨n, List.mem_cons_self n ns, h5.symm⟩
        · exact Or.inl h5
      · exact Or.inr ⟨m, List.mem_cons_of_mem n hm, h5⟩

theorem Places_refl {g : grid} (hw : WF g) (r : room) : Places g r (cell g r) g :=
  ⟨hw, rfl, rfl, rfl, rfl, fun _ _ _ => rfl⟩

theorem calcDistance_spec {g : grid} {r : room} (hw : WF g) (hr : contains g r = true)
    (gd : room) (V : List room) :
    ∃ g1 v, calcDistance g gd r V = .ok (g1, r :: V) ∧ Places g r v g1 ∧
      StepValue g gd r v := by
  by_cases hadj : abs (gd.r - r.r) + abs (gd.c - r.c) = 1
  · refine ⟨setCell g r 1, 1, ?_, Places_setCell hw hr 1, Or.inl ⟨hadj, rfl⟩⟩
    unfold calcDistance
    rw [if_pos hadj, writeDist_of_contains hw hr]
  · have hns : ∀ n ∈ openNbrs g r, contains g n = true := fun n hn =>
      (isOpen_iff.1 (mem_openNbrs.1 hn).2).1
    obtain ⟨low, h1, h2, h3, h4, h5⟩ := lowest_spec hw (openNbrs g r) MaxInt32 hns
    have hpos : 0 < low := h3 (by decide)
    have hcalc : calcDistance g gd r V =
        if cell g r = 0 then .ok (setCell g r (low + 1), r :: V)
        else if low < cell g r then .ok (setCell g r (low + 1), r :: V)
        else .ok (g, r :: V) := by
      unfold calcDistance
      rw [if_neg hadj, neighbors_eq hw]
      simp only
      rw [h1]
      simp only
      rw [readDist_of_contains hw hr]
      simp only [writeDist_of_contains hw hr]
    by_cases hz : cell g r = 0
    · refine ⟨setCell g r (low + 1), low + 1, by rw [hcalc, if_pos hz],
        Places_setCell hw hr _, Or.inr ⟨hadj, low, hpos, h2, h4, h5, Or.inl ⟨Or.inl hz, rfl⟩⟩⟩
    · by_cases hlt : low < cell g r
      · refine ⟨setCell g r (low + 1), low + 1, by rw [hcalc, if_neg hz, if_pos hlt],
          Places_setCell hw hr _, Or.inr ⟨hadj, low, hpos, h2, h4, h5, Or.inl ⟨Or.inr hlt, rfl⟩⟩⟩
      · refine ⟨g, cell g r, by rw [hcalc, if_neg hz, if_neg hlt],
          Places_refl hw r, Or.inr ⟨hadj, low, hpos, h2, h4, h5, Or.inr ⟨hz, by omega, rfl⟩⟩⟩

theorem StepValue_pos {g : grid} {gd r : room} {v : Int} (h : StepValue g gd r v) :
    0 < v ∨ v = cell g r := by
  rcases h with ⟨-, rfl⟩ | ⟨-, low, hpos, -, -, -, ⟨-, rfl⟩ | ⟨-, -, rfl⟩⟩
  · exact Or.inl (by decide)
  · exact Or.inl (by omega)
  · exact Or.inr rfl

/-! ## The frame of `Score` and the end of the queue loop -/

theorem contains_congr {g g1 : grid} (hr : g1.rMax = g.rMax) (hc : g1.cMax = g.cMax)
    (x : room) : contains g1 x = contains g x := by
  unfold contains
  rw [hr, hc]

theorem Frame_refl {g : grid} (hw : WF g) : Frame g g :=
  ⟨hw, rfl, rfl, rfl, fun _ => rfl, fun _ _ _ => rfl⟩

theorem Frame_contains {g0 g : grid} (hf : Frame g0 g) (x : room) :
    contains g x = contains g0 x :=
  contains_congr hf.2.1 hf.2.2.1 x

theorem Frame_openNbrs {g0 g : grid} (hf : Frame g0 g) (r : room) :
    openNbrs g r = openNbrs g0 r := by
  unfold openNbrs
  congr 1
  funext x
  exact hf.2.2.2.2.1 x

theorem Frame_step {g0 g g1 : grid} {r : room} {v : Int} (hf : Frame g0 g)
    (hr : isOpen g0 r = true) (hp : Places g r v g1) (hv : 0 < v ∨ v = cell g r) :
    Frame g0 g1 := by
  obtain ⟨hw, hR, hC, hF, hopen, hkeep⟩ := hf
  obtain ⟨hw1, hR1, hC1, hF1, hcell, hother⟩ := hp
  have hcont : ∀ x, contains g1 x = contains g x := contains_congr hR1 hC1
  have hcont0 : ∀ x, contains g x = contains g0 x := contains_congr hR hC
  have hrg : isOpen g r = true := by rw [hopen]; exact hr
  refine ⟨hw1, by rw [hR1, hR], by rw [hC1, hC], by rw [hF1, hF], ?_, ?_⟩
  · intro x
    rw [← hopen x]
    by_cases hx : x = r
    · subst hx
      rw [hrg]
      rw [isOpen_iff] at hrg ⊢
      refine ⟨by rw [hcont]; exact hrg.1, ?_⟩
      rw [hcell]
      rcases hv with hv | hv
      · unfold GUARD LOCKED
        constructor <;> omega
      · rw [hv]
        exact hrg.2
    · by_cases hc : contains g x = true
      · unfold isOpen
        rw [hcont, hother x hc hx]
      · unfold isOpen
        rw [hcont]
        simp only [Bool.not_eq_true] at hc
        rw [hc]
        rfl
  · intro x hx hnot
    have hne : x ≠ r := by
      rintro rfl
      rw [hr] at hnot
      cases hnot
    rw [hother x (by rw [hcont0]; exact hx) hne]
    exact hkeep x hx hnot

theorem length_flatMap_const {α β : Type} (f : α → List β) (k : Nat)
    (hf : ∀ a, (f a).length = k) : ∀ l : List α, (l.flatMap f).length = l.length * k
  | [] => by simp
  | a :: l => by
    rw [List.flatMap_cons, List.length_append, hf a, length_flatMap_const f k hf l,
      List.length_cons]
    ring

theorem length_allRooms (g : grid) : (allRooms g).length = g.rMax.toNat * g.cMax.toNat := by
  unfold allRooms
  rw [length_flatMap_const _ g.cMax.toNat (fun a => by rw [List.length_map, List.length_range]),
    List.length_range]

theorem visited_length_le {g : grid} {V : List room} (hnd : V.Nodup)
    (hV : ∀ r ∈ V, contains g r = true) : V.length ≤ g.rMax.toNat * g.cMax.toNat := by
  rw [← length_allRooms]
  exact (List.subperm_of_subset hnd (fun r hr => mem_allRooms.2 (hV r hr))).length_le

theorem calcDistances_nil (fuel : Nat) (g : grid) (gd : room) (V : List room) :
    calcDistances fuel g gd [] V = .ok g := by
  cases fuel <;> rfl

theorem calcDistances_rule (g0 : grid) (gd : room) (P : grid → List room → List room → Prop)
    (hskip : ∀ g r rest V, Frame g0 g → P g (r :: rest) V → r ∈ V → P g rest V)
    (hstep : ∀ g r rest V g1 v, Frame g0 g → isOpen g0 r = true → P g (r :: rest) V → r ∉ V →
      Places g r v g1 → StepValue g gd r v → Frame g0 g1 →
      P g1 (rest ++ (openNbrs g0 r).filter (fun n => n ∉ r :: V)) (r :: V)) :
    ∀ (fuel : Nat) (g : grid) (q V : List room), Frame g0 g →
      (∀ r ∈ q, isOpen g0 r = true) → V.Nodup → (∀ r ∈ V, contains g0 r = true) → P g q V →
      q.length + 4 * (g0.rMax.toNat * g0.cMax.toNat - V.length) ≤ fuel →
      ∃ g1 V1, calcDistances fuel g gd q V = .ok g1 ∧ Frame g0 g1 ∧ P g1 [] V1 := by
  intro fuel
  induction fuel with
  | zero =>
    intro g q V hf hq hnd hV hP hm
    cases q with
    | nil => exact ⟨g, V, rfl, hf, hP⟩
    | cons r rest =>
      simp only [List.length_cons] at hm
      omega
  | succ f ih =>
    intro g q V hf hq hnd hV hP hm
    cases q with
    | nil => exact ⟨g, V, rfl, hf, hP⟩
    | cons r rest =>
      simp only [List.length_cons] at hm
      have hro : isOpen g0 r = true := hq r (List.mem_cons_self r rest)
      have hrest : ∀ x ∈ rest, isOpen g0 x = true := fun x hx =>
        hq x (List.mem_cons_of_mem r hx)
      by_cases hr : r ∈ V
      · have hrun : calcDistances (f + 1) g gd (r :: rest) V = calcDistances f g gd rest V := by
          rw [calcDistances, if_pos hr]
        rw [hrun]
        exact ih g rest V hf hrest hnd hV (hskip g r rest V hf hP hr) (by omega)
      · have hrc0 : contains g0 r = true := (isOpen_iff.1 hro).1
        have hrc : contains g r = true := by rw [Frame_contains hf]; exact hrc0
        obtain ⟨g1, v, hc, hpl, hsv⟩ := calcDistance_spec hf.1 hrc gd V
        have hf1 : Frame g0 g1 := Frame_step hf hro hpl (StepValue_pos hsv)
        have hrun : calcDistances (f + 1) g gd (r :: rest) V =
            calcDistances f g1 gd
              (rest ++ (openNbrs g0 r).filter (fun n => n ∉ r :: V)) (r :: V) := by
          rw [calcDistances, if_neg hr, hc]
          simp only
          rw [neighbors_eq hf1.1, Frame_openNbrs hf1]
        rw [hrun]
        have hnd1 : (r :: V).Nodup := List.nodup_cons.2 ⟨hr, hnd⟩
        have hV1 : ∀ x ∈ r :: V, contains g0 x = true := by
          intro x hx
          rcases List.mem_cons.1 hx with rfl | hx
          · exact hrc0
          · exact hV x hx
        have hlen := visited_length_le hnd1 hV1
        have hq1 : ∀ x ∈ rest ++ (openNbrs g0 r).filter (fun n => n ∉ r :: V),
            isOpen g0 x = true := by
          intro x hx
          rcases List.mem_append.1 hx with hx | hx
          · exact hrest x hx
          · exact (mem_openNbrs.1 (List.mem_filter.1 hx).1).2
        have h4 : ((openNbrs g0 r).filter (fun n => n ∉ r :: V)).length ≤ 4 :=
          le_trans (List.length_filter_le _ _)
            (le_trans (List.length_filter_le _ _) (le_refl 4))
        refine ih g1 _ (r :: V) hf1 hq1 hnd1 hV1
          (hstep g r rest V g1 v hf hro hP hr hpl hsv hf1) ?_
        rw [List.length_append]
        simp only [List.length_cons] at hlen ⊢
        omega

/-! ## More loop turns do not change the result -/

theorem calcDistances_succ : ∀ (f : Nat) (g : grid) (gd : room) (q V : List room) (g1 : grid),
    calcDistances f g gd q V = .ok g1 → calcDistances (f + 1) g gd q V = .ok g1 := by
  intro f
  induction f with
  | zero =>
    intro g gd q V g1 h
    cases q with
    | nil =>
      rw [calcDistances_nil] at h ⊢
      exact h
    | cons r rest =>
      have : calcDistances 0 g gd (r :: rest) V = .error .outOfFuel := rfl
      rw [this] at h
      cases h
  | succ f ih =>
    intro g gd q V g1 h
    cases q with
    | nil =>
      rw [calcDistances_nil] at h ⊢
      exact h
    | cons r rest =>
      rw [calcDistances] at h ⊢
      by_cases hr : r ∈ V
      · rw [if_pos hr] at h ⊢
        exact ih _ _ _ _ _ h
      · rw [if_neg hr] at h ⊢
        cases hc : calcDistance g gd r V with
        | error e =>
          rw [hc] at h
          cases h
        | ok p =>
          obtain ⟨g2, V2⟩ := p
          rw [hc] at h
          simp only at h ⊢
          cases hn : neighbors g2 r with
          | error e =>
            rw [hn] at h
            cases h
          | ok ns =>
            rw [hn] at h
            simp only at h ⊢
            exact ih _ _ _ _ _ h

theorem calcDistances_mono {f f1 : Nat} (hle : f ≤ f1) {g : grid} {gd : room}
    {q V : List room} {g1 : grid} (h : calcDistances f g gd q V = .ok g1) :
    calcDistances f1 g gd q V = .ok g1 := by
  induction hle with
  | refl => exact h
  | step _ ih => exact calcDistances_succ _ _ _ _ _ _ ih

theorem visitRoomsViaGuards_mono {f f1 : Nat} (hle : f ≤ f1) :
    ∀ (guards : List room) (g g1 : grid), visitRoomsViaGuards f g guards = .ok g1 →
      visitRoomsViaGuards f1 g guards = .ok g1
  | [], g, g1, h => h
  | gd :: guards, g, g1, h => by
    unfold visitRoomsViaGuards at h ⊢
    cases hn : neighbors g gd with
    | error e =>
      rw [hn] at h
      cases h
    | ok ns =>
      rw [hn] at h
      simp only at h ⊢
      cases hc : calcDistances f g gd ns [] with
      | error e =>
        rw [hc] at h
        cases h
      | ok g2 =>
        rw [hc] at h
        rw [calcDistances_mono hle hc]
        simp only at h ⊢
        exact visitRoomsViaGuards_mono hle guards g2 g1 h

theorem Score_mono {f f1 : Nat} (hle : f ≤ f1) {g g1 : grid} (h : Score f g = .ok g1) :
    Score f1 g = .ok g1 := by
  unfold Score at h ⊢
  cases hg : findGuards g with
  | error e =>
    rw [hg] at h
    cases h
  | ok guards =>
    rw [hg] at h
    exact visitRoomsViaGuards_mono hle guards g g1 h

theorem ScoresTo_of_Score {g g1 : grid} (h : Score (scoreFuel g) g = .ok g1) : ScoresTo g g1 :=
  fun _ hle => Score_mono hle h

theorem ScoresTo_unique {g g1 g2 : grid} (h1 : ScoresTo g g1) (h2 : ScoresTo g g2) : g1 = g2 := by
  have e1 := h1 _ (le_refl _)
  have e2 := h2 _ (le_refl _)
  rw [e1] at e2
  cases e2
  rfl

/-! ## The loop over the guards -/

theorem openNbrs_length (g : grid) (r : room) : (openNbrs g r).length ≤ 4 :=
  List.length_filter_le _ _

theorem visitRooms_rule (g0 : grid) (fuel : Nat) (Q : List room → grid → Prop)
    (hpass : ∀ gd rest g, Frame g0 g → Q (gd :: rest) g →
      ∃ g1, calcDistances fuel g gd (openNbrs g0 gd) [] = .ok g1 ∧ Frame g0 g1 ∧ Q rest g1) :
    ∀ (guards : List room) (g : grid), Frame g0 g → Q guards g →
      ∃ g1, visitRoomsViaGuards fuel g guards = .ok g1 ∧ Frame g0 g1 ∧ Q [] g1
  | [], g, hf, hQ => ⟨g, rfl, hf, hQ⟩
  | gd :: rest, g, hf, hQ => by
    obtain ⟨g1, h1, hf1, hQ1⟩ := hpass gd rest g hf hQ
    obtain ⟨g2, h2, hf2, hQ2⟩ := visitRooms_rule g0 fuel Q hpass rest g1 hf1 hQ1
    refine ⟨g2, ?_, hf2, hQ2⟩
    unfold visitRoomsViaGuards
    rw [neighbors_eq hf.1, Frame_openNbrs hf]
    simp only
    rw [h1]
    exact h2

theorem Score_rule (g0 : grid) (hw : WF g0) (Q : List room → grid → Prop)
    (hpass : ∀ gd rest g, Frame g0 g → Q (gd :: rest) g →
      ∃ g1, calcDistances (scoreFuel g0) g gd (openNbrs g0 gd) [] = .ok g1 ∧
        Frame g0 g1 ∧ Q rest g1)
    (hQ : Q ((allRooms g0).filter (isGuard g0)) g0) :
    ∃ g1, ScoresTo g0 g1 ∧ Frame g0 g1 ∧ Q [] g1 := by
  obtain ⟨g1, h1, hf1, hQ1⟩ :=
    visitRooms_rule g0 (scoreFuel g0) Q hpass _ g0 (Frame_refl hw) hQ
  refine ⟨g1, ScoresTo_of_Score ?_, hf1, hQ1⟩
  unfold Score
  rw [findGuards_eq hw]
  exact h1

theorem pass_fuel (g0 : grid) (gd : room) :
    (openNbrs g0 gd).length + 4 * (g0.rMax.toNat * g0.cMax.toNat - ([] : List room).length) ≤
      scoreFuel g0 := by
  have := openNbrs_length g0 gd
  unfold scoreFuel
  simp only [List.length_nil]
  omega

theorem Score_frame {g : grid} (hw : WF g) : ∃ g1, ScoresTo g g1 ∧ Frame g g1 := by
  obtain ⟨g1, h1, hf1, -⟩ := Score_rule g hw (fun _ _ => True) (fun gd rest g2 hf _ => by
    obtain ⟨g3, V3, h3, hf3, -⟩ := calcDistances_rule g gd (fun _ _ _ => True)
      (fun _ _ _ _ _ _ _ => trivial) (fun _ _ _ _ _ _ _ _ _ _ _ _ _ => trivial)
      (scoreFuel g) g2 (openNbrs g gd) [] hf (fun r hr => (mem_openNbrs.1 hr).2)
      List.nodup_nil (fun _ h => absurd h (List.not_mem_nil _)) trivial (pass_fuel g gd)
    exact ⟨g3, h3, hf3, trivial⟩) trivial
  exact ⟨g1, h1, hf1⟩

/-! ## Paths and levels -/

theorem Walk_zero_inv {g : grid} {s c : room} (h : Walk g s 0 c) : c = s := by
  cases h
  rfl

theorem Walk_succ_inv {g : grid} {s c : room} {n : Nat} (h : Walk g s (n + 1) c) :
    ∃ a, Walk g s n a ∧ c ∈ proposeNeighbors a ∧ isOpen g c = true := by
  cases h with
  | step h1 h2 h3 => exact ⟨_, h1, h2, h3⟩

theorem Walk_open {g : grid} {s c : room} {n : Nat} (h : Walk g s (n + 1) c) :
    isOpen g c = true := by
  obtain ⟨_, -, -, h3⟩ := Walk_succ_inv h
  exact h3

theorem Walk_congr {g g0 : grid} (he : ∀ x, isOpen g x = isOpen g0 x) {s c : room} {n : Nat}
    (h : Walk g s n c) : Walk g0 s n c := by
  induction h with
  | start => exact Walk.start
  | step _ h2 h3 ih => exact Walk.step ih h2 (by rw [← he]; exact h3)

theorem mem_proposeNeighbors {a b : room} :
    b ∈ proposeNeighbors a ↔
      (b.r = a.r - 1 ∧ b.c = a.c) ∨ (b.r = a.r ∧ b.c = a.c - 1) ∨
      (b.r = a.r + 1 ∧ b.c = a.c) ∨ (b.r = a.r ∧ b.c = a.c + 1) := by
  obtain ⟨ar, ac⟩ := a
  obtain ⟨br, bc⟩ := b
  unfold proposeNeighbors
  simp only [List.mem_cons, List.mem_singleton, room.mk.injEq, List.not_mem_nil, or_false]

theorem Walk_parity {g : grid} {s c : room} {n : Nat} (h : Walk g s n c) :
    ((n : Int) + s.r + s.c + c.r + c.c) % 2 = 0 := by
  induction h with
  | start => omega
  | step _ h2 _ ih =>
    rw [mem_proposeNeighbors] at h2
    push_cast
    omega

theorem isGuard_not_open {g : grid} {gd : room} (h : isGuard g gd = true) :
    isOpen g gd = false := by
  rw [isGuard_iff] at h
  unfold isOpen
  simp [h.2]

theorem exists_level (g : grid) (gd : room) : ∃ lv, IsLevel g gd lv := by
  classical
  refine ⟨fun c => if h : ∃ n, Walk g gd n c then Nat.find h else 0, ?_⟩
  intro c n hn
  have hex : ∃ n, Walk g gd n c := ⟨n, hn⟩
  simp only [dif_pos hex]
  exact ⟨Nat.find_spec hex, Nat.find_min' hex hn⟩

theorem Reach_open {g : grid} {gd c : room} (h : Reach g gd c) : isOpen g c = true := by
  obtain ⟨n, hn⟩ := h
  exact Walk_open hn

theorem lv_walk {g : grid} {gd : room} {lv : room → Nat} (hl : IsLevel g gd lv) {c : room}
    (h : Reach g gd c) : Walk g gd (lv c) c := by
  obtain ⟨n, hn⟩ := h
  exact (hl c _ hn).1

theorem lv_pos {g : grid} {gd : room} {lv : room → Nat} (hl : IsLevel g gd lv)
    (hg : isGuard g gd = true) {c : room} (h : Reach g gd c) : 1 ≤ lv c := by
  by_contra hcon
  have h0 : lv c = 0 := by omega
  have hw := lv_walk hl h
  rw [h0] at hw
  have := Walk_zero_inv hw
  subst this
  have h1 := isGuard_not_open hg
  rw [Reach_open h] at h1
  cases h1

theorem Reach_step {g : grid} {gd a b : room} (ha : Reach g gd a) (hb : b ∈ proposeNeighbors a)
    (ho : isOpen g b = true) : Reach g gd b := by
  obtain ⟨n, hn⟩ := ha
  exact ⟨n + 1, Walk.step hn hb ho⟩

theorem lv_step {g : grid} {gd : room} {lv : room → Nat} (hl : IsLevel g gd lv) {a b : room}
    (ha : Reach g gd a) (hb : b ∈ proposeNeighbors a) (ho : isOpen g b = true) :
    lv b ≤ lv a + 1 :=
  (hl b _ (Walk.step (lv_walk hl ha) hb ho)).2

theorem lv_ne {g : grid} {gd : room} {lv : room → Nat} (hl : IsLevel g gd lv) {a b : room}
    (ha : Reach g gd a) (hb : Reach g gd b) (hab : b ∈ proposeNeighbors a) : lv a ≠ lv b := by
  have h1 := Walk_parity (lv_walk hl ha)
  have h2 := Walk_parity (lv_walk hl hb)
  rw [mem_proposeNeighbors] at hab
  intro he
  rw [he] at h1
  omega

theorem lv_pred {g : grid} {gd : room} {lv : room → Nat} (hl : IsLevel g gd lv) {c : room}
    (h : Reach g gd c) (h2 : 2 ≤ lv c) :
    ∃ p, Reach g gd p ∧ c ∈ proposeNeighbors p ∧ lv p + 1 = lv c := by
  have hw := lv_walk hl h
  obtain ⟨k, hk⟩ : ∃ k, lv c = k + 1 + 1 := ⟨lv c - 2, by omega⟩
  rw [hk] at hw
  obtain ⟨p, hp, hadj, ho⟩ := Walk_succ_inv hw
  have hrp : Reach g gd p := ⟨k, hp⟩
  refine ⟨p, hrp, hadj, ?_⟩
  have h3 := (hl p _ hp).2
  have h4 := lv_step hl hrp hadj ho
  omega

theorem Walk_one_iff {g : grid} {gd c : room} :
    Walk g gd 1 c ↔ c ∈ openNbrs g gd := by
  rw [mem_openNbrs]
  constructor
  · intro h
    obtain ⟨a, ha, hadj, ho⟩ := Walk_succ_inv h
    have := Walk_zero_inv ha
    subst this
    exact ⟨hadj, ho⟩
  · rintro ⟨hadj, ho⟩
    exact Walk.step Walk.start hadj ho

theorem lv_one_iff {g : grid} {gd : room} {lv : room → Nat} (hl : IsLevel g gd lv)
    (hg : isGuard g gd = true) {c : room} (h : Reach g gd c) :
    lv c = 1 ↔ abs (gd.r - c.r) + abs (gd.c - c.c) = 1 := by
  rw [← adj_iff]
  constructor
  · intro h1
    have hw := lv_walk hl h
    rw [h1] at hw
    exact (mem_openNbrs.1 (Walk_one_iff.1 hw)).1
  · intro hadj
    have h1 := (hl c 1 (Walk.step Walk.start hadj (Reach_open h))).2
    have h2 := lv_pos hl hg h
    omega

/-! ## The queue loop visits rooms in order of distance -/

theorem GuardWalk_pos {g : grid} {c : room} {n : Nat} (ho : isOpen g c = true)
    (h : GuardWalk g n c) : 1 ≤ n := by
  obtain ⟨gd, hg, hw⟩ := h
  by_contra hcon
  have h0 : n = 0 := by omega
  subst h0
  have := Walk_zero_inv hw
  subst this
  have h1 := isGuard_not_open hg
  rw [ho] at h1
  cases h1

theorem MaxInt32_pos : 0 < MaxInt32 := by decide

theorem Sound_pos {g0 g : grid} (hs : Sound g0 g) {c : room} (ho : isOpen g0 c = true)
    (hne : cell g c ≠ 0) : 0 < cell g c := by
  rcases hs c ho with h | ⟨n, hn, hle⟩
  · exact absurd h hne
  · have h1 := GuardWalk_pos ho hn
    have h2 := MaxInt32_pos
    omega

theorem lower_seen {g0 gs g : grid} {gd : room} {lv : room → Nat} {q V : List room}
    (hl : IsLevel g0 gd lv) (hg : isGuard g0 gd = true) (hP : PassInv g0 gd lv gs g q V) :
    ∀ (j : Nat) (c : room), Reach g0 gd c → lv c = j → (∀ x ∈ q, j < lv x) → c ∈ V := by
  intro j
  induction j with
  | zero =>
    intro c hc h0 _
    have := lv_pos hl hg hc
    omega
  | succ j ih =>
    intro c hc hj hq
    have hnq : c ∉ q := fun hmem => by
      have := hq c hmem
      omega
    rcases Nat.eq_zero_or_pos j with h0 | hpos
    · subst h0
      have hw := lv_walk hl hc
      rw [hj] at hw
      rcases hP.first c (Walk_one_iff.1 hw) with h | h
      · exact h
      · exact absurd h hnq
    · obtain ⟨p, hp, hadj, hlp⟩ := lv_pred hl hc (by omega)
      have hpV : p ∈ V := ih p hp (by omega) (fun x hx => by
        have := hq x hx
        omega)
      rcases hP.closed p hpV c (mem_openNbrs.2 ⟨hadj, Reach_open hc⟩) with h | h
      · exact h
      · exact absurd h hnq

theorem PassInv_skip {g0 gs g : grid} {gd : room} {lv : room → Nat} {r : room}
    {rest V : List room} (hP : PassInv g0 gd lv gs g (r :: rest) V) (hr : r ∈ V) :
    PassInv g0 gd lv gs g rest V where
  queue := fun x hx => hP.queue x (List.mem_cons_of_mem r hx)
  seen := hP.seen
  sorted := (List.pairwise_cons.1 hP.sorted).2
  behind := fun x hx => hP.behind x (List.mem_cons_of_mem r hx)
  span := fun x hx y hy =>
    hP.span x (List.mem_cons_of_mem r hx) y (List.mem_cons_of_mem r hy)
  first := fun c hc => by
    rcases hP.first c hc with h | h
    · exact Or.inl h
    · rcases List.mem_cons.1 h with rfl | h
      · exact Or.inl hr
      · exact Or.inr h
  closed := fun v hv n hn => by
    rcases hP.closed v hv n hn with h | h
    · exact Or.inl h
    · rcases List.mem_cons.1 h with rfl | h
      · exact Or.inl hr
      · exact Or.inr h
  sound := hP.sound
  mono := hP.mono

theorem PassInv_init {g0 g : grid} {gd : room} {lv : room → Nat}
    (hl : IsLevel g0 gd lv) (hg : isGuard g0 gd = true) (hs : Sound g0 g) :
    PassInv g0 gd lv g g (openNbrs g0 gd) [] := by
  have hreach : ∀ r ∈ openNbrs g0 gd, Reach g0 gd r := fun r hr => ⟨0, Walk_one_iff.2 hr⟩
  have hone : ∀ r ∈ openNbrs g0 gd, lv r = 1 := fun r hr => by
    have h1 := (hl r 1 (Walk_one_iff.2 hr)).2
    have h2 := lv_pos hl hg (hreach r hr)
    omega
  exact {
    queue := hreach
    seen := fun _ h => absurd h (List.not_mem_nil _)
    sorted := List.pairwise_of_forall_mem_list (fun a ha b hb => by
      rw [hone a ha, hone b hb])
    behind := fun _ _ _ h => absurd h (List.not_mem_nil _)
    span := fun a ha b hb => by
      rw [hone a ha, hone b hb]
      omega
    first := fun _ hc => Or.inr hc
    closed := fun _ h => absurd h (List.not_mem_nil _)
    sound := hs
    mono := fun _ _ h => ⟨h, le_refl _⟩ }

theorem step_value {g0 gs g : grid} {gd r : room} {lv : room → Nat} {rest V : List room}
    {v : Int} (hl : IsLevel g0 gd lv) (hg : isGuard g0 gd = true) (hf : Frame g0 g)
    (hP : PassInv g0 gd lv gs g (r :: rest) V) (hsv : StepValue g gd r v) :
    0 < v ∧ v ≤ min (lv r : Int) (MaxInt32 + 1) ∧
      (∃ n, GuardWalk g0 n r ∧ min (n : Int) (MaxInt32 + 1) ≤ v) ∧
      (0 < cell g r → v ≤ cell g r) := by
  have hrr : Reach g0 gd r := hP.queue r (List.mem_cons_self _ _)
  have hro := Reach_open hrr
  have hlv1 := lv_pos hl hg hrr
  have hM := MaxInt32_pos
  obtain ⟨n0, hn0⟩ := hrr
  have hrr : Reach g0 gd r := ⟨n0, hn0⟩
  have hgw : GuardWalk g0 (n0 + 1) r := ⟨gd, hg, hn0⟩
  rcases hsv with ⟨hadj, rfl⟩ | ⟨hnadj, low, hlpos, hlM, hlmin, hlwit, hval⟩
  · refine ⟨by decide, by omega,
      ⟨1, ⟨gd, hg, Walk.step Walk.start ((adj_iff _ _).2 hadj) hro⟩, by omega⟩,
      fun h => by omega⟩
  · have h2 : 2 ≤ lv r := by
      have := (lv_one_iff hl hg hrr).not.2 hnadj
      omega
    obtain ⟨p, hp, hadjp, hlp⟩ := lv_pred hl hrr h2
    have hpV : p ∈ V := lower_seen hl hg hP (lv p) p hp rfl (fun x hx => by
      rcases List.mem_cons.1 hx with rfl | hx
      · omega
      · have := (List.pairwise_cons.1 hP.sorted).1 x hx
        omega)
    obtain ⟨-, hppos, hple⟩ := hP.seen p hpV
    have hpn : p ∈ openNbrs g r := by
      rw [Frame_openNbrs hf]
      exact mem_openNbrs.2 ⟨adj_symm hadjp, Reach_open hp⟩
    have hlowp := hlmin p hpn hppos
    have hbound : low + 1 ≤ min (lv r : Int) (MaxInt32 + 1) := by
      have : (lv r : Int) = lv p + 1 := by omega
      omega
    rcases hval with ⟨hcur, rfl⟩ | ⟨hne, hle, rfl⟩
    · refine ⟨by omega, hbound, ?_, fun h => by omega⟩
      rcases hlwit with hw | ⟨n, hn, hcn⟩
      · exact ⟨n0 + 1, hgw, by omega⟩
      · rw [Frame_openNbrs hf] at hn
        obtain ⟨hnadj1, hno⟩ := mem_openNbrs.1 hn
        rcases hP.sound n hno with h0 | ⟨m, ⟨gd1, hg1, hw1⟩, hm⟩
        · omega
        · refine ⟨m + 1, ⟨gd1, hg1, Walk.step hw1 (adj_symm hnadj1) hro⟩, ?_⟩
          push_cast
          omega
    · have hpos := Sound_pos hP.sound hro hne
      refine ⟨hpos, by omega, ?_, fun _ => le_refl _⟩
      rcases hP.sound r hro with h0 | h
      · exact absurd h0 hne
      · exact h

theorem PassInv_step {g0 gs g g1 : grid} {gd r : room} {lv : room → Nat} {rest V : List room}
    {v : Int} (hl : IsLevel g0 gd lv) (hg : isGuard g0 gd = true) (hf : Frame g0 g)
    (hP : PassInv g0 gd lv gs g (r :: rest) V) (hr : r ∉ V) (hpl : Places g r v g1)
    (hsv : StepValue g gd r v) :
    PassInv g0 gd lv gs g1 (rest ++ (openNbrs g0 r).filter (fun n => n ∉ r :: V)) (r :: V) := by
  obtain ⟨hvpos, hvle, hvsound, hvmono⟩ := step_value hl hg hf hP hsv
  have hrr : Reach g0 gd r := hP.queue r (List.mem_cons_self _ _)
  have hro := Reach_open hrr
  have hcr : cell g1 r = v := hpl.2.2.2.2.1
  have hother : ∀ x, isOpen g0 x = true → x ≠ r → cell g1 x = cell g x := fun x hx hne =>
    hpl.2.2.2.2.2 x (by rw [Frame_contains hf]; exact (isOpen_iff.1 hx).1) hne
  have hhead : ∀ x ∈ rest, lv r ≤ lv x := (List.pairwise_cons.1 hP.sorted).1
  have hnew : ∀ n ∈ (openNbrs g0 r).filter (fun n => n ∉ r :: V),
      Reach g0 gd n ∧ lv n = lv r + 1 := by
    intro n hn
    obtain ⟨hn1, hn2⟩ := List.mem_filter.1 hn
    have hn3 : n ∉ r :: V := of_decide_eq_true hn2
    obtain ⟨hadj, hno⟩ := mem_openNbrs.1 hn1
    have hnr : Reach g0 gd n := Reach_step hrr hadj hno
    have h1 := lv_step hl hrr hadj hno
    have h2 := lv_step hl hnr (adj_symm hadj) hro
    have h3 := lv_ne hl hrr hnr hadj
    refine ⟨hnr, ?_⟩
    by_contra hcon
    have hnV : n ∈ V := lower_seen hl hg hP (lv n) n hnr rfl (fun x hx => by
      rcases List.mem_cons.1 hx with rfl | hx
      · omega
      · have := hhead x hx
        omega)
    exact hn3 (List.mem_cons_of_mem r hnV)
  have hrange : ∀ x ∈ rest ++ (openNbrs g0 r).filter (fun n => n ∉ r :: V),
      lv r ≤ lv x ∧ lv x ≤ lv r + 1 := by
    intro x hx
    rcases List.mem_append.1 hx with hx | hx
    · exact ⟨hhead x hx, hP.span r (List.mem_cons_self _ _) x (List.mem_cons_of_mem r hx)⟩
    · have := (hnew x hx).2
      omega
  exact {
    queue := fun x hx => by
      rcases List.mem_append.1 hx with hx | hx
      · exact hP.queue x (List.mem_cons_of_mem r hx)
      · exact (hnew x hx).1
    seen := fun x hx => by
      rcases List.mem_cons.1 hx with rfl | hx
      · rw [hcr]
        exact ⟨hrr, hvpos, hvle⟩
      · obtain ⟨h1, h2, h3⟩ := hP.seen x hx
        have hne : x ≠ r := fun h => hr (h ▸ hx)
        rw [hother x (Reach_open h1) hne]
        exact ⟨h1, h2, h3⟩
    sorted := List.pairwise_append.2 ⟨(List.pairwise_cons.1 hP.sorted).2,
      List.pairwise_of_forall_mem_list (fun a ha b hb => by
        rw [(hnew a ha).2, (hnew b hb).2]),
      fun a ha b hb => by
        have h1 := hP.span r (List.mem_cons_self _ _) a (List.mem_cons_of_mem r ha)
        have h2 := (hnew b hb).2
        omega⟩
    behind := fun x hx w hw => by
      have h1 := (hrange x hx).1
      rcases List.mem_cons.1 hw with rfl | hw
      · exact h1
      · have h2 := hP.behind r (List.mem_cons_self _ _) w hw
        omega
    span := fun x hx y hy => by
      have h1 := hrange x hx
      have h2 := hrange y hy
      omega
    first := fun c hc => by
      rcases hP.first c hc with h | h
      · exact Or.inl (List.mem_cons_of_mem r h)
      · rcases List.mem_cons.1 h with rfl | h
        · exact Or.inl (List.mem_cons_self _ _)
        · exact Or.inr (List.mem_append_left _ h)
    closed := fun w hw n hn => by
      by_cases hnV : n ∈ r :: V
      · exact Or.inl hnV
      · rcases List.mem_cons.1 hw with rfl | hw
        · exact Or.inr (List.mem_append_right _
            (List.mem_filter.2 ⟨hn, decide_eq_true hnV⟩))
        · rcases hP.closed w hw n hn with h | h
          · exact Or.inl (List.mem_cons_of_mem r h)
          · rcases List.mem_cons.1 h with rfl | h
            · exact Or.inl (List.mem_cons_self _ _)
            · exact Or.inr (List.mem_append_left _ h)
    sound := fun c hc => by
      by_cases hcr1 : c = r
      · subst hcr1
        rw [hcr]
        exact Or.inr hvsound
      · rw [hother c hc hcr1]
        exact hP.sound c hc
    mono := fun c hc hpos => by
      obtain ⟨h1, h2⟩ := hP.mono c hc hpos
      by_cases hcr1 : c = r
      · subst hcr1
        rw [hcr]
        exact ⟨hvpos, le_trans (hvmono h1) h2⟩
      · rw [hother c hc hcr1]
        exact ⟨h1, h2⟩ }

theorem pass_correct {g0 g : grid} {gd : room} (hg : isGuard g0 gd = true) (hf : Frame g0 g)
    (hs : Sound g0 g) :
    ∃ g1, calcDistances (scoreFuel g0) g gd (openNbrs g0 gd) [] = .ok g1 ∧ Frame g0 g1 ∧
      Sound g0 g1 ∧
      (∀ c, isOpen g0 c = true → 0 < cell g c → 0 < cell g1 c ∧ cell g1 c ≤ cell g c) ∧
      Upper g0 g1 gd := by
  obtain ⟨lv, hl⟩ := exists_level g0 gd
  obtain ⟨g1, V1, h1, hf1, hP⟩ := calcDistances_rule g0 gd (PassInv g0 gd lv g)
    (fun _ _ _ _ _ hP hr => PassInv_skip hP hr)
    (fun _ _ _ _ _ _ hf2 _ hP hr hpl hsv _ => PassInv_step hl hg hf2 hP hr hpl hsv)
    (scoreFuel g0) g (openNbrs g0 gd) [] hf (fun r hr => (mem_openNbrs.1 hr).2)
    List.nodup_nil (fun _ h => absurd h (List.not_mem_nil _)) (PassInv_init hl hg hs)
    (pass_fuel g0 gd)
  refine ⟨g1, h1, hf1, hP.sound, hP.mono, ?_⟩
  intro c n hw
  have hc : Reach g0 gd c := ⟨n, hw⟩
  have hV : c ∈ V1 := lower_seen hl hg hP (lv c) c hc rfl
    (fun _ h => absurd h (List.not_mem_nil _))
  obtain ⟨-, h2, h3⟩ := hP.seen c hV
  have h4 := (hl c _ hw).2
  exact ⟨h2, by omega⟩

theorem Score_correct {g0 : grid} (hw : WF g0) (hs : Sound g0 g0) :
    ∃ g1, ScoresTo g0 g1 ∧ Frame g0 g1 ∧ Sound g0 g1 ∧
      ∀ gd, isGuard g0 gd = true → Upper g0 g1 gd := by
  obtain ⟨g1, h1, hf1, -, hs1, hu1⟩ := Score_rule g0 hw
    (fun rem g => (∀ gd ∈ rem, isGuard g0 gd = true) ∧ Sound g0 g ∧
      ∀ gd, isGuard g0 gd = true → gd ∉ rem → Upper g0 g gd)
    (fun gd rest g hf hQ => by
      obtain ⟨hrem, hsg, hup⟩ := hQ
      obtain ⟨g2, h2, hf2, hs2, hm2, hu2⟩ :=
        pass_correct (hrem gd (List.mem_cons_self _ _)) hf hsg
      refine ⟨g2, h2, hf2, fun x hx => hrem x (List.mem_cons_of_mem gd hx), hs2, ?_⟩
      intro gd1 hg1 hnot
      by_cases he : gd1 = gd
      · subst he
        exact hu2
      · intro c n hwalk
        have hnot1 : gd1 ∉ gd :: rest := fun h => by
          rcases List.mem_cons.1 h with h | h
          · exact he h
          · exact hnot h
        obtain ⟨h3, h4⟩ := hup gd1 hg1 hnot1 c n hwalk
        obtain ⟨h5, h6⟩ := hm2 c (Walk_open hwalk) h3
        exact ⟨h5, le_trans h6 h4⟩)
    ⟨fun gd h => mem_findGuards.1 h, hs, fun gd hg hnot => absurd (mem_findGuards.2 hg) hnot⟩
  exact ⟨g1, h1, hf1, hs1, fun gd hg => hu1 gd hg (List.not_mem_nil _)⟩

/-! ## What the values are after `Score` -/

theorem Frame_isGuard {g0 g : grid} (hf : Frame g0 g) (x : room) :
    isGuard g x = isGuard g0 x := by
  by_cases hc : contains g0 x = true
  · by_cases ho : isOpen g0 x = true
    · have ho1 : isOpen g x = true := by rw [hf.2.2.2.2.1]; exact ho
      have h1 := (isOpen_iff.1 ho).2.1
      have h2 := (isOpen_iff.1 ho1).2.1
      unfold isGuard
      simp [h1, h2]
    · simp only [Bool.not_eq_true] at ho
      unfold isGuard
      rw [Frame_contains hf, hf.2.2.2.2.2 x hc ho]
  · simp only [Bool.not_eq_true] at hc
    unfold isGuard
    rw [Frame_contains hf, hc]
    rfl

theorem Frame_GuardWalk {g0 g : grid} (hf : Frame g0 g) {n : Nat} {c : room} :
    GuardWalk g n c ↔ GuardWalk g0 n c := by
  constructor
  · rintro ⟨gd, hg, hw⟩
    exact ⟨gd, by rw [← Frame_isGuard hf]; exact hg, Walk_congr hf.2.2.2.2.1 hw⟩
  · rintro ⟨gd, hg, hw⟩
    exact ⟨gd, by rw [Frame_isGuard hf]; exact hg,
      Walk_congr (fun x => (hf.2.2.2.2.1 x).symm) hw⟩

theorem Score_values {g0 : grid} (hw : WF g0) (hs : Sound g0 g0) :
    ∃ g1, ScoresTo g0 g1 ∧ Frame g0 g1 ∧ Sound g0 g1 ∧
      (∀ c d, isOpen g0 c = true → IsDist g0 c d →
        cell g1 c = min (d : Int) (MaxInt32 + 1)) ∧
      (∀ c, isOpen g0 c = true → (∀ n, ¬ GuardWalk g0 n c) → cell g1 c = 0) := by
  obtain ⟨g1, h1, hf1, hs1, hu1⟩ := Score_correct hw hs
  refine ⟨g1, h1, hf1, hs1, ?_, ?_⟩
  · intro c d ho hd
    obtain ⟨⟨gd, hg, hwalk⟩, hmin⟩ := hd
    have hd1 := GuardWalk_pos ho ⟨gd, hg, hwalk⟩
    obtain ⟨k, rfl⟩ : ∃ k, d = k + 1 := ⟨d - 1, by omega⟩
    obtain ⟨h2, h3⟩ := hu1 gd hg c k hwalk
    rcases hs1 c ho with h0 | ⟨n, hn, hle⟩
    · omega
    · have := hmin n hn
      omega
  · intro c ho hno
    rcases hs1 c ho with h0 | ⟨n, hn, -⟩
    · exact h0
    · exact absurd hn (hno n)

/-! ## Configured grids -/

theorem NewGrid_ok {R C : Int} {g : grid} (h : NewGrid R C = .ok g) :
    0 ≤ R ∧ (R = 0 ∨ 0 ≤ C) ∧
      g = ⟨List.replicate R.toNat (List.replicate C.toNat 0), C, R, false⟩ := by
  by_cases hR : R < 0 ∨ maxAlloc < sliceSize * R
  · rw [NewGrid_fails (Or.inl hR)] at h
    cases h
  · have hR0 : 0 ≤ R := by omega
    rcases eq_or_lt_of_le hR0 with h0 | h0
    · subst h0
      rw [NewGrid_zero] at h
      cases h
      exact ⟨le_refl _, Or.inl rfl, rfl⟩
    · by_cases hC : C < 0 ∨ maxAlloc < intSize * C
      · rw [NewGrid_fails (Or.inr ⟨h0, hC⟩)] at h
        cases h
      · rw [NewGrid_eq hR0 (by omega) (by omega) (by omega)] at h
        cases h
        exact ⟨hR0, Or.inr (by omega), rfl⟩

theorem WF_NewGrid {R C : Int} {g : grid} (h : NewGrid R C = .ok g) : WF g := by
  obtain ⟨hR, hC, rfl⟩ := NewGrid_ok h
  refine ⟨hR, by simp only [List.length_replicate], ?_⟩
  intro row hrow
  have hne : R.toNat ≠ 0 := by
    intro h0
    rw [h0] at hrow
    exact absurd hrow (List.not_mem_nil _)
  rw [List.eq_of_mem_replicate hrow, List.length_replicate]
  simp only
  omega

theorem cell_NewGrid {R C : Int} {g : grid} (h : NewGrid R C = .ok g) {x : room}
    (hx : contains g x = true) : cell g x = 0 := by
  have hw := WF_NewGrid h
  obtain ⟨row, hrow, hv⟩ := cell_spec hw hx
  obtain ⟨-, -, rfl⟩ := NewGrid_ok h
  have h1 := List.eq_of_mem_replicate (List.mem_iff_getElem?.mpr ⟨_, hrow⟩)
  rw [h1] at hv
  exact List.eq_of_mem_replicate (List.mem_iff_getElem?.mpr ⟨_, hv⟩)

theorem placeGuard_ok {g : grid} {r : room} {g1 : grid} (hw : WF g)
    (h : placeGuard g r = .ok g1) :
    g.fixed = false ∧ contains g r = true ∧ g1 = setCell g r GUARD := by
  cases hf : g.fixed with
  | true =>
    unfold placeGuard at h
    rw [hf] at h
    cases h
  | false =>
    cases hc : contains g r with
    | false =>
      rw [placeGuard_out hf hc] at h
      cases h
    | true =>
      rw [placeGuard_eq hw hf hc] at h
      cases h
      exact ⟨rfl, rfl, rfl⟩

theorem lockRoom_ok {g : grid} {r : room} {g1 : grid} (hw : WF g)
    (h : lockRoom g r = .ok g1) :
    g.fixed = false ∧ contains g r = true ∧ g1 = setCell g r LOCKED := by
  cases hf : g.fixed with
  | true =>
    unfold lockRoom at h
    rw [hf] at h
    cases h
  | false =>
    cases hc : contains g r with
    | false =>
      rw [lockRoom_out hf hc] at h
      cases h
    | true =>
      rw [lockRoom_eq hw hf hc] at h
      cases h
      exact ⟨rfl, rfl, rfl⟩

theorem Built_spec {g : grid} (h : Built g) :
    WF g ∧ ∀ x, contains g x = true → cell g x = GUARD ∨ cell g x = LOCKED ∨ cell g x = 0 := by
  induction h with
  | new R C g h => exact ⟨WF_NewGrid h, fun x hx => Or.inr (Or.inr (cell_NewGrid h hx))⟩
  | guard g r g1 _ h ih =>
    obtain ⟨-, hc, rfl⟩ := placeGuard_ok ih.1 h
    refine ⟨WF_setCell ih.1 hc _, fun x hx => ?_⟩
    rw [contains_setCell] at hx
    rw [cell_setCell ih.1 hc _ hx]
    split_ifs
    · exact Or.inl rfl
    · exact ih.2 x hx
  | lock g r g1 _ h ih =>
    obtain ⟨-, hc, rfl⟩ := lockRoom_ok ih.1 h
    refine ⟨WF_setCell ih.1 hc _, fun x hx => ?_⟩
    rw [contains_setCell] at hx
    rw [cell_setCell ih.1 hc _ hx]
    split_ifs
    · exact Or.inr (Or.inl rfl)
    · exact ih.2 x hx
  | fix g _ ih => exact ih

theorem Built_WF {g : grid} (h : Built g) : WF g := (Built_spec h).1

theorem Built_open_zero {g : grid} (h : Built g) {x : room} (hx : isOpen g x = true) :
    cell g x = 0 := by
  rw [isOpen_iff] at hx
  rcases (Built_spec h).2 x hx.1 with h1 | h1 | h1
  · exact absurd h1 hx.2.1
  · exact absurd h1 hx.2.2
  · exact h1

theorem Sound_of_zero {g : grid} (h : ∀ c, isOpen g c = true → cell g c = 0) : Sound g g :=
  fun c hc => Or.inl (h c hc)

theorem Sound_Built {g : grid} (h : Built g) : Sound g g :=
  Sound_of_zero (fun _ hc => Built_open_zero h hc)

theorem grid_eq_of_cells {a b : grid} (ha : WF a) (hb : WF b) (hR : a.rMax = b.rMax)
    (hC : a.cMax = b.cMax) (hF : a.fixed = b.fixed)
    (h : ∀ x, contains a x = true → cell a x = cell b x) : a = b := by
  apply grid_ext _ hC hR hF
  apply List.ext_getElem?
  intro i
  by_cases hi : i < a.rMax.toNat
  · have hia : i < a.dist.length := by rw [ha.2.1]; exact hi
    have hib : i < b.dist.length := by rw [hb.2.1, ← hR]; exact hi
    rw [List.getElem?_eq_getElem hia, List.getElem?_eq_getElem hib]
    congr 1
    apply List.ext_getElem?
    intro j
    have hla := ha.2.2 _ (List.getElem_mem hia)
    have hlb := hb.2.2 _ (List.getElem_mem hib)
    by_cases hj : j < a.cMax.toNat
    · have hx : contains a ⟨(i : Int), (j : Int)⟩ = true := by
        rw [contains_iff]
        simp only
        omega
      have hxb : contains b ⟨(i : Int), (j : Int)⟩ = true := by
        rw [contains_congr hR.symm hC.symm]
        exact hx
      have e1 : ((i : Int)).toNat = i := by omega
      have e2 : ((j : Int)).toNat = j := by omega
      obtain ⟨rowa, hrowa, hva⟩ := cell_spec ha hx
      obtain ⟨rowb, hrowb, hvb⟩ := cell_spec hb hxb
      simp only [e1, e2] at hrowa hva hrowb hvb
      rw [List.getElem?_eq_getElem hia] at hrowa
      rw [List.getElem?_eq_getElem hib] at hrowb
      rw [Option.some.inj hrowa, Option.some.inj hrowb, hva, hvb, h _ hx]
    · rw [List.getElem?_eq_none (by omega), List.getElem?_eq_none (by omega)]
  · have hia : a.dist.length ≤ i := by rw [ha.2.1]; omega
    have hib : b.dist.length ≤ i := by rw [hb.2.1, ← hR]; omega
    rw [List.getElem?_eq_none hia, List.getElem?_eq_none hib]

theorem values_unique {g0 ga gb : grid} (hsa : Sound g0 ga) (hsb : Sound g0 gb)
    (hua : ∀ gd, isGuard g0 gd = true → Upper g0 ga gd)
    (hub : ∀ gd, isGuard g0 gd = true → Upper g0 gb gd) {c : room}
    (ho : isOpen g0 c = true) : cell ga c = cell gb c := by
  have key : ∀ {gx gy : grid}, Sound g0 gx → (∀ gd, isGuard g0 gd = true → Upper g0 gy gd) →
      cell gx c ≠ 0 → 0 < cell gy c ∧ cell gy c ≤ cell gx c := by
    intro gx gy hsx huy hne
    rcases hsx c ho with h0 | ⟨n, hn, hle⟩
    · exact absurd h0 hne
    · have hpos := GuardWalk_pos ho hn
      obtain ⟨gd, hg, hwalk⟩ := hn
      obtain ⟨k, rfl⟩ : ∃ k, n = k + 1 := ⟨n - 1, by omega⟩
      obtain ⟨h1, h2⟩ := huy gd hg c k hwalk
      exact ⟨h1, le_trans h2 hle⟩
  by_cases ha : cell ga c = 0
  · by_cases hb : cell gb c = 0
    · rw [ha, hb]
    · have := key hsb hua hb
      omega
  · have h1 := key hsa hub ha
    have h2 := key hsb hua (by omega)
    omega

theorem Score_twice {g : grid} (hw : WF g) (hs : Sound g g) :
    ∃ g1, ScoresTo g g1 ∧ ScoresTo g1 g1 := by
  obtain ⟨g1, h1, hf1, hs1, hu1⟩ := Score_correct hw hs
  have hs11 : Sound g1 g1 := fun c hc => by
    rw [hf1.2.2.2.2.1] at hc
    rcases hs1 c hc with h0 | ⟨n, hn, hle⟩
    · exact Or.inl h0
    · exact Or.inr ⟨n, (Frame_GuardWalk hf1).2 hn, hle⟩
  obtain ⟨g2, h2, hf2, hs2, hu2⟩ := Score_correct hf1.1 hs11
  have hs2g : Sound g g2 := fun c hc => by
    rcases hs2 c (by rw [hf1.2.2.2.2.1]; exact hc) with h0 | ⟨n, hn, hle⟩
    · exact Or.inl h0
    · exact Or.inr ⟨n, (Frame_GuardWalk hf1).1 hn, hle⟩
  have hu2g : ∀ gd, isGuard g gd = true → Upper g g2 gd := fun gd hg c n hwalk =>
    hu2 gd (by rw [Frame_isGuard hf1]; exact hg) c n
      (Walk_congr (fun x => (hf1.2.2.2.2.1 x).symm) hwalk)
  have heq : g2 = g1 := by
    apply grid_eq_of_cells hf2.1 hf1.1 hf2.2.1 hf2.2.2.1 hf2.2.2.2.1
    intro x hx
    have hx1 : contains g1 x = true := by rw [← Frame_contains hf2]; exact hx
    by_cases ho : isOpen g1 x = true
    · exact values_unique hs2g hs1 hu2g hu1 (by rw [← hf1.2.2.2.2.1]; exact ho)
    · simp only [Bool.not_eq_true] at ho
      exact hf2.2.2.2.2.2 x hx1 ho
  rw [heq] at h2
  exact ⟨g1, h1, h2⟩

/-! ## A corridor longer than `MaxInt32` -/

theorem WF_longGrid : WF longGrid := by
  refine ⟨by decide, rfl, ?_⟩
  intro row hrow
  have hrow1 : row = GUARD :: List.replicate 2147483649 0 := List.mem_singleton.1 hrow
  rw [hrow1, List.length_cons, List.length_replicate]
  rfl

theorem contains_longGrid {x : room} :
    contains longGrid x = true ↔ x.r = 0 ∧ 0 ≤ x.c ∧ x.c < 2147483650 := by
  rw [contains_iff]
  have h1 : longGrid.rMax = 1 := rfl
  have h2 : longGrid.cMax = 2147483650 := rfl
  rw [h1, h2]
  omega

theorem cell_longGrid {x : room} (hx : contains longGrid x = true) :
    cell longGrid x = if x.c = 0 then GUARD else 0 := by
  obtain ⟨h1, h2, h3⟩ := contains_longGrid.1 hx
  have hrow : longGrid.dist[x.r.toNat]? = some (GUARD :: List.replicate 2147483649 0) := by
    rw [h1]
    rfl
  refine cell_of_getElem? _ (by omega) h2 hrow ?_
  by_cases h0 : x.c = 0
  · rw [if_pos h0, h0]
    exact List.getElem?_cons_zero
  · rw [if_neg h0]
    obtain ⟨k, hk⟩ : ∃ k, x.c.toNat = k + 1 := ⟨x.c.toNat - 1, by omega⟩
    rw [hk, List.getElem?_cons_succ, List.getElem?_replicate, if_pos (by omega)]

theorem Built_longGrid : Built longGrid := by
  have hnew := NewGrid_eq (R := 1) (C := 2147483650) (by decide) (by decide) (by decide)
    (by decide)
  have hb := Built.new _ _ _ hnew
  have hw := Built_WF hb
  have hc : contains ⟨List.replicate (1 : Int).toNat
      (List.replicate (2147483650 : Int).toNat (0 : Int)), 2147483650, 1, false⟩ ⟨0, 0⟩ = true := by
    rw [contains_iff]
    simp only
    omega
  have hp := placeGuard_eq hw rfl hc
  have heq : setCell ⟨List.replicate (1 : Int).toNat
      (List.replicate (2147483650 : Int).toNat (0 : Int)), 2147483650, 1, false⟩ ⟨0, 0⟩ GUARD =
      longGrid := by
    apply grid_eq_of_cells (WF_setCell hw hc _) WF_longGrid
    · rw [setCell_rMax]
      rfl
    · rw [setCell_cMax]
      rfl
    · rw [setCell_fixed]
      rfl
    · intro x hx
      rw [contains_setCell] at hx
      have hx1 : contains longGrid x = true := by
        rw [← hx]
        rfl
      rw [cell_setCell hw hc _ hx, cell_longGrid hx1, cell_NewGrid hnew hx]
      obtain ⟨h1, h2, h3⟩ := contains_longGrid.1 hx1
      by_cases h0 : x.c = 0
      · rw [if_pos h0, if_pos (room_ext h1 h0)]
      · rw [if_neg h0, if_neg (fun h => h0 (by rw [h]))]
  rw [heq] at hp
  exact Built.guard _ _ _ hb hp

theorem isOpen_longGrid {k : Nat} (h1 : 1 ≤ k) (h2 : k < 2147483650) :
    isOpen longGrid ⟨0, (k : Int)⟩ = true := by
  have hc : contains longGrid ⟨0, (k : Int)⟩ = true := by
    rw [contains_longGrid]
    refine ⟨rfl, ?_, ?_⟩ <;> dsimp only <;> omega
  rw [isOpen_iff, cell_longGrid hc, if_neg (by simp only; omega)]
  exact ⟨hc, by decide, by decide⟩

theorem Walk_longGrid : ∀ k : Nat, k < 2147483650 → Walk longGrid ⟨0, 0⟩ k ⟨0, (k : Int)⟩
  | 0, _ => Walk.start
  | k + 1, h => by
    refine Walk.step (Walk_longGrid k (by omega)) ?_ (isOpen_longGrid (by omega) h)
    rw [mem_proposeNeighbors]
    exact Or.inr (Or.inr (Or.inr ⟨rfl, Int.ofNat_succ k⟩))

theorem Walk_far {g : grid} {s c : room} {n : Nat} (h : Walk g s n c) :
    c.c - s.c ≤ (n : Int) := by
  induction h with
  | start => omega
  | step _ h2 _ ih =>
    rw [mem_proposeNeighbors] at h2
    push_cast
    omega

theorem isGuard_longGrid {gd : room} (h : isGuard longGrid gd = true) : gd = ⟨0, 0⟩ := by
  obtain ⟨hc, hv⟩ := isGuard_iff.1 h
  obtain ⟨h1, h2, h3⟩ := contains_longGrid.1 hc
  rw [cell_longGrid hc] at hv
  by_cases h0 : gd.c = 0
  · exact room_ext h1 h0
  · rw [if_neg h0] at hv
    cases hv

theorem IsDist_longGrid : IsDist longGrid ⟨0, 2147483649⟩ 2147483649 := by
  constructor
  · refine ⟨⟨0, 0⟩, ?_, Walk_longGrid 2147483649 (by omega)⟩
    have hc : contains longGrid ⟨0, 0⟩ = true := by
      rw [contains_longGrid]
      refine ⟨rfl, ?_, ?_⟩ <;> dsimp only <;> omega
    rw [isGuard_iff, cell_longGrid hc]
    exact ⟨hc, rfl⟩
  · rintro n ⟨gd, hg, hw⟩
    have := isGuard_longGrid hg
    subst this
    have := Walk_far hw
    simp only at this
    omega

/-! ## Small configured grids -/

theorem Built_smallGrid : Built smallGrid := by
  have h0 : Built ⟨[[0, 0, 0], [0, 0, 0], [0, 0, 0]], 3, 3, false⟩ := Built.new 3 3 _ rfl
  have h1 : Built ⟨[[0, 0, 0], [0, GUARD, 0], [0, 0, 0]], 3, 3, false⟩ :=
    Built.guard _ ⟨1, 1⟩ _ h0 rfl
  exact Built.fix _ h1

theorem IsDist_smallGrid : IsDist smallGrid ⟨0, 0⟩ 2 := by
  constructor
  · have w1 : Walk smallGrid ⟨1, 1⟩ 1 ⟨0, 1⟩ := Walk.step Walk.start (by decide) (by decide)
    have w2 : Walk smallGrid ⟨1, 1⟩ 2 ⟨0, 0⟩ := Walk.step w1 (by decide) (by decide)
    exact ⟨⟨1, 1⟩, by decide, w2⟩
  · rintro n ⟨gd, hg, hw⟩
    have key : ∀ a ∈ proposeNeighbors ⟨0, 0⟩, isGuard smallGrid a = false := by decide
    match n, hw with
    | 0, hw =>
      have := Walk_zero_inv hw
      subst this
      exact absurd hg (by decide)
    | 1, hw =>
      have h1 := (mem_openNbrs.1 (Walk_one_iff.1 hw)).1
      rw [key gd (adj_symm h1)] at hg
      cases hg
    | k + 2, _ => omega

theorem Built_wallGrid : Built wallGrid := by
  have h0 : Built ⟨[[0, 0, 0]], 3, 1, false⟩ := Built.new 1 3 _ rfl
  have h1 : Built ⟨[[GUARD, 0, 0]], 3, 1, false⟩ := Built.guard _ ⟨0, 0⟩ _ h0 rfl
  exact Built.lock _ ⟨0, 1⟩ _ h1 rfl

theorem no_GuardWalk_wallGrid : ∀ n, ¬ GuardWalk wallGrid n ⟨0, 2⟩ := by
  rintro n ⟨gd, hg, hw⟩
  have key : ∀ a ∈ proposeNeighbors ⟨0, 2⟩,
      isGuard wallGrid a = false ∧ isOpen wallGrid a = false := by decide
  match n, hw with
  | 0, hw =>
    have := Walk_zero_inv hw
    subst this
    exact absurd hg (by decide)
  | 1, hw =>
    have h1 := (mem_openNbrs.1 (Walk_one_iff.1 hw)).1
    rw [(key gd (adj_symm h1)).1] at hg
    cases hg
  | k + 2, hw =>
    obtain ⟨a, ha, hadj, -⟩ := Walk_succ_inv hw
    have h1 := Walk_open ha
    rw [(key a (adj_symm hadj)).2] at h1
    cases h1

/-! ## The tests of the repository -/

theorem TestSmall_passes :
    runTest 3 3 [⟨1, 1⟩] [] 40 = .ok ⟨[[2, 1, 2], [1, GUARD, 1], [2, 1, 2]], 3, 3, true⟩ := rfl

theorem TestMedium_passes :
    runTest 5 5 [⟨1, 1⟩, ⟨4, 4⟩] [] 104 = .ok ⟨[
      [2, 1, 2, 3, 4],
      [1, GUARD, 1, 2, 3],
      [2, 1, 2, 3, 2],
      [3, 2, 3, 2, 1],
      [4, 3, 2, 1, GUARD]], 5, 5, true⟩ := rfl

set_option maxHeartbeats 4000000 in
set_option maxRecDepth 100000 in
theorem TestLarge_passes :
    runTest 10 10 [⟨3, 3⟩, ⟨2, 4⟩, ⟨1, 1⟩, ⟨6, 6⟩] [⟨1, 2⟩, ⟨4, 4⟩, ⟨2, 3⟩] 404 = .ok ⟨[
      [2, 1, 2, 3, 2, 3, 4, 5, 6, 7],
      [1, GUARD, LOCKED, 2, 1, 2, 3, 4, 5, 6],
      [2, 1, 2, LOCKED, GUARD, 1, 2, 3, 4, 5],
      [3, 2, 1, GUARD, 1, 2, 3, 4, 5, 6],
      [4, 3, 2, 1, LOCKED, 3, 2, 3, 4, 5],
      [5, 4, 3, 2, 3, 2, 1, 2, 3, 4],
      [6, 5, 4, 3, 2, 1, GUARD, 1, 2, 3],
      [7, 6, 5, 4, 3, 2, 1, 2, 3, 4],
      [8, 7, 6, 5, 4, 3, 2, 3, 4, 5],
      [9, 8, 7, 6, 5, 4, 3, 4, 5, 6]], 10, 10, true⟩ := rfl

set_option maxHeartbeats 4000000 in
set_option maxRecDepth 100000 in
theorem TestLargeUnreachable_passes :
    runTest 10 10 [⟨3, 3⟩, ⟨2, 4⟩, ⟨1, 1⟩, ⟨6, 6⟩]
      [⟨1, 2⟩, ⟨4, 4⟩, ⟨2, 3⟩, ⟨8, 0⟩, ⟨8, 1⟩, ⟨8, 2⟩, ⟨8, 3⟩, ⟨8, 4⟩, ⟨8, 5⟩, ⟨8, 6⟩,
        ⟨8, 7⟩, ⟨8, 8⟩, ⟨8, 9⟩] 404 = .ok ⟨[
      [2, 1, 2, 3, 2, 3, 4, 5, 6, 7],
      [1, GUARD, LOCKED, 2, 1, 2, 3, 4, 5, 6],
      [2, 1, 2, LOCKED, GUARD, 1, 2, 3, 4, 5],
      [3, 2, 1, GUARD, 1, 2, 3, 4, 5, 6],
      [4, 3, 2, 1, LOCKED, 3, 2, 3, 4, 5],
      [5, 4, 3, 2, 3, 2, 1, 2, 3, 4],
      [6, 5, 4, 3, 2, 1, GUARD, 1, 2, 3],
      [7, 6, 5, 4, 3, 2, 1, 2, 3, 4],
      [LOCKED, LOCKED, LOCKED, LOCKED, LOCKED, LOCKED, LOCKED, LOCKED, LOCKED, LOCKED],
      [0, 0, 0, 0, 0, 0, 0, 0, 0, 0]], 10, 10, true⟩ := rfl

/-! ## Guards without open neighbours, and the failures `Score` cannot have -/

theorem visitRooms_no_nbrs {g : grid} (hw : WF g) (fuel : Nat) :
    ∀ guards : List room, (∀ gd ∈ guards, openNbrs g gd = []) →
      visitRoomsViaGuards fuel g guards = .ok g
  | [], _ => rfl
  | gd :: guards, h => by
    unfold visitRoomsViaGuards
    rw [neighbors_eq hw, h gd (List.mem_cons_self _ _)]
    simp only
    rw [calcDistances_nil]
    exact visitRooms_no_nbrs hw fuel guards (fun x hx => h x (List.mem_cons_of_mem gd hx))

theorem openNbrs_eq_nil {g : grid} {gd : room}
    (h : ∀ n ∈ proposeNeighbors gd, isOpen g n = false) : openNbrs g gd = [] := by
  unfold openNbrs
  rw [List.filter_eq_nil_iff]
  intro n hn
  rw [h n hn]
  exact Bool.false_ne_true

theorem calcDistances_stable : ∀ (f : Nat) (g : grid) (gd : room) (q V : List room)
    (res : Except Err grid), calcDistances f g gd q V = res → res ≠ .error .outOfFuel →
      calcDistances (f + 1) g gd q V = res := by
  intro f
  induction f with
  | zero =>
    intro g gd q V res h hne
    cases q with
    | nil =>
      rw [calcDistances_nil] at h ⊢
      exact h
    | cons r rest =>
      have : calcDistances 0 g gd (r :: rest) V = .error .outOfFuel := rfl
      rw [this] at h
      exact absurd h.symm hne
  | succ f ih =>
    intro g gd q V res h hne
    cases q with
    | nil =>
      rw [calcDistances_nil] at h ⊢
      exact h
    | cons r rest =>
      rw [calcDistances] at h ⊢
      by_cases hr : r ∈ V
      · rw [if_pos hr] at h ⊢
        exact ih _ _ _ _ _ h hne
      · rw [if_neg hr] at h ⊢
        cases hc : calcDistance g gd r V with
        | error e =>
          rw [hc] at h
          exact h
        | ok p =>
          obtain ⟨g2, V2⟩ := p
          rw [hc] at h
          simp only at h ⊢
          cases hn : neighbors g2 r with
          | error e =>
            rw [hn] at h
            exact h
          | ok ns =>
            rw [hn] at h
            simp only at h ⊢
            exact ih _ _ _ _ _ h hne

theorem calcDistances_stable_le {f f1 : Nat} (hle : f ≤ f1) {g : grid} {gd : room}
    {q V : List room} {res : Except Err grid} (h : calcDistances f g gd q V = res)
    (hne : res ≠ .error .outOfFuel) : calcDistances f1 g gd q V = res := by
  induction hle with
  | refl => exact h
  | step _ ih => exact calcDistances_stable _ _ _ _ _ _ ih hne

theorem visitRoomsViaGuards_stable {f f1 : Nat} (hle : f ≤ f1) :
    ∀ (guards : List room) (g : grid) (res : Except Err grid),
      visitRoomsViaGuards f g guards = res → res ≠ .error .outOfFuel →
      visitRoomsViaGuards f1 g guards = res
  | [], g, res, h, _ => h
  | gd :: guards, g, res, h, hne => by
    unfold visitRoomsViaGuards at h ⊢
    cases hn : neighbors g gd with
    | error e =>
      rw [hn] at h
      exact h
    | ok ns =>
      rw [hn] at h
      simp only at h ⊢
      cases hc : calcDistances f g gd ns [] with
      | error e =>
        rw [hc] at h
        simp only at h
        have he : e ≠ .outOfFuel := fun he => hne (by rw [← h, he])
        rw [calcDistances_stable_le hle hc (fun h1 => he (by cases h1; rfl))]
        exact h
      | ok g2 =>
        rw [hc] at h
        rw [calcDistances_stable_le hle hc (fun h1 => by cases h1)]
        simp only at h ⊢
        exact visitRoomsViaGuards_stable hle guards g2 res h hne

theorem Score_stable {f f1 : Nat} (hle : f ≤ f1) {g : grid} {res : Except Err grid}
    (h : Score f g = res) (hne : res ≠ .error .outOfFuel) : Score f1 g = res := by
  unfold Score at h ⊢
  cases hg : findGuards g with
  | error e =>
    rw [hg] at h
    exact h
  | ok guards =>
    rw [hg] at h
    exact visitRoomsViaGuards_stable hle guards g res h hne

theorem Score_error_outOfFuel {g : grid} (hw : WF g) {fuel : Nat} {e : Err}
    (h : Score fuel g = .error e) : e = .outOfFuel := by
  by_contra hne
  obtain ⟨g1, h1, -⟩ := Score_frame hw
  rcases Nat.le_total fuel (scoreFuel g) with hle | hle
  · have h2 := Score_stable hle h (fun h3 => hne (by cases h3; rfl))
    rw [h1 _ (le_refl _)] at h2
    cases h2
  · rw [h1 _ hle] at h
    cases h

theorem wallGrid_guard_enclosed :
    ∀ gd, isGuard wallGrid gd = true → ∀ n ∈ proposeNeighbors gd, isOpen wallGrid n = false := by
  intro gd hg
  obtain ⟨r, c⟩ := gd
  have hc := (contains_iff _ _).1 (isGuard_iff.1 hg).1
  have h1 : wallGrid.rMax = 1 := rfl
  have h2 : wallGrid.cMax = 3 := rfl
  rw [h1, h2] at hc
  simp only at hc
  obtain rfl : r = 0 := by omega
  have h3 : c = 0 ∨ c = 1 ∨ c = 2 := by omega
  rcases h3 with rfl | rfl | rfl
  · decide
  · exact absurd hg (by decide)
  · exact absurd hg (by decide)

/-! ## Rooms next to a guard -/

theorem StepValue_one {g : grid} {gd r : room} {v : Int} (h : StepValue g gd r v)
    (h1 : cell g r = 1 ∨ r ∈ proposeNeighbors gd) : v = 1 := by
  rcases h with ⟨-, rfl⟩ | ⟨hnadj, low, hpos, -, -, -, hval⟩
  · rfl
  · rcases h1 with h1 | h1
    · rcases hval with ⟨hcur, rfl⟩ | ⟨-, -, rfl⟩
      · omega
      · exact h1
    · exact absurd ((adj_iff _ _).1 h1) hnadj

theorem pass_adjacent_one {g0 g : grid} {gd : room} (hf : Frame g0 g) :
    ∃ g1, calcDistances (scoreFuel g0) g gd (openNbrs g0 gd) [] = .ok g1 ∧ Frame g0 g1 ∧
      (∀ c, isOpen g0 c = true → cell g c = 1 → cell g1 c = 1) ∧
      ∀ c ∈ openNbrs g0 gd, cell g1 c = 1 := by
  obtain ⟨g1, V1, h1, hf1, hP1, hP2⟩ := calcDistances_rule g0 gd
    (fun g2 q V =>
      (∀ c, isOpen g0 c = true → (cell g c = 1 ∨ (c ∈ V ∧ c ∈ openNbrs g0 gd)) →
        cell g2 c = 1) ∧
      ∀ c ∈ openNbrs g0 gd, c ∈ V ∨ c ∈ q)
    (fun g2 r rest V _ hP hr => ⟨hP.1, fun c hc => by
      rcases hP.2 c hc with h | h
      · exact Or.inl h
      · rcases List.mem_cons.1 h with rfl | h
        · exact Or.inl hr
        · exact Or.inr h⟩)
    (fun g2 r rest V g3 v hf2 hro hP hr hpl hsv _ => by
      refine ⟨fun c hc hone => ?_, fun c hc => ?_⟩
      · by_cases hcr : c = r
        · subst hcr
          rw [hpl.2.2.2.2.1]
          apply StepValue_one hsv
          rcases hone with h | ⟨-, h⟩
          · exact Or.inl (hP.1 c hc (Or.inl h))
          · exact Or.inr (mem_openNbrs.1 h).1
        · rw [hpl.2.2.2.2.2 c (by rw [Frame_contains hf2]; exact (isOpen_iff.1 hc).1) hcr]
          apply hP.1 c hc
          rcases hone with h | ⟨h, h2⟩
          · exact Or.inl h
          · rcases List.mem_cons.1 h with h | h
            · exact absurd h hcr
            · exact Or.inr ⟨h, h2⟩
      · rcases hP.2 c hc with h | h
        · exact Or.inl (List.mem_cons_of_mem r h)
        · rcases List.mem_cons.1 h with rfl | h
          · exact Or.inl (List.mem_cons_self _ _)
          · exact Or.inr (List.mem_append_left _ h))
    (scoreFuel g0) g (openNbrs g0 gd) [] hf (fun r hr => (mem_openNbrs.1 hr).2)
    List.nodup_nil (fun _ h => absurd h (List.not_mem_nil _))
    ⟨fun c _ hone => by
      rcases hone with h | ⟨h, -⟩
      · exact h
      · exact absurd h (List.not_mem_nil _), fun c hc => Or.inr hc⟩
    (pass_fuel g0 gd)
  refine ⟨g1, h1, hf1, fun c hc hone => hP1 c hc (Or.inl hone), fun c hc => ?_⟩
  rcases hP2 c hc with h | h
  · exact hP1 c (mem_openNbrs.1 hc).2 (Or.inr ⟨h, hc⟩)
  · exact absurd h (List.not_mem_nil _)

theorem Score_adjacent_one {g0 : grid} (hw : WF g0) :
    ∃ g1, ScoresTo g0 g1 ∧ Frame g0 g1 ∧
      ∀ gd, isGuard g0 gd = true → ∀ c ∈ openNbrs g0 gd, cell g1 c = 1 := by
  obtain ⟨g1, h1, hf1, hQ⟩ := Score_rule g0 hw
    (fun rem g => ∀ gd, isGuard g0 gd = true → gd ∉ rem → ∀ c ∈ openNbrs g0 gd, cell g c = 1)
    (fun gd rest g hf hQ => by
      obtain ⟨g2, h2, hf2, hkeep, hnew⟩ := @pass_adjacent_one g0 g gd hf
      refine ⟨g2, h2, hf2, fun gd1 hg1 hnot c hc => ?_⟩
      by_cases he : gd1 = gd
      · subst he
        exact hnew c hc
      · have hnot1 : gd1 ∉ gd :: rest := fun h => by
          rcases List.mem_cons.1 h with h | h
          · exact he h
          · exact hnot h
        exact hkeep c (mem_openNbrs.1 hc).2 (hQ gd1 hg1 hnot1 c hc))
    (fun gd hg hnot => absurd (mem_findGuards.2 hg) hnot)
  exact ⟨g1, h1, hf1, fun gd hg => hQ gd hg (List.not_mem_nil _)⟩

/-! ## Neighbouring values after `Score` -/

theorem cell_out {g : grid} (hw : WF g) {x : room} (hx : contains g x = false) :
    cell g x = 0 := by
  obtain ⟨h0, hlen, hrows⟩ := hw
  have hx1 : ¬ (0 ≤ x.r ∧ x.r < g.rMax ∧ 0 ≤ x.c ∧ x.c < g.cMax) := by
    rw [← contains_iff, hx]
    exact Bool.false_ne_true
  unfold cell readDist readRow
  by_cases h1 : x.r < 0
  · rw [if_pos h1]
  · rw [if_neg h1]
    cases hrow : g.dist[x.r.toNat]? with
    | none => rfl
    | some row =>
      simp only
      by_cases h2 : x.c < 0
      · rw [if_pos h2]
      · rw [if_neg h2]
        have hl := hrows row (List.mem_iff_getElem?.mpr ⟨_, hrow⟩)
        have hi : x.r.toNat < g.dist.length := by
          rcases List.getElem?_eq_some.1 hrow with ⟨h, -⟩
          exact h
        rw [List.getElem?_eq_none (by omega)]

theorem Upper_GuardWalk {g0 g1 : grid} (hu : ∀ gd, isGuard g0 gd = true → Upper g0 g1 gd)
    {c : room} (ho : isOpen g0 c = true) {n : Nat} (hn : GuardWalk g0 n c) :
    0 < cell g1 c ∧ cell g1 c ≤ min (n : Int) (MaxInt32 + 1) := by
  have hpos := GuardWalk_pos ho hn
  obtain ⟨gd, hg, hwalk⟩ := hn
  obtain ⟨k, rfl⟩ : ∃ k, n = k + 1 := ⟨n - 1, by omega⟩
  exact hu gd hg c k hwalk

theorem GuardWalk_step {g : grid} {a b : room} {n : Nat} (ha : GuardWalk g n a)
    (hadj : b ∈ proposeNeighbors a) (ho : isOpen g b = true) : GuardWalk g (n + 1) b := by
  obtain ⟨gd, hg, hwalk⟩ := ha
  exact ⟨gd, hg, Walk.step hwalk hadj ho⟩

theorem neighbour_close {g0 g1 : grid} (hs : Sound g0 g1)
    (hu : ∀ gd, isGuard g0 gd = true → Upper g0 g1 gd) {a b : room}
    (ha : isOpen g0 a = true) (hb : isOpen g0 b = true) (hadj : b ∈ proposeNeighbors a)
    (hpos : 0 < cell g1 a) : cell g1 b ≤ cell g1 a + 1 := by
  rcases hs a ha with h0 | ⟨m, hm, hle⟩
  · omega
  · have h1 := (Upper_GuardWalk hu hb (GuardWalk_step hm hadj hb)).2
    push_cast at h1
    omega

theorem neighbour_below {g0 g1 : grid} (hs : Sound g0 g1)
    (hu : ∀ gd, isGuard g0 gd = true → Upper g0 g1 gd) {c : room}
    (ho : isOpen g0 c = true) (h1 : 1 < cell g1 c) (hM : cell g1 c ≤ MaxInt32) :
    ∃ n ∈ proposeNeighbors c, isOpen g0 n = true ∧ cell g1 n = cell g1 c - 1 := by
  rcases hs c ho with h0 | ⟨n, hn, hle⟩
  · omega
  · have h2 := (Upper_GuardWalk hu ho hn).2
    obtain ⟨gd, hg, hwalk⟩ := hn
    obtain ⟨k, rfl⟩ : ∃ k, n = k + 1 + 1 := ⟨n - 2, by omega⟩
    obtain ⟨a, ha, hadj, -⟩ := Walk_succ_inv hwalk
    have hao := Walk_open ha
    have hga : GuardWalk g0 (k + 1) a := ⟨gd, hg, ha⟩
    obtain ⟨h3, h4⟩ := Upper_GuardWalk hu hao hga
    refine ⟨a, adj_symm hadj, hao, ?_⟩
    rcases hs a hao with h0 | ⟨m, hm, hle1⟩
    · omega
    · have h5 := (Upper_GuardWalk hu ho (GuardWalk_step hm hadj ho)).2
      push_cast at h2 h4 h5
      omega

theorem ScoresTo_smallGrid {g1 : grid} (h : ScoresTo smallGrid g1) : g1 = smallScored := by
  have h1 := h 40 (by decide)
  have h2 : Score 40 smallGrid = .ok smallScored := rfl
  rw [h2] at h1
  cases h1
  rfl

theorem IsDist_longGrid_at {k : Nat} (h2 : k < 2147483650) :
    IsDist longGrid ⟨0, (k : Int)⟩ k := by
  constructor
  · refine ⟨⟨0, 0⟩, ?_, Walk_longGrid k h2⟩
    have hc : contains longGrid ⟨0, 0⟩ = true := by
      rw [contains_longGrid]
      refine ⟨rfl, ?_, ?_⟩ <;> dsimp only <;> omega
    rw [isGuard_iff, cell_longGrid hc]
    exact ⟨hc, rfl⟩
  · rintro n ⟨gd, hg, hw⟩
    have := isGuard_longGrid hg
    subst this
    have := Walk_far hw
    simp only at this
    omega

theorem longGrid_values :
    ∃ g1, ScoresTo longGrid g1 ∧ WF g1 ∧ (∀ x, contains g1 x = contains longGrid x) ∧
      ∀ k : Nat, 1 ≤ k → k < 2147483650 →
        cell g1 ⟨0, (k : Int)⟩ = min (k : Int) (MaxInt32 + 1) := by
  obtain ⟨g1, h1, hf, -, hv, -⟩ := Score_values WF_longGrid (Sound_Built Built_longGrid)
  exact ⟨g1, h1, hf.1, Frame_contains hf, fun k hk1 hk2 =>
    hv _ _ (isOpen_longGrid hk1 hk2) (IsDist_longGrid_at hk2)⟩

/-! ## The states `Score` goes through -/

theorem GuardState_inv {g0 : grid} (hw : WF g0) (hs : Sound g0 g0) {g : grid}
    {rem : List room} (h : GuardState g0 g rem) :
    Frame g0 g ∧ Sound g0 g ∧ ∀ gd ∈ rem, isGuard g0 gd = true := by
  induction h with
  | start hg =>
    rw [findGuards_eq hw] at hg
    cases hg
    exact ⟨Frame_refl hw, hs, fun gd h => mem_findGuards.1 h⟩
  | @next g g1 gd rest ns fuel _ hn hc ih =>
    obtain ⟨hf, hsg, hrem⟩ := ih
    rw [neighbors_eq hf.1, Frame_openNbrs hf] at hn
    cases hn
    obtain ⟨g2, h2, hf2, hs2, -, -⟩ := pass_correct (hrem gd (List.mem_cons_self _ _)) hf hsg
    have e1 := calcDistances_mono (le_max_left fuel (scoreFuel g0)) hc
    have e2 := calcDistances_mono (le_max_right fuel (scoreFuel g0)) h2
    rw [e1] at e2
    cases e2
    exact ⟨hf2, hs2, fun x hx => hrem x (List.mem_cons_of_mem gd hx)⟩

theorem LoopState_inv {g0 gs : grid} {gd : room} {lv : room → Nat} (hl : IsLevel g0 gd lv)
    (hg : isGuard g0 gd = true) (hf : Frame g0 gs) (hs : Sound g0 gs) {g : grid}
    {q V : List room} (h : LoopState gd gs (openNbrs g0 gd) g q V) :
    Frame g0 g ∧ PassInv g0 gd lv gs g q V := by
  induction h with
  | start => exact ⟨hf, PassInv_init hl hg hs⟩
  | skip _ hr ih => exact ⟨ih.1, PassInv_skip ih.2 hr⟩
  | @visit g g1 r rest V V1 ns _ hr hc hn ih =>
    obtain ⟨hf1, hP⟩ := ih
    have hro := Reach_open (hP.queue r (List.mem_cons_self _ _))
    have hrc : contains g r = true := by
      rw [Frame_contains hf1]
      exact (isOpen_iff.1 hro).1
    obtain ⟨g2, v, hc2, hpl, hsv⟩ := calcDistance_spec hf1.1 hrc gd V
    rw [hc2] at hc
    cases hc
    have hf2 : Frame g0 g1 := Frame_step hf1 hro hpl (StepValue_pos hsv)
    rw [neighbors_eq hf2.1, Frame_openNbrs hf2] at hn
    cases hn
    exact ⟨hf2, PassInv_step hl hg hf1 hP hr hpl hsv⟩

theorem else_branch_neighbour {g0 gs g : grid} {gd r : room} {lv : room → Nat}
    {rest V : List room} (hl : IsLevel g0 gd lv) (hg : isGuard g0 gd = true)
    (hf : Frame g0 g) (hP : PassInv g0 gd lv gs g (r :: rest) V)
    (hnadj : abs (gd.r - r.r) + abs (gd.c - r.c) ≠ 1) :
    ∃ p ∈ openNbrs g r, 0 < cell g p ∧ cell g p ≤ (lv p : Int) ∧ lv p + 1 = lv r ∧
      Reach g0 gd r := by
  have hrr : Reach g0 gd r := hP.queue r (List.mem_cons_self _ _)
  have hlv1 := lv_pos hl hg hrr
  have h2 : 2 ≤ lv r := by
    have := (lv_one_iff hl hg hrr).not.2 hnadj
    omega
  obtain ⟨p, hp, hadjp, hlp⟩ := lv_pred hl hrr h2
  have hpV : p ∈ V := lower_seen hl hg hP (lv p) p hp rfl (fun x hx => by
    rcases List.mem_cons.1 hx with rfl | hx
    · omega
    · have := (List.pairwise_cons.1 hP.sorted).1 x hx
      omega)
  obtain ⟨-, hppos, hple⟩ := hP.seen p hpV
  refine ⟨p, ?_, hppos, by omega, hlp, hrr⟩
  rw [Frame_openNbrs hf]
  exact mem_openNbrs.2 ⟨adj_symm hadjp, Reach_open hp⟩

/-! ## Distances are below the number of rooms -/

theorem level_rooms {g : grid} {gd : room} {lv : room → Nat} (hl : IsLevel g gd lv) :
    ∀ (n : Nat) (c : room), Reach g gd c → lv c = n →
      ∃ l : List room, l.length = n ∧ l.Nodup ∧ ∀ x ∈ l, isOpen g x = true ∧ lv x ≤ n := by
  intro n
  induction n with
  | zero =>
    intro c _ _
    exact ⟨[], rfl, List.nodup_nil, fun _ h => absurd h (List.not_mem_nil _)⟩
  | succ n ih =>
    intro c hc hlv
    rcases Nat.eq_zero_or_pos n with h0 | hpos
    · subst h0
      refine ⟨[c], rfl, List.nodup_singleton c, fun x hx => ?_⟩
      rw [List.mem_singleton.1 hx]
      exact ⟨Reach_open hc, by omega⟩
    · obtain ⟨p, hp, -, hlp⟩ := lv_pred hl hc (by omega)
      obtain ⟨l, h1, h2, h3⟩ := ih p hp (by omega)
      refine ⟨c :: l, by rw [List.length_cons, h1], List.nodup_cons.2 ⟨fun hmem => ?_, h2⟩,
        fun x hx => ?_⟩
      · have := (h3 c hmem).2
        omega
      · rcases List.mem_cons.1 hx with rfl | hx
        · exact ⟨Reach_open hc, by omega⟩
        · exact ⟨(h3 x hx).1, by have := (h3 x hx).2; omega⟩

theorem level_lt_rooms {g : grid} {gd : room} {lv : room → Nat} (hl : IsLevel g gd lv)
    (hg : isGuard g gd = true) {c : room} (hc : Reach g gd c) :
    lv c < g.rMax.toNat * g.cMax.toNat := by
  obtain ⟨l, h1, h2, h3⟩ := level_rooms hl (lv c) c hc rfl
  have hgl : gd ∉ l := fun hmem => by
    have h4 := (h3 gd hmem).1
    rw [isGuard_not_open hg] at h4
    cases h4
  have hnd : (gd :: l).Nodup := List.nodup_cons.2 ⟨hgl, h2⟩
  have hV : ∀ x ∈ gd :: l, contains g x = true := by
    intro x hx
    rcases List.mem_cons.1 hx with rfl | hx
    · exact (isGuard_iff.1 hg).1
    · exact (isOpen_iff.1 (h3 x hx).1).1
  have := visited_length_le hnd hV
  rw [List.length_cons, h1] at this
  omega

theorem rooms_cast {g : grid} (hw : WF g) {x : room} (hx : contains g x = true) :
    ((g.rMax.toNat * g.cMax.toNat : Nat) : Int) = g.rMax * g.cMax := by
  rw [contains_iff] at hx
  push_cast
  rw [Int.toNat_of_nonneg hw.1, Int.toNat_of_nonneg (by omega)]

theorem value_lt_rooms {g0 g1 : grid} (hs : Sound g0 g1)
    (hu : ∀ gd, isGuard g0 gd = true → Upper g0 g1 gd) {c : room} (ho : isOpen g0 c = true)
    (hne : cell g1 c ≠ 0) :
    0 < cell g1 c ∧ cell g1 c < ((g0.rMax.toNat * g0.cMax.toNat : Nat) : Int) ∧
      cell g1 c ≤ MaxInt32 + 1 := by
  rcases hs c ho with h0 | ⟨n, hn, -⟩
  · exact absurd h0 hne
  · have hpos := GuardWalk_pos ho hn
    obtain ⟨gd, hg, hwalk⟩ := hn
    obtain ⟨k, rfl⟩ : ∃ k, n = k + 1 := ⟨n - 1, by omega⟩
    obtain ⟨lv, hl⟩ := exists_level g0 gd
    have hr : Reach g0 gd c := ⟨k, hwalk⟩
    have h1 := level_lt_rooms hl hg hr
    have h2 := lv_walk hl hr
    have h3 := lv_pos hl hg hr
    obtain ⟨j, hj⟩ : ∃ j, lv c = j + 1 := ⟨lv c - 1, by omega⟩
    rw [hj] at h2
    obtain ⟨h4, h5⟩ := hu gd hg c j h2
    refine ⟨h4, ?_, by omega⟩
    have h6 : ((j + 1 : Nat) : Int) < ((g0.rMax.toNat * g0.cMax.toNat : Nat) : Int) := by
      rw [← hj]
      exact_mod_cast h1
    omega

theorem Built_corridor3 : Built corridor3 := by
  have h0 : Built ⟨[[0, 0, 0]], 3, 1, false⟩ := Built.new 1 3 _ rfl
  exact Built.guard _ ⟨0, 0⟩ _ h0 rfl

theorem Applies_corridor3 :
    Applies corridor3 ⟨0, 0⟩ ⟨0, 2⟩ ⟨[[GUARD, 1, 0]], 3, 1, false⟩ := by
  have h0 : GuardState corridor3 corridor3 [⟨0, 0⟩] := GuardState.start rfl
  have h1 : LoopState ⟨0, 0⟩ corridor3 [⟨0, 1⟩] corridor3 [⟨0, 1⟩] [] := LoopState.start
  have h2 : LoopState ⟨0, 0⟩ corridor3 [⟨0, 1⟩] ⟨[[GUARD, 1, 0]], 3, 1, false⟩
      ([] ++ [(⟨0, 2⟩ : room)].filter (fun n => n ∉ [(⟨0, 1⟩ : room)])) [⟨0, 1⟩] :=
    LoopState.visit h1 (by decide) rfl rfl
  exact ⟨corridor3, [], [⟨0, 1⟩], [], [⟨0, 1⟩], h0, rfl, h2, by decide⟩

/-! ## `Score` calls between the placements -/

theorem open_setCell_iff {g : grid} {x : room} (hw : WF g) (hx : contains g x = true)
    {v : Int} (hv : v = GUARD ∨ v = LOCKED) {y : room} :
    isOpen (setCell g x v) y = true ↔ y ≠ x ∧ isOpen g y = true := by
  rw [isOpen_iff, isOpen_iff, contains_setCell]
  constructor
  · rintro ⟨hc, h1, h2⟩
    by_cases hyx : y = x
    · subst hyx
      rw [cell_setCell_self hw hx] at h1 h2
      rcases hv with rfl | rfl
      · exact absurd rfl h1
      · exact absurd rfl h2
    · rw [cell_setCell_ne hw hx v hc hyx] at h1 h2
      exact ⟨hyx, hc, h1, h2⟩
  · rintro ⟨hyx, hc, h1, h2⟩
    rw [cell_setCell_ne hw hx v hc hyx]
    exact ⟨hc, h1, h2⟩

theorem isGuard_setCell_GUARD {g : grid} {x : room} (hw : WF g) (hx : contains g x = true)
    {y : room} (h : y = x ∨ isGuard g y = true) : isGuard (setCell g x GUARD) y = true := by
  rw [isGuard_iff, contains_setCell]
  by_cases hyx : y = x
  · subst hyx
    exact ⟨hx, cell_setCell_self hw hx GUARD⟩
  · rcases h with h | h
    · exact absurd h hyx
    · obtain ⟨hc, hv⟩ := isGuard_iff.1 h
      exact ⟨hc, by rw [cell_setCell_ne hw hx GUARD hc hyx]; exact hv⟩

theorem Walk_setCell_GUARD {g : grid} {x : room} (hw : WF g) (hx : contains g x = true)
    {gd c : room} {n : Nat} (hg : isGuard g gd = true) (h : Walk g gd n c) :
    ∃ gd1 m, m ≤ n ∧ isGuard (setCell g x GUARD) gd1 = true ∧
      Walk (setCell g x GUARD) gd1 m c := by
  induction h with
  | start => exact ⟨gd, 0, le_refl 0, isGuard_setCell_GUARD hw hx (Or.inr hg), Walk.start⟩
  | @step n a b _ hadj ho ih =>
    by_cases hbx : b = x
    · subst hbx
      exact ⟨b, 0, Nat.zero_le _, isGuard_setCell_GUARD hw hx (Or.inl rfl), Walk.start⟩
    · obtain ⟨gd1, m, hm, hg1, hw1⟩ := ih
      exact ⟨gd1, m + 1, by omega, hg1,
        Walk.step hw1 hadj ((open_setCell_iff hw hx (Or.inl rfl)).2 ⟨hbx, ho⟩)⟩

theorem Frame_setCell_GUARD {ga gb : grid} (hf : Frame gb ga) (hwb : WF gb) {x : room}
    (hx : contains gb x = true) : Frame (setCell gb x GUARD) (setCell ga x GUARD) := by
  have hxa : contains ga x = true := by rw [Frame_contains hf]; exact hx
  obtain ⟨hwa, hR, hC, hF, hopen, hkeep⟩ := hf
  refine ⟨WF_setCell hwa hxa _, by rw [setCell_rMax, setCell_rMax, hR],
    by rw [setCell_cMax, setCell_cMax, hC], by rw [setCell_fixed, setCell_fixed, hF], ?_, ?_⟩
  · intro y
    rw [Bool.eq_iff_iff, open_setCell_iff hwa hxa (Or.inl rfl),
      open_setCell_iff hwb hx (Or.inl rfl), hopen y]
  · intro y hy hnot
    rw [contains_setCell] at hy
    by_cases hyx : y = x
    · subst hyx
      rw [cell_setCell_self hwa hxa, cell_setCell_self hwb hx]
    · have hya : contains ga y = true := by
        rw [contains_congr hR hC]
        exact hy
      rw [cell_setCell_ne hwa hxa _ hya hyx, cell_setCell_ne hwb hx _ hy hyx]
      apply hkeep y hy
      rw [Bool.eq_false_iff] at hnot ⊢
      exact fun ho => hnot ((open_setCell_iff hwb hx (Or.inl rfl)).2 ⟨hyx, ho⟩)

theorem Sound_setCell_GUARD {ga gb : grid} (hf : Frame gb ga) (hs : Sound gb ga) (hwb : WF gb)
    {x : room} (hx : contains gb x = true) :
    Sound (setCell gb x GUARD) (setCell ga x GUARD) := by
  have hxa : contains ga x = true := by rw [Frame_contains hf]; exact hx
  intro c hc
  obtain ⟨hcx, hco⟩ := (open_setCell_iff hwb hx (Or.inl rfl)).1 hc
  have hca : contains ga c = true := by
    rw [Frame_contains hf]
    exact (isOpen_iff.1 hco).1
  rw [cell_setCell_ne hf.1 hxa _ hca hcx]
  rcases hs c hco with h0 | ⟨n, ⟨gd, hg, hwalk⟩, hle⟩
  · exact Or.inl h0
  · obtain ⟨gd1, m, hm, hg1, hw1⟩ := Walk_setCell_GUARD hwb hx hg hwalk
    exact Or.inr ⟨m, ⟨gd1, hg1, hw1⟩, by omega⟩

theorem Frame_trans {a b c : grid} (h1 : Frame a b) (h2 : Frame b c) : Frame a c := by
  obtain ⟨-, hR1, hC1, hF1, ho1, hk1⟩ := h1
  obtain ⟨hw2, hR2, hC2, hF2, ho2, hk2⟩ := h2
  refine ⟨hw2, by rw [hR2, hR1], by rw [hC2, hC1], by rw [hF2, hF1],
    fun x => by rw [ho2, ho1], fun x hx hnot => ?_⟩
  rw [hk2 x (by rw [contains_congr hR1 hC1]; exact hx) (by rw [ho1]; exact hnot)]
  exact hk1 x hx hnot

theorem Sound_layout {g0 g1 g : grid} (hf : Frame g0 g1) (hs : Sound g1 g) : Sound g0 g := by
  intro c hc
  rcases hs c (by rw [hf.2.2.2.2.1]; exact hc) with h0 | ⟨n, hn, hle⟩
  · exact Or.inl h0
  · exact Or.inr ⟨n, (Frame_GuardWalk hf).1 hn, hle⟩

theorem Sound_layout_back {g0 g1 g : grid} (hf : Frame g0 g1) (hs : Sound g0 g) :
    Sound g1 g := by
  intro c hc
  rw [hf.2.2.2.2.1] at hc
  rcases hs c hc with h0 | ⟨n, hn, hle⟩
  · exact Or.inl h0
  · exact Or.inr ⟨n, (Frame_GuardWalk hf).2 hn, hle⟩

theorem Upper_layout {g0 g1 g : grid} (hf : Frame g0 g1)
    (hu : ∀ gd, isGuard g1 gd = true → Upper g1 g gd) :
    ∀ gd, isGuard g0 gd = true → Upper g0 g gd :=
  fun gd hg c n hwalk =>
    hu gd (by rw [Frame_isGuard hf]; exact hg) c n
      (Walk_congr (fun x => (hf.2.2.2.2.1 x).symm) hwalk)

theorem scoreFuel_congr {g g1 : grid} (hR : g1.rMax = g.rMax) (hC : g1.cMax = g.cMax) :
    scoreFuel g1 = scoreFuel g := by
  unfold scoreFuel
  rw [hR, hC]

theorem SameLayout_scores {ga gb : grid} (h : SameLayout ga gb) :
    ∃ g1, ScoresTo ga g1 ∧ ScoresTo gb g1 := by
  obtain ⟨hf, hb, -, hs⟩ := h
  obtain ⟨g1, h1, hf1, hs1, hu1⟩ := Score_correct hf.1 (Sound_layout_back hf hs)
  obtain ⟨g2, h2, hf2, hs2, hu2⟩ := Score_correct (Built_WF hb) (Sound_Built hb)
  have hfb1 : Frame gb g1 := Frame_trans hf hf1
  have heq : g1 = g2 := by
    apply grid_eq_of_cells hf1.1 hf2.1 (by rw [hfb1.2.1, hf2.2.1]) (by rw [hfb1.2.2.1, hf2.2.2.1])
      (by rw [hfb1.2.2.2.1, hf2.2.2.2.1])
    intro x hx
    have hxb : contains gb x = true := by rw [← Frame_contains hfb1]; exact hx
    by_cases ho : isOpen gb x = true
    · exact values_unique (Sound_layout hf hs1) hs2 (Upper_layout hf hu1) hu2 ho
    · simp only [Bool.not_eq_true] at ho
      rw [hfb1.2.2.2.2.2 x hxb ho, hf2.2.2.2.2.2 x hxb ho]
  rw [← heq] at h2
  exact ⟨g1, h1, h2⟩

theorem runOps_guard {fuel : Nat} {g g1 : grid} {r : room} (h : placeGuard g r = .ok g1)
    (ops : List Op) : runOps fuel g (.guard r :: ops) = runOps fuel g1 ops := by
  show (match placeGuard g r with
    | Except.error e => Except.error e
    | Except.ok g1 => runOps fuel g1 ops) = runOps fuel g1 ops
  rw [h]

theorem runOps_lock {fuel : Nat} {g g1 : grid} {r : room} (h : lockRoom g r = .ok g1)
    (ops : List Op) : runOps fuel g (.lock r :: ops) = runOps fuel g1 ops := by
  show (match lockRoom g r with
    | Except.error e => Except.error e
    | Except.ok g1 => runOps fuel g1 ops) = runOps fuel g1 ops
  rw [h]

theorem runOps_score {fuel : Nat} {g g1 : grid} (h : Score fuel g = .ok g1)
    (ops : List Op) : runOps fuel g (.score :: ops) = runOps fuel g1 ops := by
  show (match Score fuel g with
    | Except.error e => Except.error e
    | Except.ok g1 => runOps fuel g1 ops) = runOps fuel g1 ops
  rw [h]

theorem runOps_append (fuel : Nat) : ∀ (a : List Op) (g : grid) (b : List Op) (g1 : grid),
    runOps fuel g a = .ok g1 → runOps fuel g (a ++ b) = runOps fuel g1 b
  | [], g, b, g1, h => by
    cases h
    rfl
  | .guard r :: a, g, b, g1, h => by
    rw [List.cons_append]
    cases hp : placeGuard g r with
    | error e =>
      rw [runOps, hp] at h
      cases h
    | ok g2 =>
      rw [runOps_guard hp] at h ⊢
      exact runOps_append fuel a g2 b g1 h
  | .lock r :: a, g, b, g1, h => by
    rw [List.cons_append]
    cases hp : lockRoom g r with
    | error e =>
      rw [runOps, hp] at h
      cases h
    | ok g2 =>
      rw [runOps_lock hp] at h ⊢
      exact runOps_append fuel a g2 b g1 h
  | .score :: a, g, b, g1, h => by
    rw [List.cons_append]
    cases hp : Score fuel g with
    | error e =>
      rw [runOps, hp] at h
      cases h
    | ok g2 =>
      rw [runOps_score hp] at h ⊢
      exact runOps_append fuel a g2 b g1 h

theorem inGrid_congr {g g1 : grid} (h : ∀ x, contains g1 x = contains g x) (o : Op) :
    o.inGrid g1 = o.inGrid g := by
  cases o with
  | guard r => exact h r
  | lock r => exact h r
  | score => rfl

theorem runOps_after_score : ∀ (ops : List Op) (ga gb : grid), SameLayout ga gb →
    (∀ o ∈ ops, o.inGrid gb = true ∧ o.isLock = false) →
    ∃ ga1 gb1, SameLayout ga1 gb1 ∧ scoreFuel gb1 = scoreFuel gb ∧
      ∀ fuel, scoreFuel gb ≤ fuel →
        runOps fuel ga ops = .ok ga1 ∧ runOps fuel gb (placements ops) = .ok gb1
  | [], ga, gb, h, _ => ⟨ga, gb, h, rfl, fun _ _ => ⟨rfl, rfl⟩⟩
  | .guard r :: ops, ga, gb, h, hin => by
    obtain ⟨hf, hb, hfix, hs⟩ := h
    have hwb := Built_WF hb
    have hr : contains gb r = true := (hin _ (List.mem_cons_self _ _)).1
    have hra : contains ga r = true := by rw [Frame_contains hf]; exact hr
    have hfa : ga.fixed = false := by rw [hf.2.2.2.1]; exact hfix
    have hpa := placeGuard_eq hf.1 hfa hra
    have hpb := placeGuard_eq hwb hfix hr
    have hrel : SameLayout (setCell ga r GUARD) (setCell gb r GUARD) :=
      ⟨Frame_setCell_GUARD hf hwb hr, Built.guard _ _ _ hb hpb,
        by rw [setCell_fixed]; exact hfix, Sound_setCell_GUARD hf hs hwb hr⟩
    obtain ⟨ga1, gb1, hrel1, hfuel, hrun⟩ := runOps_after_score ops _ _ hrel (fun o ho => by
      rw [inGrid_congr (contains_setCell gb r GUARD)]
      exact hin o (List.mem_cons_of_mem _ ho))
    have hsf := scoreFuel_congr (setCell_rMax gb r GUARD) (setCell_cMax gb r GUARD)
    refine ⟨ga1, gb1, hrel1, by rw [hfuel, hsf], fun fuel hle => ?_⟩
    obtain ⟨h1, h2⟩ := hrun fuel (by rw [hsf]; exact hle)
    constructor
    · rw [runOps_guard hpa]
      exact h1
    · show runOps fuel gb (.guard r :: placements ops) = .ok gb1
      rw [runOps_guard hpb]
      exact h2
  | .lock r :: ops, ga, gb, h, hin => by
    have := (hin _ (List.mem_cons_self _ _)).2
    cases this
  | .score :: ops, ga, gb, h, hin => by
    obtain ⟨hf, hb, hfix, hs⟩ := h
    obtain ⟨g1, h1, hf1, hs1, -⟩ := Score_correct hf.1 (Sound_layout_back hf hs)
    have hrel : SameLayout g1 gb := ⟨Frame_trans hf hf1, hb, hfix, Sound_layout hf hs1⟩
    obtain ⟨ga1, gb1, hrel1, hfuel, hrun⟩ := runOps_after_score ops _ _ hrel (fun o ho =>
      hin o (List.mem_cons_of_mem _ ho))
    refine ⟨ga1, gb1, hrel1, hfuel, fun fuel hle => ?_⟩
    obtain ⟨h2, h3⟩ := hrun fuel hle
    constructor
    · rw [runOps_score (h1 fuel (by rw [scoreFuel_congr hf.2.1 hf.2.2.1]; exact hle))]
      exact h2
    · exact h3

theorem runOps_configure : ∀ (ops : List Op) (g : grid), Built g → g.fixed = false →
    (∀ o ∈ ops, o.inGrid g = true) → noLockAfterScore ops = true →
    ∃ ga gb, SameLayout ga gb ∧ scoreFuel gb = scoreFuel g ∧
      ∀ fuel, scoreFuel g ≤ fuel →
        runOps fuel g ops = .ok ga ∧ runOps fuel g (placements ops) = .ok gb
  | [], g, hb, hfix, _, _ =>
    ⟨g, g, ⟨Frame_refl (Built_WF hb), hb, hfix, Sound_Built hb⟩, rfl, fun _ _ => ⟨rfl, rfl⟩⟩
  | .guard r :: ops, g, hb, hfix, hin, hno => by
    have hr : contains g r = true := hin _ (List.mem_cons_self _ _)
    have hp := placeGuard_eq (Built_WF hb) hfix hr
    obtain ⟨ga, gb, hrel, hfuel, hrun⟩ := runOps_configure ops (setCell g r GUARD)
      (Built.guard _ _ _ hb hp) (by rw [setCell_fixed]; exact hfix)
      (fun o ho => by
        rw [inGrid_congr (contains_setCell g r GUARD)]
        exact hin o (List.mem_cons_of_mem _ ho)) hno
    have hsf := scoreFuel_congr (setCell_rMax g r GUARD) (setCell_cMax g r GUARD)
    refine ⟨ga, gb, hrel, by rw [hfuel, hsf], fun fuel hle => ?_⟩
    obtain ⟨h1, h2⟩ := hrun fuel (by rw [hsf]; exact hle)
    constructor
    · rw [runOps_guard hp]
      exact h1
    · show runOps fuel g (.guard r :: placements ops) = .ok gb
      rw [runOps_guard hp]
      exact h2
  | .lock r :: ops, g, hb, hfix, hin, hno => by
    have hr : contains g r = true := hin _ (List.mem_cons_self _ _)
    have hp := lockRoom_eq (Built_WF hb) hfix hr
    obtain ⟨ga, gb, hrel, hfuel, hrun⟩ := runOps_configure ops (setCell g r LOCKED)
      (Built.lock _ _ _ hb hp) (by rw [setCell_fixed]; exact hfix)
      (fun o ho => by
        rw [inGrid_congr (contains_setCell g r LOCKED)]
        exact hin o (List.mem_cons_of_mem _ ho)) hno
    have hsf := scoreFuel_congr (setCell_rMax g r LOCKED) (setCell_cMax g r LOCKED)
    refine ⟨ga, gb, hrel, by rw [hfuel, hsf], fun fuel hle => ?_⟩
    obtain ⟨h1, h2⟩ := hrun fuel (by rw [hsf]; exact hle)
    constructor
    · rw [runOps_lock hp]
      exact h1
    · show runOps fuel g (.lock r :: placements ops) = .ok gb
      rw [runOps_lock hp]
      exact h2
  | .score :: ops, g, hb, hfix, hin, hno => by
    have hall : ∀ o ∈ ops, o.isLock = false := by
      intro o ho
      have := List.all_eq_true.1 hno o ho
      simpa using this
    exact runOps_after_score (.score :: ops) g g
      ⟨Frame_refl (Built_WF hb), hb, hfix, Sound_Built hb⟩ (fun o ho => by
        refine ⟨hin o ho, ?_⟩
        rcases List.mem_cons.1 ho with rfl | ho
        · rfl
        · exact hall o ho)

/-! ## Symmetries of the grid -/

theorem mirrorLR_example :
    mirrorLR ⟨[[1, 2, 3], [4, 5, 6]], 3, 2, false⟩ = ⟨[[3, 2, 1], [6, 5, 4]], 3, 2, false⟩ := rfl

theorem mirrorTB_example :
    mirrorTB ⟨[[1, 2, 3], [4, 5, 6]], 3, 2, false⟩ = ⟨[[4, 5, 6], [1, 2, 3]], 3, 2, false⟩ := rfl

theorem transpose_example :
    transpose ⟨[[1, 2, 3], [4, 5, 6]], 3, 2, false⟩ =
      ⟨[[1, 4], [2, 5], [3, 6]], 2, 3, false⟩ := rfl

theorem rotate_example :
    rotate ⟨[[1, 2, 3], [4, 5, 6]], 3, 2, false⟩ =
      ⟨[[4, 1], [5, 2], [6, 3]], 2, 3, false⟩ := rfl

theorem WF_remap (g : grid) {R C : Int} (hR : 0 ≤ R) (hC : R = 0 ∨ 0 ≤ C)
    (t : room → room) : WF (remap g R C t) := by
  refine ⟨hR, ?_, ?_⟩
  · show ((List.range R.toNat).map _).length = R.toNat
    rw [List.length_map, List.length_range]
  · intro row hrow
    obtain ⟨r, hr, rfl⟩ := List.mem_map.1 hrow
    rw [List.mem_range] at hr
    rw [List.length_map, List.length_range]
    show (C.toNat : Int) = C
    omega

theorem cell_remap (g : grid) {R C : Int} (t : room → room) {x : room}
    (hx : contains (remap g R C t) x = true) : cell (remap g R C t) x = cell g (t x) := by
  rw [contains_iff] at hx
  have h1 : (remap g R C t).rMax = R := rfl
  have h2 : (remap g R C t).cMax = C := rfl
  rw [h1, h2] at hx
  have e : (⟨((x.r.toNat : Nat) : Int), ((x.c.toNat : Nat) : Int)⟩ : room) = x := by
    apply room_ext
    · simp only
      omega
    · simp only
      omega
  refine cell_of_getElem?
    ((List.range C.toNat).map fun (c : Nat) => cell g (t ⟨((x.r.toNat : Nat) : Int), (c : Int)⟩))
    hx.1 hx.2.2.1 ?_ ?_
  · show ((List.range R.toNat).map _)[x.r.toNat]? = _
    rw [List.getElem?_map, List.getElem?_range (by omega)]
    rfl
  · rw [List.getElem?_map, List.getElem?_range (by omega)]
    show some (cell g (t ⟨((x.r.toNat : Nat) : Int), ((x.c.toNat : Nat) : Int)⟩)) = _
    rw [e]

theorem IsImage_isOpen {t s : room → room} {g h : grid} (hi : IsImage t s g h) (x : room) :
    isOpen h x = isOpen g (t x) := by
  obtain ⟨-, -, hc, hv, -⟩ := hi
  by_cases hx : contains h x = true
  · unfold isOpen
    rw [← hc x, hv x hx]
  · simp only [Bool.not_eq_true] at hx
    unfold isOpen
    rw [← hc x, hx]
    rfl

theorem IsImage_isGuard {t s : room → room} {g h : grid} (hi : IsImage t s g h) (x : room) :
    isGuard h x = isGuard g (t x) := by
  obtain ⟨-, -, hc, hv, -⟩ := hi
  by_cases hx : contains h x = true
  · unfold isGuard
    rw [← hc x, hv x hx]
  · simp only [Bool.not_eq_true] at hx
    unfold isGuard
    rw [← hc x, hx]
    rfl

theorem IsImage_Walk {t s : room → room} {g h : grid} (hi : IsImage t s g h) {a c : room}
    {n : Nat} (hw : Walk h a n c) : Walk g (t a) n (t c) := by
  induction hw with
  | start => exact Walk.start
  | step _ hadj ho ih =>
    exact Walk.step ih ((hi.2.2.2.2.2.2 _ _).1 hadj) (by rw [← IsImage_isOpen hi]; exact ho)

theorem IsImage_Walk_back {t s : room → room} {g h : grid} (hi : IsImage t s g h) {a c : room}
    {n : Nat} (hw : Walk g a n c) : Walk h (s a) n (s c) := by
  have hts := hi.2.2.2.2.1
  induction hw with
  | start => exact Walk.start
  | @step n a1 b _ hadj ho ih =>
    refine Walk.step ih ((hi.2.2.2.2.2.2 _ _).2 ?_) ?_
    · rw [hts, hts]
      exact hadj
    · rw [IsImage_isOpen hi, hts]
      exact ho

theorem IsImage_GuardWalk {t s : room → room} {g h : grid} (hi : IsImage t s g h) {n : Nat}
    {x : room} : GuardWalk h n x ↔ GuardWalk g n (t x) := by
  constructor
  · rintro ⟨gd, hg, hw⟩
    exact ⟨t gd, by rw [← IsImage_isGuard hi]; exact hg, IsImage_Walk hi hw⟩
  · rintro ⟨gd, hg, hw⟩
    have h1 := IsImage_Walk_back hi hw
    rw [hi.2.2.2.2.2.1] at h1
    exact ⟨s gd, by rw [IsImage_isGuard hi, hi.2.2.2.2.1]; exact hg, h1⟩

theorem value_determined {W W1 : Nat → Prop} {va vb : Int} (hW : ∀ n, W n ↔ W1 n)
    (hsa : va = 0 ∨ ∃ n, W n ∧ min (n : Int) (MaxInt32 + 1) ≤ va)
    (hua : ∀ n, W n → 0 < va ∧ va ≤ min (n : Int) (MaxInt32 + 1))
    (hsb : vb = 0 ∨ ∃ n, W1 n ∧ min (n : Int) (MaxInt32 + 1) ≤ vb)
    (hub : ∀ n, W1 n → 0 < vb ∧ vb ≤ min (n : Int) (MaxInt32 + 1)) : va = vb := by
  have hM := MaxInt32_pos
  rcases hsa with ha | ⟨n, hn, hle⟩
  · rcases hsb with hb | ⟨m, hm, -⟩
    · rw [ha, hb]
    · have := (hua m ((hW m).2 hm)).1
      omega
  · have h1 := hua n hn
    have h2 := hub n ((hW n).1 hn)
    rcases hsb with hb | ⟨m, hm, hle1⟩
    · omega
    · have h3 := hua m ((hW m).2 hm)
      omega

theorem IsImage_Sound {t s : room → room} {g h : grid} (hi : IsImage t s g h)
    (hs : Sound g g) : Sound h h := by
  intro c hc
  have hcc := (isOpen_iff.1 hc).1
  rw [IsImage_isOpen hi] at hc
  rw [hi.2.2.2.1 c hcc]
  rcases hs (t c) hc with h0 | ⟨n, hn, hle⟩
  · exact Or.inl h0
  · exact Or.inr ⟨n, (IsImage_GuardWalk hi).2 hn, hle⟩

theorem image_scores {t s : room → room} {g h : grid} (hw : WF g) (hs : Sound g g)
    (hi : IsImage t s g h) :
    ∃ g1 h1, ScoresTo g g1 ∧ ScoresTo h h1 ∧ Frame g g1 ∧ Frame h h1 ∧
      ∀ x, contains h x = true → cell h1 x = cell g1 (t x) := by
  have hsh : Sound h h := IsImage_Sound hi hs
  obtain ⟨g1, h1, hf1, hs1, hu1⟩ := Score_correct hw hs
  obtain ⟨h1', h2, hf2, hs2, hu2⟩ := Score_correct hi.1 hsh
  refine ⟨g1, h1', h1, h2, hf1, hf2, fun x hx => ?_⟩
  by_cases ho : isOpen h x = true
  · have hog : isOpen g (t x) = true := by rw [← IsImage_isOpen hi]; exact ho
    exact value_determined (fun n => IsImage_GuardWalk hi (n := n) (x := x)) (hs2 x ho)
      (fun n hn => Upper_GuardWalk hu2 ho hn)
      (hs1 (t x) hog) (fun n hn => Upper_GuardWalk hu1 hog hn)
  · simp only [Bool.not_eq_true] at ho
    have hog : isOpen g (t x) = false := by rw [← IsImage_isOpen hi]; exact ho
    have hxg : contains g (t x) = true := by rw [← hi.2.2.1]; exact hx
    rw [hf2.2.2.2.2.2 x hx ho, hf1.2.2.2.2.2 (t x) hxg hog]
    exact hi.2.2.2.1 x hx

theorem WF_cMax {g : grid} (hw : WF g) : g.rMax = 0 ∨ 0 ≤ g.cMax := by
  obtain ⟨h0, hlen, hrows⟩ := hw
  cases hd : g.dist with
  | nil =>
    rw [hd] at hlen
    simp only [List.length_nil] at hlen
    exact Or.inl (by omega)
  | cons row rest =>
    have := hrows row (by rw [hd]; exact List.mem_cons_self _ _)
    exact Or.inr (by omega)

theorem IsImage_remap {g : grid} {R C : Int} (hR : 0 ≤ R) (hC : R = 0 ∨ 0 ≤ C)
    {t s : room → room} (hc : ∀ x, contains (remap g R C t) x = contains g (t x))
    (hts : ∀ x, t (s x) = x) (hst : ∀ x, s (t x) = x)
    (hadj : ∀ a b, b ∈ proposeNeighbors a ↔ t b ∈ proposeNeighbors (t a)) :
    IsImage t s g (remap g R C t) :=
  ⟨WF_remap g hR hC t, rfl, hc, fun _ hx => cell_remap g t hx, hts, hst, hadj⟩

theorem remap_scores {g : grid} (hw : WF g) (hs : Sound g g) {R C : Int}
    {t s : room → room} (hi : IsImage t s g (remap g R C t)) :
    ∃ g1, ScoresTo g g1 ∧ Frame g g1 ∧ ScoresTo (remap g R C t) (remap g1 R C t) := by
  obtain ⟨g1, h1, hs1, hs2, hf1, hf2, hv⟩ := image_scores hw hs hi
  have hR : 0 ≤ R := hi.1.1
  have hC : R = 0 ∨ 0 ≤ C := WF_cMax hi.1
  have heq : h1 = remap g1 R C t := by
    apply grid_eq_of_cells hf2.1 (WF_remap g1 hR hC t) hf2.2.1 hf2.2.2.1
    · rw [hf2.2.2.2.1]
      show g.fixed = g1.fixed
      rw [hf1.2.2.2.1]
    · intro x hx
      have hx1 : contains (remap g R C t) x = true := by
        rw [← Frame_contains hf2]
        exact hx
      rw [hv x hx1, cell_remap g1 t (x := x) hx1]
  rw [heq] at hs2
  exact ⟨g1, hs1, hf1, hs2⟩

theorem adj_rooms {f : room → room}
    (h : ∀ a b : room, ((f b).r - (f a).r = b.r - a.r ∨ (f b).r - (f a).r = a.r - b.r) ∧
      ((f b).c - (f a).c = b.c - a.c ∨ (f b).c - (f a).c = a.c - b.c) ∨
      ((f b).r - (f a).r = b.c - a.c ∧ (f b).c - (f a).c = b.r - a.r)) (a b : room) :
    b ∈ proposeNeighbors a ↔ f b ∈ proposeNeighbors (f a) := by
  rw [mem_proposeNeighbors, mem_proposeNeighbors]
  have := h a b
  omega

theorem mirrorLR_scores {g : grid} (hw : WF g) (hs : Sound g g) :
    ∃ g1, ScoresTo g g1 ∧ Frame g g1 ∧ ScoresTo (mirrorLR g) (mirrorLR g1) ∧
      Sound (mirrorLR g) (mirrorLR g) := by
  have hi : IsImage (fun x => ⟨x.r, g.cMax - 1 - x.c⟩) (fun x => ⟨x.r, g.cMax - 1 - x.c⟩) g
      (remap g g.rMax g.cMax fun x => ⟨x.r, g.cMax - 1 - x.c⟩) := by
    apply IsImage_remap hw.1 (WF_cMax hw)
    · intro x
      rw [Bool.eq_iff_iff, contains_iff, contains_iff]
      show (0 ≤ x.r ∧ x.r < g.rMax ∧ 0 ≤ x.c ∧ x.c < g.cMax) ↔
        (0 ≤ x.r ∧ x.r < g.rMax ∧ 0 ≤ g.cMax - 1 - x.c ∧ g.cMax - 1 - x.c < g.cMax)
      omega
    · intro x
      apply room_ext
      · rfl
      · dsimp only
        omega
    · intro x
      apply room_ext
      · rfl
      · dsimp only
        omega
    · apply adj_rooms
      intro a b
      exact Or.inl ⟨Or.inl rfl, Or.inr (by dsimp only; omega)⟩
  obtain ⟨g1, h1, hf1, h2⟩ := remap_scores hw hs hi
  refine ⟨g1, h1, hf1, ?_, IsImage_Sound hi hs⟩
  unfold mirrorLR
  rw [hf1.2.1, hf1.2.2.1]
  exact h2

theorem mirrorTB_scores {g : grid} (hw : WF g) (hs : Sound g g) :
    ∃ g1, ScoresTo g g1 ∧ Frame g g1 ∧ ScoresTo (mirrorTB g) (mirrorTB g1) := by
  have hi : IsImage (fun x => ⟨g.rMax - 1 - x.r, x.c⟩) (fun x => ⟨g.rMax - 1 - x.r, x.c⟩) g
      (remap g g.rMax g.cMax fun x => ⟨g.rMax - 1 - x.r, x.c⟩) := by
    apply IsImage_remap hw.1 (WF_cMax hw)
    · intro x
      rw [Bool.eq_iff_iff, contains_iff, contains_iff]
      show (0 ≤ x.r ∧ x.r < g.rMax ∧ 0 ≤ x.c ∧ x.c < g.cMax) ↔
        (0 ≤ g.rMax - 1 - x.r ∧ g.rMax - 1 - x.r < g.rMax ∧ 0 ≤ x.c ∧ x.c < g.cMax)
      omega
    · intro x
      apply room_ext
      · dsimp only
        omega
      · rfl
    · intro x
      apply room_ext
      · dsimp only
        omega
      · rfl
    · apply adj_rooms
      intro a b
      exact Or.inl ⟨Or.inr (by dsimp only; omega), Or.inl rfl⟩
  obtain ⟨g1, h1, hf1, h2⟩ := remap_scores hw hs hi
  refine ⟨g1, h1, hf1, ?_⟩
  unfold mirrorTB
  rw [hf1.2.1, hf1.2.2.1]
  exact h2

theorem transpose_scores {g : grid} (hw : WF g) (hs : Sound g g) (hc : 0 ≤ g.cMax) :
    ∃ g1, ScoresTo g g1 ∧ Frame g g1 ∧ ScoresTo (transpose g) (transpose g1) ∧
      WF (transpose g) ∧ Sound (transpose g) (transpose g) := by
  have hi : IsImage (fun x => ⟨x.c, x.r⟩) (fun x => ⟨x.c, x.r⟩) g
      (remap g g.cMax g.rMax fun x => ⟨x.c, x.r⟩) := by
    apply IsImage_remap hc (Or.inr hw.1)
    · intro x
      rw [Bool.eq_iff_iff, contains_iff, contains_iff]
      show (0 ≤ x.r ∧ x.r < g.cMax ∧ 0 ≤ x.c ∧ x.c < g.rMax) ↔
        (0 ≤ x.c ∧ x.c < g.rMax ∧ 0 ≤ x.r ∧ x.r < g.cMax)
      omega
    · intro x
      rfl
    · intro x
      rfl
    · apply adj_rooms
      intro a b
      exact Or.inr ⟨rfl, rfl⟩
  obtain ⟨g1, h1, hf1, h2⟩ := remap_scores hw hs hi
  refine ⟨g1, h1, hf1, ?_, hi.1, IsImage_Sound hi hs⟩
  unfold transpose
  rw [hf1.2.1, hf1.2.2.1]
  exact h2

theorem Score_no_rooms {g : grid} (h : g.rMax.toNat * g.cMax.toNat = 0) : ScoresTo g g := by
  have hnil : allRooms g = [] := List.eq_nil_of_length_eq_zero (by rw [length_allRooms]; exact h)
  intro fuel _
  unfold Score findGuards
  rw [hnil]
  rfl

theorem rotate_scores {g : grid} (hw : WF g) (hs : Sound g g) (hc : 0 ≤ g.cMax) :
    ∃ g1, ScoresTo g g1 ∧ ScoresTo (transpose g) (transpose g1) ∧
      ScoresTo (rotate g) (rotate g1) := by
  obtain ⟨g1, h1, -, hT, hwT, hsT⟩ := transpose_scores hw hs hc
  obtain ⟨g2, h2, -, hR, -⟩ := mirrorLR_scores hwT hsT
  have he := ScoresTo_unique hT h2
  subst he
  exact ⟨g1, h1, hT, hR⟩

/-! ## Positive values are never raised or cleared -/

theorem pass_never_raises {g0 g : grid} (gd : room) (hf : Frame g0 g) :
    ∃ g1, calcDistances (scoreFuel g0) g gd (openNbrs g0 gd) [] = .ok g1 ∧ Frame g0 g1 ∧
      ∀ c, isOpen g0 c = true → 0 < cell g c → 0 < cell g1 c ∧ cell g1 c ≤ cell g c := by
  obtain ⟨g1, V1, h1, hf1, hP1⟩ := calcDistances_rule g0 gd
    (fun g2 _ _ => ∀ c, isOpen g0 c = true → 0 < cell g c →
      0 < cell g2 c ∧ cell g2 c ≤ cell g c)
    (fun _ _ _ _ _ hP _ => hP)
    (fun g2 r rest V g3 v hf2 _ hP _ hpl hsv _ c hc hpos => by
      obtain ⟨h2, h3⟩ := hP c hc hpos
      by_cases hcr : c = r
      · subst hcr
        rw [hpl.2.2.2.2.1]
        rcases hsv with ⟨-, hv⟩ | ⟨-, low, hlow, -, -, -, hv⟩
        · omega
        · rcases hv with ⟨hcur, hv⟩ | ⟨-, -, hv⟩
          · omega
          · omega
      · rw [hpl.2.2.2.2.2 c (by rw [Frame_contains hf2]; exact (isOpen_iff.1 hc).1) hcr]
        exact ⟨h2, h3⟩)
    (scoreFuel g0) g (openNbrs g0 gd) [] hf (fun r hr => (mem_openNbrs.1 hr).2)
    List.nodup_nil (fun _ h => absurd h (List.not_mem_nil _))
    (fun c _ hpos => ⟨hpos, le_refl _⟩)
    (pass_fuel g0 gd)
  exact ⟨g1, h1, hf1, hP1⟩

theorem Score_never_raises {g0 : grid} (hw : WF g0) :
    ∃ g1, ScoresTo g0 g1 ∧ Frame g0 g1 ∧
      ∀ c, isOpen g0 c = true → 0 < cell g0 c → 0 < cell g1 c ∧ cell g1 c ≤ cell g0 c := by
  obtain ⟨g1, h1, hf1, hQ⟩ := Score_rule g0 hw
    (fun _ g => ∀ c, isOpen g0 c = true → 0 < cell g0 c →
      0 < cell g c ∧ cell g c ≤ cell g0 c)
    (fun gd rest g hf hQ => by
      obtain ⟨g2, h2, hf2, hkeep⟩ := pass_never_raises gd hf
      refine ⟨g2, h2, hf2, fun c hc hpos => ?_⟩
      obtain ⟨h3, h4⟩ := hQ c hc hpos
      obtain ⟨h5, h6⟩ := hkeep c hc h3
      exact ⟨h5, le_trans h6 h4⟩)
    (fun c _ hpos => ⟨hpos, le_refl _⟩)
  exact ⟨g1, h1, hf1, hQ⟩

theorem runOps_guard_stops {fuel : Nat} {g : grid} {r : room} {e : Err}
    (h : placeGuard g r = .error e) (ops : List Op) :
    runOps fuel g (.guard r :: ops) = .error e := by
  show (match placeGuard g r with
    | Except.error e => Except.error e
    | Except.ok g1 => runOps fuel g1 ops) = Except.error e
  rw [h]

theorem runOps_lock_stops {fuel : Nat} {g : grid} {r : room} {e : Err}
    (h : lockRoom g r = .error e) (ops : List Op) :
    runOps fuel g (.lock r :: ops) = .error e := by
  show (match lockRoom g r with
    | Except.error e => Except.error e
    | Except.ok g1 => runOps fuel g1 ops) = Except.error e
  rw [h]

theorem runOps_score_stops {fuel : Nat} {g : grid} {e : Err}
    (h : Score fuel g = .error e) (ops : List Op) :
    runOps fuel g (.score :: ops) = .error e := by
  show (match Score fuel g with
    | Except.error e => Except.error e
    | Except.ok g1 => runOps fuel g1 ops) = Except.error e
  rw [h]

theorem runOps_shape (fuel : Nat) : ∀ (ops : List Op) (g g1 : grid), WF g → g.fixed = false →
    runOps fuel g ops = .ok g1 →
    WF g1 ∧ g1.fixed = false ∧ ∀ x, contains g1 x = contains g x
  | [], g, g1, hw, hfix, h => by
    cases h
    exact ⟨hw, hfix, fun _ => rfl⟩
  | .guard r :: ops, g, g1, hw, hfix, h => by
    cases hp : placeGuard g r with
    | error e =>
      rw [runOps_guard_stops hp] at h
      cases h
    | ok g2 =>
      rw [runOps_guard hp] at h
      obtain ⟨-, hc, rfl⟩ := placeGuard_ok hw hp
      obtain ⟨h1, h2, h3⟩ := runOps_shape fuel ops _ g1 (WF_setCell hw hc GUARD)
        (by rw [setCell_fixed]; exact hfix) h
      exact ⟨h1, h2, fun x => by rw [h3, contains_setCell]⟩
  | .lock r :: ops, g, g1, hw, hfix, h => by
    cases hp : lockRoom g r with
    | error e =>
      rw [runOps_lock_stops hp] at h
      cases h
    | ok g2 =>
      rw [runOps_lock hp] at h
      obtain ⟨-, hc, rfl⟩ := lockRoom_ok hw hp
      obtain ⟨h1, h2, h3⟩ := runOps_shape fuel ops _ g1 (WF_setCell hw hc LOCKED)
        (by rw [setCell_fixed]; exact hfix) h
      exact ⟨h1, h2, fun x => by rw [h3, contains_setCell]⟩
  | .score :: ops, g, g1, hw, hfix, h => by
    cases hp : Score fuel g with
    | error e =>
      rw [runOps_score_stops hp] at h
      cases h
    | ok g2 =>
      rw [runOps_score hp] at h
      obtain ⟨g3, h3, hf3⟩ := Score_frame hw
      have e1 := Score_mono (le_max_left fuel (scoreFuel g)) hp
      rw [h3 _ (le_max_right fuel (scoreFuel g))] at e1
      cases e1
      obtain ⟨h1, h2, h4⟩ := runOps_shape fuel ops _ g1 hf3.1
        (by rw [hf3.2.2.2.1]; exact hfix) h
      exact ⟨h1, h2, fun x => by rw [h4, Frame_contains hf3]⟩

theorem lock_then_Score {g : grid} {r : room} (hw : WF g) (hfix : g.fixed = false)
    (hc : contains g r = true) :
    ∃ gl g2, lockRoom g r = .ok gl ∧ ScoresTo gl g2 ∧
      ∀ x, contains g x = true → x ≠ r →
        cell gl x = cell g x ∧ (0 < cell g x → 0 < cell g2 x ∧ cell g2 x ≤ cell g x) := by
  have hwl := WF_setCell hw hc LOCKED
  obtain ⟨g2, h2, -, hkeep⟩ := Score_never_raises hwl
  refine ⟨_, g2, lockRoom_eq hw hfix hc, h2, fun x hx hne => ?_⟩
  have hv := cell_setCell_ne hw hc LOCKED hx hne
  refine ⟨hv, fun hpos => ?_⟩
  have ho : isOpen (setCell g r LOCKED) x = true := by
    rw [isOpen_iff, contains_setCell, hv]
    refine ⟨hx, ?_, ?_⟩
    · unfold GUARD
      omega
    · unfold LOCKED
      omega
  have := hkeep x ho (by rw [hv]; exact hpos)
  rw [hv] at this
  exact this

/-! ## The values where the sentinel is out of reach -/

/-- Where the sentinel is out of reach the values are the distances: on a grid configured by
`NewGrid` and in-bounds `placeGuard` / `lockRoom` calls, fixed or not, `Score` returns, and
every open room whose shortest path from a guard (up/down/left/right steps, every room after
the guard open) has a length `d` of at most `MaxInt32 + 1` holds exactly `d` afterwards. -/
theorem Score_exact_below_sentinel (g : grid) (c : room) (d : Nat) (hb : Built g)
    (ho : isOpen g c = true) (hd : IsDist g c d) (hle : (d : Int) ≤ MaxInt32 + 1) :
    ∃ g1, ScoresTo g g1 ∧ cell g1 c = (d : Int) := by
  obtain ⟨g1, h1, -, -, hv, -⟩ := Score_values (Built_WF hb) (Sound_Built hb)
  refine ⟨g1, h1, ?_⟩
  rw [hv c d ho hd]
  exact min_eq_left hle

/-- The corner of the grid of `TestSmall`: two steps from the guard in the middle, and `Score`
leaves 2 in it. -/
theorem Score_exact_small :
    Built smallGrid ∧ isOpen smallGrid ⟨0, 0⟩ = true ∧ IsDist smallGrid ⟨0, 0⟩ 2 ∧
      ((2 : Nat) : Int) ≤ MaxInt32 + 1 ∧
      ∃ g1, ScoresTo smallGrid g1 ∧ cell g1 ⟨0, 0⟩ = ((2 : Nat) : Int) :=
  ⟨Built_smallGrid, by decide, IsDist_smallGrid, by decide,
    Score_exact_below_sentinel smallGrid ⟨0, 0⟩ 2 Built_smallGrid (by decide) IsDist_smallGrid
      (by decide)⟩

/-- Where the sentinel is out of reach the values obey the adjacency law: on a configured grid
`Score` returns, and afterwards (1) every open room holding a value `d` with
`1 < d <= MaxInt32` has an open room one step away holding exactly `d - 1`, and (2) two open
rooms one step apart that both hold positive values differ by at most 1. -/
theorem adjacency_below_sentinel (g : grid) (hb : Built g) :
    ∃ g1, ScoresTo g g1 ∧
      (∀ c, isOpen g c = true → 1 < cell g1 c → cell g1 c ≤ MaxInt32 →
        ∃ n ∈ proposeNeighbors c, isOpen g n = true ∧ cell g1 n = cell g1 c - 1) ∧
      (∀ a b, isOpen g a = true → isOpen g b = true → b ∈ proposeNeighbors a →
        0 < cell g1 a → 0 < cell g1 b →
        cell g1 b ≤ cell g1 a + 1 ∧ cell g1 a ≤ cell g1 b + 1) := by
  obtain ⟨g1, h1, -, hs, hu⟩ := Score_correct (Built_WF hb) (Sound_Built hb)
  exact ⟨g1, h1, fun c ho hc hM => neighbour_below hs hu ho hc hM,
    fun a b ha hb1 hadj hpa hpb =>
      ⟨neighbour_close hs hu ha hb1 hadj hpa, neighbour_close hs hu hb1 ha (adj_symm hadj) hpb⟩⟩

/-- The corner of the grid of `TestSmall` holds 2 after `Score` and has an open neighbour
holding 1. -/
theorem adjacency_small :
    Built smallGrid ∧
    ∃ g1, ScoresTo smallGrid g1 ∧ 1 < cell g1 ⟨0, 0⟩ ∧
      ∃ n ∈ proposeNeighbors ⟨0, 0⟩, isOpen smallGrid n = true ∧
        cell g1 n = cell g1 ⟨0, 0⟩ - 1 := by
  obtain ⟨g1, h1, h2, -⟩ := adjacency_below_sentinel smallGrid Built_smallGrid
  have he := ScoresTo_smallGrid h1
  subst he
  exact ⟨Built_smallGrid, smallScored, h1, by decide,
    h2 ⟨0, 0⟩ (by decide) (by decide) (by decide)⟩

/-- Where the sentinel is out of reach the placeholder is not used: on a configured grid,
whenever `Score` applies the else branch of `calcDistance` to a room, an open neighbour of that
room already holds a positive value, and `Score` returns a grid in which every room holds
`GUARD`, `LOCKED`, 0, or a positive value strictly below `rMax * cMax` and at most
`MaxInt32 + 1`.  When `rMax * cMax <= MaxInt32 + 1` that neighbour's value is below `MaxInt32`,
and no room holds `MaxInt32 + 1`. -/
theorem placeholder_unused_below_sentinel (g : grid) (hb : Built g) :
    (∀ gd r gcur, Applies g gd r gcur → abs (gd.r - r.r) + abs (gd.c - r.c) ≠ 1 →
      ∃ ns, neighbors gcur r = .ok ns ∧ ∃ n ∈ ns, 0 < cell gcur n ∧
        (g.rMax * g.cMax ≤ MaxInt32 + 1 → cell gcur n < MaxInt32)) ∧
    ∃ g1, ScoresTo g g1 ∧ ∀ x, contains g x = true →
      cell g1 x = GUARD ∨ cell g1 x = LOCKED ∨ cell g1 x = 0 ∨
        (0 < cell g1 x ∧ cell g1 x < g.rMax * g.cMax ∧ cell g1 x ≤ MaxInt32 + 1 ∧
          (g.rMax * g.cMax ≤ MaxInt32 + 1 → cell g1 x ≠ MaxInt32 + 1)) := by
  have hw := Built_WF hb
  have hs := Sound_Built hb
  constructor
  · rintro gd r gcur ⟨gs, rest, ns, q, V, hgs, hn, hloop, -⟩ hnadj
    obtain ⟨hf, hsg, hrem⟩ := GuardState_inv hw hs hgs
    have hg := hrem gd (List.mem_cons_self _ _)
    rw [neighbors_eq hf.1, Frame_openNbrs hf] at hn
    cases hn
    obtain ⟨lv, hl⟩ := exists_level g gd
    obtain ⟨hf1, hP⟩ := LoopState_inv hl hg hf hsg hloop
    obtain ⟨p, hp, hpos, hple, hlp, hrr⟩ := else_branch_neighbour hl hg hf1 hP hnadj
    refine ⟨openNbrs gcur r, neighbors_eq hf1.1 r, p, hp, hpos, fun hsmall => ?_⟩
    have h1 := level_lt_rooms hl hg hrr
    have h2 := rooms_cast hw (isOpen_iff.1 (Reach_open hrr)).1
    have h3 : ((lv r : Nat) : Int) < ((g.rMax.toNat * g.cMax.toNat : Nat) : Int) := by
      exact_mod_cast h1
    rw [h2] at h3
    have h4 : ((lv r : Nat) : Int) = (lv p : Int) + 1 := by
      rw [← hlp]
      push_cast
      rfl
    omega
  · obtain ⟨g1, h1, hf1, hs1, hu1⟩ := Score_correct hw hs
    refine ⟨g1, h1, fun x hx => ?_⟩
    by_cases ho : isOpen g x = true
    · by_cases h0 : cell g1 x = 0
      · exact Or.inr (Or.inr (Or.inl h0))
      · obtain ⟨h2, h3, h4⟩ := value_lt_rooms hs1 hu1 ho h0
        rw [rooms_cast hw hx] at h3
        exact Or.inr (Or.inr (Or.inr ⟨h2, h3, h4, fun hsmall => by omega⟩))
    · simp only [Bool.not_eq_true] at ho
      rw [hf1.2.2.2.2.2 x hx ho]
      by_cases hg : cell g x = GUARD
      · exact Or.inl hg
      · by_cases hl : cell g x = LOCKED
        · exact Or.inr (Or.inl hl)
        · rw [isOpen_iff.2 ⟨hx, hg, hl⟩] at ho
          cases ho

/-- In the row `[GUARD, 0, 0]` the pass of the guard reaches the last room through the else
branch once the middle room holds 1. -/
theorem placeholder_unused_small :
    Built corridor3 ∧
    Applies corridor3 ⟨0, 0⟩ ⟨0, 2⟩ ⟨[[GUARD, 1, 0]], 3, 1, false⟩ ∧
    abs ((0 : Int) - 0) + abs ((0 : Int) - 2) ≠ 1 ∧
    (∃ ns, neighbors ⟨[[GUARD, 1, 0]], 3, 1, false⟩ ⟨0, 2⟩ = .ok ns ∧
      ∃ n ∈ ns, 0 < cell ⟨[[GUARD, 1, 0]], 3, 1, false⟩ n ∧
        (corridor3.rMax * corridor3.cMax ≤ MaxInt32 + 1 →
          cell ⟨[[GUARD, 1, 0]], 3, 1, false⟩ n < MaxInt32)) ∧
    ∃ g1, ScoresTo corridor3 g1 ∧ ∀ x, contains corridor3 x = true →
      cell g1 x = GUARD ∨ cell g1 x = LOCKED ∨ cell g1 x = 0 ∨
        (0 < cell g1 x ∧ cell g1 x < corridor3.rMax * corridor3.cMax ∧
          cell g1 x ≤ MaxInt32 + 1 ∧
          (corridor3.rMax * corridor3.cMax ≤ MaxInt32 + 1 → cell g1 x ≠ MaxInt32 + 1)) :=
  ⟨Built_corridor3, Applies_corridor3, by decide,
    (placeholder_unused_below_sentinel corridor3 Built_corridor3).1 ⟨0, 0⟩ ⟨0, 2⟩ _ Applies_corridor3
      (by decide),
    (placeholder_unused_below_sentinel corridor3 Built_corridor3).2⟩

/-! ## The claims -/

/-- C1 fails on the code: after `NewGrid(1, 2147483650)` and `placeGuard(room{0, 0})` the
last room of the row is open, its shortest path from the guard has 2147483649 steps, and
`Score` leaves 2147483648 (`MaxInt32 + 1`) in it, not that length: `calcDistance` starts its
minimum at `MaxInt32` and passes over the 2147483648 of the neighbour. -/
theorem Score_caps_long_corridor :
    Built longGrid ∧ isOpen longGrid ⟨0, 2147483649⟩ = true ∧
      IsDist longGrid ⟨0, 2147483649⟩ 2147483649 ∧
      (∃ g1, ScoresTo longGrid g1 ∧ cell g1 ⟨0, 2147483649⟩ = 2147483648) ∧
      ¬ ∀ (g : grid) (c : room) (d : Nat), Built g → isOpen g c = true → IsDist g c d →
        ∃ g1, ScoresTo g g1 ∧ cell g1 c = (d : Int) := by
  have ho : isOpen longGrid ⟨0, 2147483649⟩ = true :=
    isOpen_longGrid (k := 2147483649) (by omega) (by omega)
  obtain ⟨g1, h1, -, -, hv, -⟩ := Score_values WF_longGrid (Sound_Built Built_longGrid)
  have hval : cell g1 ⟨0, 2147483649⟩ = 2147483648 := by
    rw [hv _ _ ho IsDist_longGrid]
    unfold MaxInt32
    norm_num
  refine ⟨Built_longGrid, ho, IsDist_longGrid, ⟨g1, h1, hval⟩, fun hall => ?_⟩
  obtain ⟨g2, h2, hval2⟩ := hall longGrid _ _ Built_longGrid ho IsDist_longGrid
  rw [← ScoresTo_unique h1 h2, hval] at hval2
  norm_num at hval2

/-- C2: on a grid configured by `NewGrid` and in-bounds `placeGuard` / `lockRoom` calls, `Score`
returns, and an open room that no guard reaches by a path through open rooms still holds
`UNREACHABLE` (0) afterwards. -/
theorem Score_unreachable_zero (g : grid) (c : room) (hb : Built g) (ho : isOpen g c = true)
    (hno : ∀ n, ¬ GuardWalk g n c) : ∃ g1, ScoresTo g g1 ∧ cell g1 c = UNREACHABLE := by
  obtain ⟨g1, h1, -, -, -, hz⟩ := Score_values (Built_WF hb) (Sound_Built hb)
  exact ⟨g1, h1, hz c ho hno⟩

/-- The room behind the locked room of `wallGrid`: no guard reaches it, and `Score` leaves 0
in it. -/
theorem Score_unreachable_zero_witness :
    Built wallGrid ∧ isOpen wallGrid ⟨0, 2⟩ = true ∧ (∀ n, ¬ GuardWalk wallGrid n ⟨0, 2⟩) ∧
      ∃ g1, ScoresTo wallGrid g1 ∧ cell g1 ⟨0, 2⟩ = UNREACHABLE :=
  ⟨Built_wallGrid, by decide, no_GuardWalk_wallGrid,
    Score_unreachable_zero wallGrid ⟨0, 2⟩ Built_wallGrid (by decide) no_GuardWalk_wallGrid⟩


/-- C3: on every well-formed grid `Score` returns, and it writes only to open rooms: a room
that holds `GUARD` or `LOCKED` holds the same marker afterwards, an open room holds neither
marker afterwards, and the shape, the bounds `rMax`, `cMax` and the `fixed` flag are as before. -/
theorem Score_writes_only_open (g : grid) (hw : WF g) :
    ∃ g1, ScoresTo g g1 ∧ WF g1 ∧ g1.rMax = g.rMax ∧ g1.cMax = g.cMax ∧ g1.fixed = g.fixed ∧
      ∀ x, contains g x = true →
        (cell g x = GUARD → cell g1 x = GUARD) ∧ (cell g x = LOCKED → cell g1 x = LOCKED) ∧
        (cell g x ≠ GUARD → cell g x ≠ LOCKED → cell g1 x ≠ GUARD ∧ cell g1 x ≠ LOCKED) := by
  obtain ⟨g1, hs, hw1, hR, hC, hF, hopen, hkeep⟩ := Score_frame hw
  refine ⟨g1, hs, hw1, hR, hC, hF, fun x hx => ⟨fun h => ?_, fun h => ?_, fun h1 h2 => ?_⟩⟩
  · rw [hkeep x hx (by unfold isOpen; simp [h]), h]
  · rw [hkeep x hx (by unfold isOpen; simp [h]), h]
  · have ho : isOpen g1 x = true := by
      rw [hopen x]
      exact isOpen_iff.2 ⟨hx, h1, h2⟩
    exact (isOpen_iff.1 ho).2

/-- The frame of `Score` on the grid of `TestSmall`. -/
theorem Score_writes_only_open_witness :
    WF smallGrid ∧
    ∃ g1, ScoresTo smallGrid g1 ∧ WF g1 ∧ g1.rMax = smallGrid.rMax ∧
      g1.cMax = smallGrid.cMax ∧ g1.fixed = smallGrid.fixed ∧
      ∀ x, contains smallGrid x = true →
        (cell smallGrid x = GUARD → cell g1 x = GUARD) ∧
        (cell smallGrid x = LOCKED → cell g1 x = LOCKED) ∧
        (cell smallGrid x ≠ GUARD → cell smallGrid x ≠ LOCKED →
          cell g1 x ≠ GUARD ∧ cell g1 x ≠ LOCKED) :=
  ⟨by decide, Score_writes_only_open smallGrid (by decide)⟩

/-- C4: `Score` is idempotent on a configured grid: `Score` returns a grid, and `Score` on that
grid returns the very same grid, so a second call leaves the matrix as the first made it. -/
theorem Score_idempotent (g : grid) (hb : Built g) :
    ∃ g1, ScoresTo g g1 ∧ ScoresTo g1 g1 :=
  Score_twice (Built_WF hb) (Sound_Built hb)

/-- Scoring the grid of `TestSmall` twice. -/
theorem Score_idempotent_witness :
    Built smallGrid ∧ ∃ g1, ScoresTo smallGrid g1 ∧ ScoresTo g1 g1 :=
  ⟨Built_smallGrid, Score_idempotent smallGrid Built_smallGrid⟩

/-- C5: on a well-formed grid that is not fixed, `placeGuard` and `lockRoom` stop with the
`validRoom` failure when the room is outside `[0, rMax) x [0, cMax)`, and otherwise return the
grid with exactly that room set to `GUARD` (resp. `LOCKED`), every other room, the bounds and
the `fixed` flag unchanged. -/
theorem placement_in_bounds (g : grid) (r : room) (hw : WF g) (hf : g.fixed = false) :
    (contains g r = false →
      placeGuard g r = .error (.notValidRoom r.r r.c) ∧
      lockRoom g r = .error (.notValidRoom r.r r.c)) ∧
    (contains g r = true →
      ∃ g1 g2, placeGuard g r = .ok g1 ∧ Places g r GUARD g1 ∧
        lockRoom g r = .ok g2 ∧ Places g r LOCKED g2) := by
  refine ⟨fun hc => ⟨placeGuard_out hf hc, lockRoom_out hf hc⟩, fun hc => ?_⟩
  exact ⟨_, _, placeGuard_eq hw hf hc, Places_setCell hw hc GUARD,
    lockRoom_eq hw hf hc, Places_setCell hw hc LOCKED⟩

/-- Placement at room (1, 1) of the empty 2 x 2 grid. -/
theorem placement_in_bounds_witness :
    WF emptyGrid2 ∧ emptyGrid2.fixed = false ∧
    ((contains emptyGrid2 ⟨1, 1⟩ = false →
      placeGuard emptyGrid2 ⟨1, 1⟩ = .error (.notValidRoom 1 1) ∧
      lockRoom emptyGrid2 ⟨1, 1⟩ = .error (.notValidRoom 1 1)) ∧
    (contains emptyGrid2 ⟨1, 1⟩ = true →
      ∃ g1 g2, placeGuard emptyGrid2 ⟨1, 1⟩ = .ok g1 ∧ Places emptyGrid2 ⟨1, 1⟩ GUARD g1 ∧
        lockRoom emptyGrid2 ⟨1, 1⟩ = .ok g2 ∧ Places emptyGrid2 ⟨1, 1⟩ LOCKED g2)) :=
  ⟨by decide, rfl, placement_in_bounds emptyGrid2 ⟨1, 1⟩ (by decide) rfl⟩

/-- C6: `Fix` is an idempotent one-way gate: it changes only the `fixed` flag, and after it
every `placeGuard` and `lockRoom` stops with the fixed-locations failure, whatever the room. -/
theorem Fix_one_way_gate (g : grid) (r : room) :
    Fix (Fix g) = Fix g ∧ (Fix g).fixed = true ∧ (Fix g).dist = g.dist ∧
      (Fix g).rMax = g.rMax ∧ (Fix g).cMax = g.cMax ∧
      placeGuard (Fix g) r = .error .locationsFixed ∧
      lockRoom (Fix g) r = .error .locationsFixed :=
  ⟨rfl, rfl, rfl, rfl, rfl, rfl, rfl⟩

/-- C7: placement is last-write-wins: on a well-formed grid that is not fixed and a room inside
it, placing a kind on top of either kind gives the grid that placing it alone gives. -/
theorem placement_last_write_wins (g : grid) (r : room) (hw : WF g) (hf : g.fixed = false)
    (hc : contains g r = true) :
    ∃ gG gL, placeGuard g r = .ok gG ∧ lockRoom g r = .ok gL ∧
      placeGuard gG r = .ok gG ∧ lockRoom gG r = .ok gL ∧
      placeGuard gL r = .ok gG ∧ lockRoom gL r = .ok gL := by
  have hwG := WF_setCell hw hc GUARD
  have hwL := WF_setCell hw hc LOCKED
  have hfG : (setCell g r GUARD).fixed = false := by rw [setCell_fixed]; exact hf
  have hfL : (setCell g r LOCKED).fixed = false := by rw [setCell_fixed]; exact hf
  have hcG : contains (setCell g r GUARD) r = true := by rw [contains_setCell]; exact hc
  have hcL : contains (setCell g r LOCKED) r = true := by rw [contains_setCell]; exact hc
  refine ⟨_, _, placeGuard_eq hw hf hc, lockRoom_eq hw hf hc, ?_, ?_, ?_, ?_⟩
  · rw [placeGuard_eq hwG hfG hcG, setCell_setCell hw hc]
  · rw [lockRoom_eq hwG hfG hcG, setCell_setCell hw hc]
  · rw [placeGuard_eq hwL hfL hcL, setCell_setCell hw hc]
  · rw [lockRoom_eq hwL hfL hcL, setCell_setCell hw hc]

/-- Placing twice at room (0, 1) of the empty 2 x 2 grid. -/
theorem placement_last_write_wins_witness :
    WF emptyGrid2 ∧ emptyGrid2.fixed = false ∧ contains emptyGrid2 ⟨0, 1⟩ = true ∧
    ∃ gG gL, placeGuard emptyGrid2 ⟨0, 1⟩ = .ok gG ∧ lockRoom emptyGrid2 ⟨0, 1⟩ = .ok gL ∧
      placeGuard gG ⟨0, 1⟩ = .ok gG ∧ lockRoom gG ⟨0, 1⟩ = .ok gL ∧
      placeGuard gL ⟨0, 1⟩ = .ok gG ∧ lockRoom gL ⟨0, 1⟩ = .ok gL :=
  ⟨by decide, rfl, rfl, placement_last_write_wins emptyGrid2 ⟨0, 1⟩ (by decide) rfl rfl⟩

/-- C8, as the code has it: `NewGrid` checks no dimension itself.  It stops with the panic of
`make` whenever the row count is negative, or positive with a negative column count.  With a
row count of 0 it returns a grid without rows whatever the column count, and with a column
count of 0 and a row count `make` accepts it returns a grid of rows without cells. -/
theorem NewGrid_nonpositive (R C : Int) :
    ((R < 0 ∨ (0 < R ∧ C < 0)) → NewGrid R C = .error .makeLen) ∧
    (NewGrid 0 C = .ok ⟨[], C, 0, false⟩) ∧
    (0 ≤ R → sliceSize * R ≤ maxAlloc →
      NewGrid R 0 = .ok ⟨List.replicate R.toNat [], 0, R, false⟩) := by
  refine ⟨?_, NewGrid_zero C, fun hR hRa => NewGrid_eq hR hRa (le_refl 0) (by decide)⟩
  rintro (hR | ⟨hR, hC⟩)
  · exact NewGrid_fails (Or.inl (Or.inl hR))
  · exact NewGrid_fails (Or.inr ⟨hR, Or.inl hC⟩)

/-- The calls `NewGrid(-1, 3)`, `NewGrid(2, -1)`, `NewGrid(0, -7)` and `NewGrid(2, 0)`. -/
theorem NewGrid_nonpositive_witness :
    NewGrid (-1) 3 = .error .makeLen ∧ NewGrid 2 (-1) = .error .makeLen ∧
    NewGrid 0 (-7) = .ok ⟨[], -7, 0, false⟩ ∧
    NewGrid 2 0 = .ok ⟨[[], []], 0, 2, false⟩ :=
  ⟨(NewGrid_nonpositive (-1) 3).1 (Or.inl (by decide)),
    (NewGrid_nonpositive 2 (-1)).1 (Or.inr ⟨by decide, by decide⟩),
    (NewGrid_nonpositive 0 (-7)).2.1,
    (NewGrid_nonpositive 2 0).2.2 (by decide) (by decide)⟩

/-- C8 fails on the code: `NewGrid(0, 5)` returns a grid with no rows, so not every
non-positive row or column count makes `NewGrid` fail. -/
theorem NewGrid_zero_rows_returns :
    NewGrid 0 5 = .ok ⟨[], 5, 0, false⟩ ∧
      ¬ ∀ R C : Int, (R < 1 ∨ C < 1) → ∃ e, NewGrid R C = .error e := by
  refine ⟨rfl, fun h => ?_⟩
  obtain ⟨e, he⟩ := h 0 5 (Or.inl (by decide))
  rw [NewGrid_zero] at he
  cases he

/-- C9, as the code has it: for `rows >= 1` and `cols >= 1` that `make` accepts (the bytes of
`rows` slice headers and of `cols` ints are within the limit of one allocation), `NewGrid`
returns a grid with those bounds, a matrix of `rows` rows of `cols` cells, every cell
`UNREACHABLE` (no guard, no locked room), and `fixed = false`. -/
theorem NewGrid_positive (R C : Int) (hR : 1 ≤ R) (hC : 1 ≤ C)
    (hRa : sliceSize * R ≤ maxAlloc) (hCa : intSize * C ≤ maxAlloc) :
    ∃ g, NewGrid R C = .ok g ∧ g.rMax = R ∧ g.cMax = C ∧ g.fixed = false ∧
      (g.dist.length : Int) = R ∧
      (∀ row ∈ g.dist, (row.length : Int) = C ∧ ∀ v ∈ row, v = UNREACHABLE) ∧
      ∀ x, contains g x = true →
        readDist g x = .ok UNREACHABLE ∧ isGuard g x = false ∧ isLocked g x = false := by
  have hrows : ∀ row ∈ List.replicate R.toNat (List.replicate C.toNat (0 : Int)),
      (row.length : Int) = C ∧ ∀ v ∈ row, v = UNREACHABLE := by
    intro row hrow
    rw [List.eq_of_mem_replicate hrow, List.length_replicate]
    exact ⟨by omega, fun v hv => List.eq_of_mem_replicate hv⟩
  refine ⟨_, NewGrid_eq (by omega) hRa (by omega) hCa, rfl, rfl, rfl, ?_, hrows, ?_⟩
  · simp only [List.length_replicate]
    omega
  · intro x hx
    have hw : WF ⟨List.replicate R.toNat (List.replicate C.toNat 0), C, R, false⟩ :=
      ⟨by simp only; omega, by simp only [List.length_replicate], fun row hrow => (hrows row hrow).1⟩
    obtain ⟨row, hrow, hv⟩ := cell_spec hw hx
    have h0 : cell ⟨List.replicate R.toNat (List.replicate C.toNat 0), C, R, false⟩ x = 0 :=
      (hrows row (List.mem_iff_getElem?.mpr ⟨_, hrow⟩)).2 _ (List.mem_iff_getElem?.mpr ⟨_, hv⟩)
    refine ⟨by rw [readDist_of_contains hw hx, h0]; rfl, ?_, ?_⟩
    · unfold isGuard
      rw [h0]
      simp [GUARD]
    · unfold isLocked
      rw [h0]
      simp [LOCKED]

/-- The grid `NewGrid(2, 3)`. -/
theorem NewGrid_positive_witness :
    (1 : Int) ≤ 2 ∧ (1 : Int) ≤ 3 ∧ sliceSize * 2 ≤ maxAlloc ∧ intSize * 3 ≤ maxAlloc ∧
    ∃ g, NewGrid 2 3 = .ok g ∧ g.rMax = 2 ∧ g.cMax = 3 ∧ g.fixed = false ∧
      (g.dist.length : Int) = 2 ∧
      (∀ row ∈ g.dist, (row.length : Int) = 3 ∧ ∀ v ∈ row, v = UNREACHABLE) ∧
      ∀ x, contains g x = true →
        readDist g x = .ok UNREACHABLE ∧ isGuard g x = false ∧ isLocked g x = false :=
  ⟨by decide, by decide, by decide, by decide,
    NewGrid_positive 2 3 (by decide) (by decide) (by decide) (by decide)⟩

/-- C9 fails on the code: `NewGrid(1 << 62, 1)` stops with the panic of `make`, its row slice
being beyond the limit of one allocation, so not every pair of positive counts gives a
grid. -/
theorem NewGrid_huge_rows_stops :
    NewGrid 4611686018427387904 1 = .error .makeLen ∧
      ¬ ∀ R C : Int, 1 ≤ R → 1 ≤ C → ∃ g, NewGrid R C = .ok g := by
  have h : NewGrid 4611686018427387904 1 = .error .makeLen :=
    NewGrid_fails (Or.inl (Or.inr (by decide)))
  refine ⟨h, fun hall => ?_⟩
  obtain ⟨g, hg⟩ := hall 4611686018427387904 1 (by decide) (by decide)
  rw [h] at hg
  cases hg

/-- C10: on a well-formed grid `contains` is the bounds test and never fails, and `guarded`
and `locked` stop with the `validRoom` failure exactly when it is false; otherwise they return
whether the value read at the room is `GUARD` (resp. `LOCKED`).  None of them returns a grid:
they have no assignment to the matrix. -/
theorem queries_bounds_checked (g : grid) (r : room) (hw : WF g) :
    (contains g r = true ↔ 0 ≤ r.r ∧ r.r < g.rMax ∧ 0 ≤ r.c ∧ r.c < g.cMax) ∧
    (contains g r = false →
      guarded g r = .error (.notValidRoom r.r r.c) ∧
      locked g r = .error (.notValidRoom r.r r.c)) ∧
    (contains g r = true →
      ∃ v, readDist g r = .ok v ∧ guarded g r = .ok (decide (v = GUARD)) ∧
        locked g r = .ok (decide (v = LOCKED))) :=
  ⟨contains_iff g r,
    fun hc => ⟨guarded_of_not_contains hc, locked_of_not_contains hc⟩,
    fun hc => ⟨cell g r, readDist_of_contains hw hc, guarded_of_contains hw hc,
      locked_of_contains hw hc⟩⟩

/-- The queries at the guard room of the grid of `TestSmall`. -/
theorem queries_bounds_checked_witness :
    WF smallGrid ∧
    ((contains smallGrid ⟨1, 1⟩ = true ↔
      0 ≤ (1 : Int) ∧ (1 : Int) < smallGrid.rMax ∧ 0 ≤ (1 : Int) ∧ (1 : Int) < smallGrid.cMax) ∧
    (contains smallGrid ⟨1, 1⟩ = false →
      guarded smallGrid ⟨1, 1⟩ = .error (.notValidRoom 1 1) ∧
      locked smallGrid ⟨1, 1⟩ = .error (.notValidRoom 1 1)) ∧
    (contains smallGrid ⟨1, 1⟩ = true →
      ∃ v, readDist smallGrid ⟨1, 1⟩ = .ok v ∧ guarded smallGrid ⟨1, 1⟩ = .ok (decide (v = GUARD)) ∧
        locked smallGrid ⟨1, 1⟩ = .ok (decide (v = LOCKED)))) :=
  ⟨by decide, queries_bounds_checked smallGrid ⟨1, 1⟩ (by decide)⟩

/-- C11: guard-adjacency law: on every well-formed grid (whatever its open rooms hold, so also
when they hold non-negative values) `Score` returns, and afterwards every open room that is one
step up, down, left or right of a guard room holds exactly 1. -/
theorem guard_adjacent_one (g : grid) (gd c : room) (hw : WF g) (hg : isGuard g gd = true)
    (hadj : c ∈ proposeNeighbors gd) (ho : isOpen g c = true) :
    ∃ g1, ScoresTo g g1 ∧ cell g1 c = 1 := by
  obtain ⟨g1, h1, -, h2⟩ := Score_adjacent_one hw
  exact ⟨g1, h1, h2 gd hg c (mem_openNbrs.2 ⟨hadj, ho⟩)⟩

/-- The room above the guard of the grid of `TestSmall` holds 1 after `Score`. -/
theorem guard_adjacent_one_witness :
    WF smallGrid ∧ isGuard smallGrid ⟨1, 1⟩ = true ∧
      (⟨0, 1⟩ : room) ∈ proposeNeighbors ⟨1, 1⟩ ∧ isOpen smallGrid ⟨0, 1⟩ = true ∧
      ∃ g1, ScoresTo smallGrid g1 ∧ cell g1 ⟨0, 1⟩ = 1 :=
  ⟨by decide, by decide, by decide, by decide,
    guard_adjacent_one smallGrid ⟨1, 1⟩ ⟨0, 1⟩ (by decide) (by decide) (by decide) (by decide)⟩

/-- C12 fails on the code: after `NewGrid(1, 2147483650)` and `placeGuard(room{0, 0})` the
last room of the row holds 2147483648 after `Score` and none of the four rooms one step from
it holds 2147483647 (the one inside the grid holds 2147483648 as well): `calcDistance` starts
its minimum at `MaxInt32` and passes over the 2147483648 of the neighbour. -/
theorem adjacency_fails_long_corridor :
    Built longGrid ∧ isOpen longGrid ⟨0, 2147483649⟩ = true ∧
      (∃ g1, ScoresTo longGrid g1 ∧ cell g1 ⟨0, 2147483649⟩ = 2147483648 ∧
        ∀ n ∈ proposeNeighbors ⟨0, 2147483649⟩, cell g1 n ≠ 2147483647) ∧
      ¬ ∀ g : grid, Built g → ∃ g1, ScoresTo g g1 ∧
        ∀ c, isOpen g c = true → 1 < cell g1 c →
          ∃ n ∈ proposeNeighbors c, cell g1 n = cell g1 c - 1 := by
  have ho : isOpen longGrid ⟨0, 2147483649⟩ = true :=
    isOpen_longGrid (k := 2147483649) (by omega) (by omega)
  obtain ⟨g1, h1, hw1, hc1, hv⟩ := longGrid_values
  have hM : MaxInt32 = 2147483647 := rfl
  have hlast : cell g1 ⟨0, 2147483649⟩ = 2147483648 := by
    have := hv 2147483649 (by omega) (by omega)
    rw [hM] at this
    norm_num at this
    exact this
  have hprev : cell g1 ⟨0, 2147483648⟩ = 2147483648 := by
    have := hv 2147483648 (by omega) (by omega)
    rw [hM] at this
    norm_num at this
    exact this
  have hout : ∀ x : room, x.r ≠ 0 ∨ 2147483650 ≤ x.c → cell g1 x = 0 := by
    intro x hx
    apply cell_out hw1
    rw [hc1, Bool.eq_false_iff]
    intro hcon
    have := contains_longGrid.1 hcon
    omega
  have hnbrs : ∀ n ∈ proposeNeighbors ⟨0, 2147483649⟩, cell g1 n ≠ 2147483647 := by
    intro n hn
    obtain ⟨nr, nc⟩ := n
    rw [mem_proposeNeighbors] at hn
    simp only at hn
    rcases hn with ⟨rfl, rfl⟩ | ⟨rfl, rfl⟩ | ⟨rfl, rfl⟩ | ⟨rfl, rfl⟩
    · rw [hout _ (Or.inl (by simp only; omega))]
      omega
    · rw [show ((2147483649 : Int) - 1) = 2147483648 from rfl, hprev]
      omega
    · rw [hout _ (Or.inl (by simp only; omega))]
      omega
    · rw [hout _ (Or.inr (by simp only; omega))]
      omega
  refine ⟨Built_longGrid, ho, ⟨g1, h1, hlast, hnbrs⟩, fun hall => ?_⟩
  obtain ⟨g2, h2, hex⟩ := hall longGrid Built_longGrid
  have he := ScoresTo_unique h1 h2
  subst he
  obtain ⟨n, hn, hval⟩ := hex ⟨0, 2147483649⟩ ho (by rw [hlast]; omega)
  rw [hlast] at hval
  exact hnbrs n hn (by rw [hval]; rfl)

/-- C13: `Score` commutes with the symmetries of the grid: on a configured grid `Score`
returns a grid, and `Score` on the layout mirrored left-right, mirrored top-bottom, transposed
or turned by a quarter returns the grid mirrored, transposed or turned in the same way, although
`findGuards` then meets the guards in another order. -/
theorem Score_commutes_with_symmetries (g : grid) (hb : Built g) :
    ∃ g1, ScoresTo g g1 ∧ ScoresTo (mirrorLR g) (mirrorLR g1) ∧
      ScoresTo (mirrorTB g) (mirrorTB g1) ∧ ScoresTo (transpose g) (transpose g1) ∧
      ScoresTo (rotate g) (rotate g1) := by
  have hw := Built_WF hb
  have hs := Sound_Built hb
  by_cases hc : 0 ≤ g.cMax
  · obtain ⟨g1, h1, -, hLR, -⟩ := mirrorLR_scores hw hs
    obtain ⟨g2, h2, -, hTB⟩ := mirrorTB_scores hw hs
    obtain ⟨g3, h3, hT, hRot⟩ := rotate_scores hw hs hc
    have e2 := ScoresTo_unique h1 h2
    have e3 := ScoresTo_unique h1 h3
    subst e2
    subst e3
    exact ⟨g1, h1, hLR, hTB, hT, hRot⟩
  · have hr : g.rMax = 0 := by
      rcases WF_cMax hw with h | h
      · exact h
      · exact absurd h hc
    have h1 : (mirrorLR g).rMax = g.rMax := rfl
    have h2 : (mirrorTB g).rMax = g.rMax := rfl
    have h3 : (transpose g).rMax = g.cMax := rfl
    have h4 : (rotate g).rMax = g.cMax := rfl
    refine ⟨g, Score_no_rooms (by rw [hr]; simp), Score_no_rooms (by rw [h1, hr]; simp),
      Score_no_rooms (by rw [h2, hr]; simp), Score_no_rooms ?_, Score_no_rooms ?_⟩
    · rw [h3, Int.toNat_of_nonpos (by omega)]
      simp
    · rw [h4, Int.toNat_of_nonpos (by omega)]
      simp

/-- The row `[GUARD, 0, 0]` and its images. -/
theorem Score_commutes_with_symmetries_witness :
    Built corridor3 ∧
    ∃ g1, ScoresTo corridor3 g1 ∧ ScoresTo (mirrorLR corridor3) (mirrorLR g1) ∧
      ScoresTo (mirrorTB corridor3) (mirrorTB g1) ∧
      ScoresTo (transpose corridor3) (transpose g1) ∧
      ScoresTo (rotate corridor3) (rotate g1) :=
  ⟨Built_corridor3, Score_commutes_with_symmetries corridor3 Built_corridor3⟩

/-- C14: on a well-formed grid without a guard, or whose guards all have no open neighbour
(each is enclosed by locked rooms, guards or the edge), `Score` returns with any allowance of
loop turns and returns the grid it was given: the matrix is unchanged, so the open rooms of a
freshly configured grid still hold `UNREACHABLE`. -/
theorem Score_without_frontier (g : grid) (hw : WF g)
    (h : (∀ x, isGuard g x = false) ∨
      (∀ gd, isGuard g gd = true → ∀ n ∈ proposeNeighbors gd, isOpen g n = false)) :
    ∀ fuel, Score fuel g = .ok g := by
  intro fuel
  unfold Score
  rw [findGuards_eq hw]
  apply visitRooms_no_nbrs hw
  intro gd hgd
  have hg := mem_findGuards.1 hgd
  rcases h with h | h
  · rw [h gd] at hg
    cases hg
  · exact openNbrs_eq_nil (h gd hg)

/-- The guard of `wallGrid` has a locked room on one side and the edge elsewhere. -/
theorem Score_without_frontier_witness :
    WF wallGrid ∧
    ((∀ x, isGuard wallGrid x = false) ∨
      (∀ gd, isGuard wallGrid gd = true →
        ∀ n ∈ proposeNeighbors gd, isOpen wallGrid n = false)) ∧
    ∀ fuel, Score fuel wallGrid = .ok wallGrid :=
  ⟨by decide, Or.inr wallGrid_guard_enclosed,
    Score_without_frontier wallGrid (by decide) (Or.inr wallGrid_guard_enclosed)⟩

/-- C15, as the code has it: on a grid that is not fixed, for every sequence of in-bounds
`placeGuard` / `lockRoom` calls applied to `NewGrid(R, C)` with `Score` calls between them,
provided no `lockRoom` call follows a `Score` call, the final `Score` returns the same grid as
the final `Score` after the placement calls alone.  And after a `Score` that ends any sequence
of calls, a `lockRoom` leaves the value of every other room as it is, and the `Score` after it
returns and neither raises nor clears a positive value of those rooms. -/
theorem Score_call_order (R C : Int) (g0 : grid) (ops : List Op)
    (hnew : NewGrid R C = .ok g0) (hin : ∀ o ∈ ops, o.inGrid g0 = true)
    (hno : noLockAfterScore ops = true) :
    (∃ g1, ∀ fuel, scoreFuel g0 ≤ fuel →
      runOps fuel g0 (ops ++ [.score]) = .ok g1 ∧
      runOps fuel g0 (placements ops ++ [.score]) = .ok g1) ∧
    ∀ (calls : List Op) (fuel : Nat) (g : grid) (r : room),
      runOps fuel g0 (calls ++ [.score]) = .ok g → contains g0 r = true →
      ∃ gl g2, lockRoom g r = .ok gl ∧ ScoresTo gl g2 ∧
        ∀ x, contains g0 x = true → x ≠ r →
          cell gl x = cell g x ∧ (0 < cell g x → 0 < cell g2 x ∧ cell g2 x ≤ cell g x) := by
  have hfix : g0.fixed = false := by
    obtain ⟨-, -, rfl⟩ := NewGrid_ok hnew
    rfl
  constructor
  · obtain ⟨ga, gb, hrel, hfuel, hrun⟩ :=
      runOps_configure ops g0 (Built.new R C g0 hnew) hfix hin hno
    obtain ⟨g1, hsa, hsb⟩ := SameLayout_scores hrel
    have hfa : scoreFuel ga = scoreFuel g0 := by
      rw [scoreFuel_congr hrel.1.2.1 hrel.1.2.2.1, hfuel]
    refine ⟨g1, fun fuel hle => ?_⟩
    obtain ⟨h1, h2⟩ := hrun fuel hle
    constructor
    · rw [runOps_append fuel ops g0 _ ga h1, runOps_score (hsa fuel (by rw [hfa]; exact hle))]
      rfl
    · rw [runOps_append fuel _ g0 _ gb h2, runOps_score (hsb fuel (by rw [hfuel]; exact hle))]
      rfl
  · intro calls fuel g r hrun hr
    obtain ⟨hw, hf, hc⟩ := runOps_shape fuel _ g0 g (Built_WF (Built.new R C g0 hnew)) hfix hrun
    obtain ⟨gl, g2, h1, h2, h3⟩ := lock_then_Score hw hf (by rw [hc]; exact hr)
    exact ⟨gl, g2, h1, h2, fun x hx hne => h3 x (by rw [hc]; exact hx) hne⟩

/-- A guard, `Score`, then a second guard in a row of three rooms; and, after a guard and a
`Score` in that row, `lockRoom` of the middle room and a second `Score` keep the 2 of the last
room. -/
theorem Score_call_order_witness :
    NewGrid 1 3 = .ok ⟨[[0, 0, 0]], 3, 1, false⟩ ∧
    (∀ o ∈ [Op.guard ⟨0, 0⟩, Op.score, Op.guard ⟨0, 2⟩],
      o.inGrid ⟨[[0, 0, 0]], 3, 1, false⟩ = true) ∧
    noLockAfterScore [Op.guard ⟨0, 0⟩, Op.score, Op.guard ⟨0, 2⟩] = true ∧
    (∃ g1, ∀ fuel, scoreFuel ⟨[[0, 0, 0]], 3, 1, false⟩ ≤ fuel →
      runOps fuel ⟨[[0, 0, 0]], 3, 1, false⟩
        ([Op.guard ⟨0, 0⟩, Op.score, Op.guard ⟨0, 2⟩] ++ [.score]) = .ok g1 ∧
      runOps fuel ⟨[[0, 0, 0]], 3, 1, false⟩
        (placements [Op.guard ⟨0, 0⟩, Op.score, Op.guard ⟨0, 2⟩] ++ [.score]) = .ok g1) ∧
    runOps 16 ⟨[[0, 0, 0]], 3, 1, false⟩ ([Op.guard ⟨0, 0⟩] ++ [.score]) =
      .ok ⟨[[GUARD, 1, 2]], 3, 1, false⟩ ∧
    ∃ gl g2, lockRoom ⟨[[GUARD, 1, 2]], 3, 1, false⟩ ⟨0, 1⟩ = .ok gl ∧ ScoresTo gl g2 ∧
      ∀ x, contains ⟨[[0, 0, 0]], 3, 1, false⟩ x = true → x ≠ ⟨0, 1⟩ →
        cell gl x = cell ⟨[[GUARD, 1, 2]], 3, 1, false⟩ x ∧
          (0 < cell ⟨[[GUARD, 1, 2]], 3, 1, false⟩ x →
            0 < cell g2 x ∧ cell g2 x ≤ cell ⟨[[GUARD, 1, 2]], 3, 1, false⟩ x) :=
  ⟨rfl, by decide, by decide,
    (Score_call_order 1 3 ⟨[[0, 0, 0]], 3, 1, false⟩
      [Op.guard ⟨0, 0⟩, Op.score, Op.guard ⟨0, 2⟩] rfl (by decide) (by decide)).1,
    rfl,
    (Score_call_order 1 3 ⟨[[0, 0, 0]], 3, 1, false⟩
      [Op.guard ⟨0, 0⟩, Op.score, Op.guard ⟨0, 2⟩] rfl (by decide) (by decide)).2
      [Op.guard ⟨0, 0⟩] 16 ⟨[[GUARD, 1, 2]], 3, 1, false⟩ ⟨0, 1⟩ rfl (by decide)⟩

/-- C15 fails on the code: in a row of three rooms, place a guard in the first, `Score`, lock
the second, `Score` leaves the 2 of the first `Score` in the third room, while the same
placements followed by one `Score` leave 0 there. -/
theorem Score_call_order_matters :
    NewGrid 1 3 = .ok ⟨[[0, 0, 0]], 3, 1, false⟩ ∧
    runOps 16 ⟨[[0, 0, 0]], 3, 1, false⟩
      ([Op.guard ⟨0, 0⟩, Op.score, Op.lock ⟨0, 1⟩] ++ [.score]) =
        .ok ⟨[[GUARD, LOCKED, 2]], 3, 1, false⟩ ∧
    runOps 16 ⟨[[0, 0, 0]], 3, 1, false⟩
      (placements [Op.guard ⟨0, 0⟩, Op.score, Op.lock ⟨0, 1⟩] ++ [.score]) =
        .ok ⟨[[GUARD, LOCKED, 0]], 3, 1, false⟩ ∧
    ¬ ∀ (R C : Int) (g0 : grid) (ops : List Op), NewGrid R C = .ok g0 →
      (∀ o ∈ ops, o.inGrid g0 = true) →
      ∃ g1, ∀ fuel, scoreFuel g0 ≤ fuel →
        runOps fuel g0 (ops ++ [.score]) = .ok g1 ∧
        runOps fuel g0 (placements ops ++ [.score]) = .ok g1 := by
  have h1 : runOps 16 ⟨[[0, 0, 0]], 3, 1, false⟩
      ([Op.guard ⟨0, 0⟩, Op.score, Op.lock ⟨0, 1⟩] ++ [.score]) =
        .ok ⟨[[GUARD, LOCKED, 2]], 3, 1, false⟩ := rfl
  have h2 : runOps 16 ⟨[[0, 0, 0]], 3, 1, false⟩
      (placements [Op.guard ⟨0, 0⟩, Op.score, Op.lock ⟨0, 1⟩] ++ [.score]) =
        .ok ⟨[[GUARD, LOCKED, 0]], 3, 1, false⟩ := rfl
  refine ⟨rfl, h1, h2, fun hall => ?_⟩
  obtain ⟨g1, hg1⟩ := hall 1 3 ⟨[[0, 0, 0]], 3, 1, false⟩
    [Op.guard ⟨0, 0⟩, Op.score, Op.lock ⟨0, 1⟩] rfl (by decide)
  obtain ⟨e1, e2⟩ := hg1 16 (by decide)
  rw [h1] at e1
  rw [h2] at e2
  cases e1
  cases e2

/-- C16 fails on the code: the floor plan is not coded as the header comment says.  The guard
marker is -2, the locked marker -1 and a room no guard reaches holds 0 (the header says -1, -2
and -3): the grid of one row with a guard, a locked room and a room behind it comes back from
`Score` as `[-2, -1, 0]`. -/
theorem floor_plan_markers :
    GUARD = -2 ∧ LOCKED = -1 ∧ UNREACHABLE = 0 ∧
      runTest 1 3 [⟨0, 0⟩] [⟨0, 1⟩] 16 = .ok ⟨[[-2, -1, 0]], 3, 1, true⟩ :=
  ⟨rfl, rfl, rfl, rfl⟩

/-- C17: `Score` always terminates: on a well-formed grid the queue loop of `calcDistances`
ends, for every guard, within `4 * rMax * cMax + 4` turns (every room is handed to
`calcDistance` at most once in a pass and then adds at most four rooms to the list), and so
`Score` returns a grid. -/
theorem Score_terminates (g : grid) (hw : WF g) :
    (∀ gd, ∃ g1, ∀ fuel, 4 * (g.rMax.toNat * g.cMax.toNat) + 4 ≤ fuel →
      calcDistances fuel g gd (openNbrs g gd) [] = .ok g1) ∧
    (∀ gd, neighbors g gd = .ok (openNbrs g gd)) ∧
    ∃ g1, ∀ fuel, 4 * (g.rMax.toNat * g.cMax.toNat) + 4 ≤ fuel → Score fuel g = .ok g1 := by
  refine ⟨fun gd => ?_, fun gd => neighbors_eq hw gd, ?_⟩
  · obtain ⟨g1, V1, h1, -, -⟩ := calcDistances_rule g gd (fun _ _ _ => True)
      (fun _ _ _ _ _ _ _ => trivial) (fun _ _ _ _ _ _ _ _ _ _ _ _ _ => trivial)
      (scoreFuel g) g (openNbrs g gd) [] (Frame_refl hw) (fun r hr => (mem_openNbrs.1 hr).2)
      List.nodup_nil (fun _ h => absurd h (List.not_mem_nil _)) trivial (pass_fuel g gd)
    exact ⟨g1, fun fuel hle => calcDistances_mono hle h1⟩
  · obtain ⟨g1, h1, -⟩ := Score_frame hw
    exact ⟨g1, h1⟩

/-- The loops of `Score` on the grid of `TestSmall` end within 40 turns. -/
theorem Score_terminates_witness :
    WF smallGrid ∧
    (∀ gd, ∃ g1, ∀ fuel, 4 * (smallGrid.rMax.toNat * smallGrid.cMax.toNat) + 4 ≤ fuel →
      calcDistances fuel smallGrid gd (openNbrs smallGrid gd) [] = .ok g1) ∧
    (∀ gd, neighbors smallGrid gd = .ok (openNbrs smallGrid gd)) ∧
    ∃ g1, ∀ fuel, 4 * (smallGrid.rMax.toNat * smallGrid.cMax.toNat) + 4 ≤ fuel →
      Score fuel smallGrid = .ok g1 :=
  ⟨by decide, Score_terminates smallGrid (by decide)⟩

/-- C18: traversal never leaves the grid: on a well-formed grid `neighbors` returns, and
returns only rooms one step away that are inside the grid and hold neither `GUARD` nor
`LOCKED`; `Score` returns a grid, and whatever the allowance of loop turns it never stops with
the `validRoom` failure or an index out of range (the only other outcome of the embedding is
the allowance running out). -/
theorem traversal_stays_in_grid (g : grid) (hw : WF g) :
    (∀ r, ∃ ns, neighbors g r = .ok ns ∧
      ∀ n ∈ ns, n ∈ proposeNeighbors r ∧ contains g n = true ∧
        cell g n ≠ GUARD ∧ cell g n ≠ LOCKED) ∧
    (∃ g1, ScoresTo g g1) ∧
    ∀ fuel e, Score fuel g = .error e → e = .outOfFuel := by
  refine ⟨fun r => ⟨openNbrs g r, neighbors_eq hw r, fun n hn => ?_⟩, ?_,
    fun fuel e h => Score_error_outOfFuel hw h⟩
  · obtain ⟨h1, h2⟩ := mem_openNbrs.1 hn
    exact ⟨h1, isOpen_iff.1 h2⟩
  · obtain ⟨g1, h1, -⟩ := Score_frame hw
    exact ⟨g1, h1⟩

/-- The neighbours and the outcome of `Score` on the grid of `TestSmall`. -/
theorem traversal_stays_in_grid_witness :
    WF smallGrid ∧
    (∀ r, ∃ ns, neighbors smallGrid r = .ok ns ∧
      ∀ n ∈ ns, n ∈ proposeNeighbors r ∧ contains smallGrid n = true ∧
        cell smallGrid n ≠ GUARD ∧ cell smallGrid n ≠ LOCKED) ∧
    (∃ g1, ScoresTo smallGrid g1) ∧
    ∀ fuel e, Score fuel smallGrid = .error e → e = .outOfFuel :=
  ⟨by decide, traversal_stays_in_grid smallGrid (by decide)⟩

/-- C20 fails on the code: after `NewGrid(1, 2147483650)` and `placeGuard(room{0, 0})` the
placeholder reaches the result of `Score`.  The room in column 2147483648 holds
`MaxInt32 + 1`, and so does the last room, in column 2147483649, whose shortest path from the
guard has 2147483649 steps: `calcDistance` passes over a neighbour holding `MaxInt32` or more
and writes the placeholder plus one. -/
theorem placeholder_in_long_corridor :
    Built longGrid ∧ contains longGrid ⟨0, 2147483648⟩ = true ∧
      contains longGrid ⟨0, 2147483649⟩ = true ∧
      IsDist longGrid ⟨0, 2147483649⟩ 2147483649 ∧
      (∃ g1, ScoresTo longGrid g1 ∧ cell g1 ⟨0, 2147483648⟩ = MaxInt32 + 1 ∧
        cell g1 ⟨0, 2147483649⟩ = MaxInt32 + 1) ∧
      ¬ ∀ g : grid, Built g → ∃ g1, ScoresTo g g1 ∧
        ∀ x, contains g x = true → cell g1 x ≠ MaxInt32 + 1 := by
  have hc : contains longGrid ⟨0, 2147483648⟩ = true := by
    rw [contains_longGrid]
    refine ⟨rfl, ?_, ?_⟩ <;> dsimp only <;> omega
  have hc2 : contains longGrid ⟨0, 2147483649⟩ = true := by
    rw [contains_longGrid]
    refine ⟨rfl, ?_, ?_⟩ <;> dsimp only <;> omega
  obtain ⟨g1, h1, -, -, hv⟩ := longGrid_values
  have hM : MaxInt32 = 2147483647 := rfl
  have hval : cell g1 ⟨0, 2147483648⟩ = MaxInt32 + 1 := by
    have := hv 2147483648 (by omega) (by omega)
    rw [hM] at this ⊢
    norm_num at this
    rw [this]
    rfl
  have hval2 : cell g1 ⟨0, 2147483649⟩ = MaxInt32 + 1 := by
    have := hv 2147483649 (by omega) (by omega)
    rw [hM] at this ⊢
    norm_num at this
    rw [this]
    rfl
  refine ⟨Built_longGrid, hc, hc2, IsDist_longGrid, ⟨g1, h1, hval, hval2⟩, fun hall => ?_⟩
  obtain ⟨g2, h2, hne⟩ := hall longGrid Built_longGrid
  have he := ScoresTo_unique h1 h2
  subst he
  exact hne _ hc hval

end insuranceGuards
